import Mathlib

/-!
# LoRa relay: packet deduplication and multi-target forwarding

A shallow embedding of the relay firmware in
`BASECAMP_CODE_V1/LORA_RELAY_SYSTEM/src` (`Common.h`, `LoRa_Relay.cpp`,
`Forwarder.cpp`, `RELAY_MAIN.cpp`).

Modelling conventions.

* An Arduino `String` is a sequence of 8-bit characters. It is embedded as the
  Lean `String` whose characters carry those byte values; `+` on Arduino strings
  is `++`, `String(n)` is the decimal rendering, `String(n, HEX)` the lower-case
  hexadecimal rendering without padding (both are produced by `ultoa`).
* `unsigned long` is 32 bits wide on the target. Clock readings are natural
  numbers, and every arithmetic step the source performs on `unsigned long`
  is reduced modulo `2 ^ 32`.
* `int` counters (`totalReceived`, `failureCount`, ...) are integers. Signed
  overflow is undefined behaviour in the source language and is not modelled.
* The process-wide globals of the firmware are the fields of one record,
  `Relay`, and every function of the source that touches a global is a
  function on that record. `millis()` is an explicit argument: each modelled
  call reads the clock once.
* Libraries that are not part of the repository (ArduinoJson, the ESP32
  `Preferences` store, the radio and network clients) appear as parameters or
  as small idealised models, each marked where it is introduced.
-/

namespace LoRaRelay

/-! ## Constants of `Common.h` -/

/-- Source `#define MAX_PACKET_HISTORY 1000`. -/
def MAX_PACKET_HISTORY : Nat := 1000

/-- Source `#define PACKET_CLEANUP_INTERVAL 300000` (five minutes, in ms). -/
def PACKET_CLEANUP_INTERVAL : Nat := 300000

/-- Source `#define PACKET_DUPLICATE_WINDOW 60000` (one minute, in ms). -/
def PACKET_DUPLICATE_WINDOW : Nat := 60000

/-- Number of values of a 32-bit `unsigned long`. -/
def ULONG_RANGE : Nat := 4294967296

/-- Difference `a - b` of two `unsigned long` clock readings, as the source
computes it: modulo `2 ^ 32`. -/
def millisDiff (a b : Nat) : Nat := (a + ULONG_RANGE - b % ULONG_RANGE) % ULONG_RANGE

/-! ## Data structures of `Common.h` -/

/-- Source `struct PacketInfo`. -/
structure PacketInfo where
  packetHash : String
  nodeId : String
  timestamp : Nat
  rssi : Int
  data : String
  forwarded : Bool
  forwardAttempts : Int
  deriving DecidableEq, Repr

/-- Source `struct ForwardTarget`. -/
structure ForwardTarget where
  name : String
  type : String
  address : String
  port : Int
  enabled : Bool
  lastSuccess : Nat
  failureCount : Int
  deriving DecidableEq, Repr

/-- Source `enum ForwardType` of `Forwarder.h`. -/
inductive ForwardType where
  | FORWARD_LORA
  | FORWARD_HTTP
  | FORWARD_TCP
  | FORWARD_UDP
  | FORWARD_SERIAL
  deriving DecidableEq, Repr

/-! ## The `Preferences` key-value store (ESP32 library, not in the repository)

Idealised: a typed key-value namespace in which every write succeeds. -/

/-- A value stored under a key, tagged with the type it was written with. -/
inductive PrefValue where
  | uint (n : Nat)
  | int (i : Int)
  | str (s : String)
  | bool (b : Bool)
  deriving DecidableEq, Repr

/-- The content of one `Preferences` namespace. -/
abbrev Preferences := List (String × PrefValue)

/-- Value stored under `key`, if any. -/
def prefsFind (key : String) : Preferences → Option PrefValue
  | [] => none
  | (k, v) :: rest => if k = key then some v else prefsFind key rest

/-- Write `v` under `key`, replacing an earlier value. -/
def prefsPut (key : String) (v : PrefValue) : Preferences → Preferences
  | [] => [(key, v)]
  | (k, w) :: rest => if k = key then (key, v) :: rest else (k, w) :: prefsPut key v rest

/-- Source `prefs.getUInt(key, dflt)`. -/
def getUInt (p : Preferences) (key : String) (dflt : Nat) : Nat :=
  match prefsFind key p with
  | some (.uint n) => n
  | _ => dflt

/-- Source `prefs.getInt(key, dflt)`. -/
def getInt (p : Preferences) (key : String) (dflt : Int) : Int :=
  match prefsFind key p with
  | some (.int i) => i
  | _ => dflt

/-- Source `prefs.getString(key, dflt)`. -/
def getString (p : Preferences) (key : String) (dflt : String) : String :=
  match prefsFind key p with
  | some (.str s) => s
  | _ => dflt

/-- Source `prefs.getBool(key, dflt)`. -/
def getBool (p : Preferences) (key : String) (dflt : Bool) : Bool :=
  match prefsFind key p with
  | some (.bool b) => b
  | _ => dflt

/-! ## The duplicate tracker `std::map<String, unsigned long> packetHashes` -/

/-- The tracker: each key occurs at most once. The order of the entries is not
observable through the operations of the relay. -/
abbrev HashMap := List (String × Nat)

/-- Source `packetHashes.find(hash)`: the stored last-seen time, if the key is present. -/
def hashFind (hash : String) : HashMap → Option Nat
  | [] => none
  | (k, v) :: rest => if k = hash then some v else hashFind hash rest

/-- Source `packetHashes[hash] = v`: overwrite the entry of `hash`, or create it. -/
def hashAssign (hash : String) (v : Nat) : HashMap → HashMap
  | [] => [(hash, v)]
  | (k, w) :: rest => if k = hash then (hash, v) :: rest else (k, w) :: hashAssign hash v rest

/-! ## The globals -/

/-- One transport send made by `forwardPacket`: the registry position and name
of the target and the packet handed to the transport. -/
structure Attempt where
  index : Nat
  name : String
  packet : String
  deriving DecidableEq, Repr

/-- The process-wide state: the globals of `LoRa_Relay.cpp` and `Common.cpp`,
the `forwarder` namespace of the persisted store, and `sendLog`, a record of
the sends `forwardPacket` has started (the source prints a line for each). -/
structure Relay where
  packetHistory : List PacketInfo
  packetHashes : HashMap
  lastCleanup : Nat
  totalReceived : Int
  totalForwarded : Int
  totalDuplicates : Int
  lastReceivedFrom : String
  forwardTargets : List ForwardTarget
  prefs : Preferences
  sendLog : List Attempt
  deriving DecidableEq, Repr

/-! ## `LoRa_Relay.cpp` -/

/-- Value added for one character by `hash * 31 + hashInput.charAt(i)`: the
byte value (`char` is unsigned on the ESP32 toolchains). -/
def charAt (c : Char) : Nat := c.toNat % 256

/-- The loop of `generatePacketHash`: `hash = hash * 31 + c` on a 32-bit
`unsigned long`. -/
def rollingHash (hashInput : String) : Nat :=
  hashInput.data.foldl (fun hash c => (hash * 31 + charAt c) % ULONG_RANGE) 0

/-- Source `String(hash, HEX)`. -/
def toHex (n : Nat) : String := String.mk (Nat.toDigits 16 n)

/-- Source `generatePacketHash(packet, nodeId)` when `millis()` reads `now`. -/
def generatePacketHash (now : Nat) (packet nodeId : String) : String :=
  let timeWindow := now / PACKET_DUPLICATE_WINDOW
  let hashInput := packet ++ nodeId ++ toString timeWindow
  toHex (rollingHash hashInput)

/-- Source `isPacketDuplicate(packet, nodeId)` when `millis()` reads `now`: the
returned flag and the state left behind. -/
def isPacketDuplicate (now : Nat) (packet nodeId : String) (s : Relay) : Bool × Relay :=
  let hash := generatePacketHash now packet nodeId
  match hashFind hash s.packetHashes with
  | some lastSeen =>
    if millisDiff now lastSeen < PACKET_DUPLICATE_WINDOW then
      (true, { s with totalDuplicates := s.totalDuplicates + 1 })
    else
      (false, { s with packetHashes := hashAssign hash now s.packetHashes })
  | none => (false, { s with packetHashes := hashAssign hash now s.packetHashes })

/-- Source `addToPacketHistory(packet, nodeId, rssi)` when `millis()` reads `now`. -/
def addToPacketHistory (now : Nat) (packet nodeId : String) (rssi : Int) (s : Relay) : Relay :=
  let info : PacketInfo :=
    { packetHash := generatePacketHash now packet nodeId
      nodeId := nodeId
      timestamp := now
      rssi := rssi
      data := packet
      forwarded := false
      forwardAttempts := 0 }
  let history := s.packetHistory ++ [info]
  if history.length > MAX_PACKET_HISTORY then
    { s with packetHistory := history.tail }
  else
    { s with packetHistory := history }

/-- Source `cleanupPacketHistory()` when `millis()` reads `now`. -/
def cleanupPacketHistory (now : Nat) (s : Relay) : Relay :=
  { s with
    packetHashes :=
      s.packetHashes.filter (fun e => !decide (millisDiff now e.2 > PACKET_DUPLICATE_WINDOW * 2))
    packetHistory :=
      s.packetHistory.filter (fun p => !decide (millisDiff now p.timestamp > PACKET_CLEANUP_INTERVAL))
    lastCleanup := now }

/-- What the relay reads from a parsed `JsonDocument` (ArduinoJson, not in the
repository): the top-level members, each with the text `as<String>()` yields.
A packet that does not parse gives a document without members. -/
abbrev JsonDocument := List (String × String)

/-- Source `doc.containsKey(key)` together with `doc[key].as<String>()`. -/
def jsonMember (doc : JsonDocument) (key : String) : Option String :=
  match doc.find? (fun m => m.1 == key) with
  | some m => some m.2
  | none => none

/-- Source `extractNodeId(packet, nodeId)`: the returned flag and the value left in
`nodeId`. The parser `parseLoRaPacket` is a parameter. -/
def extractNodeId (parseLoRaPacket : String → JsonDocument) (packet : String) : Bool × String :=
  let doc := parseLoRaPacket packet
  match jsonMember doc "node_id" with
  | some v => (true, v)
  | none =>
    match jsonMember doc "nodeId" with
    | some v => (true, v)
    | none =>
      match jsonMember doc "id" with
      | some v => (true, v)
      | none => (false, "UNKNOWN")

/-- The head of `processReceivedPacket`: `totalReceived++` and
`lastReceivedFrom = nodeId`, the state in which `isPacketDuplicate` is called. -/
def noteReceived (nodeId : String) (s : Relay) : Relay :=
  { s with totalReceived := s.totalReceived + 1, lastReceivedFrom := nodeId }

/-- Source `processReceivedPacket(packet, rssi)` when `millis()` reads `now`. -/
def processReceivedPacket (parseLoRaPacket : String → JsonDocument) (now : Nat)
    (packet : String) (rssi : Int) (s : Relay) : Relay :=
  let nodeId := (extractNodeId parseLoRaPacket packet).2
  let r := isPacketDuplicate now packet nodeId (noteReceived nodeId s)
  if r.1 then r.2 else addToPacketHistory now packet nodeId rssi r.2

/-- Source `resetStatistics()`. -/
def resetStatistics (s : Relay) : Relay :=
  { s with
    totalReceived := 0
    totalForwarded := 0
    totalDuplicates := 0
    packetHistory := []
    packetHashes := []
    lastReceivedFrom := "None" }

/-! ## `Forwarder.cpp` -/

/-- The key of a field of the target at position `i`: the source's
`"t" + String(i) + "_"` followed by the field name. -/
def targetKey (i : Nat) (field : String) : String := "t" ++ toString i ++ "_" ++ field

/-- The body of the loop of `saveForwardTargets` for the targets from position
`i` on. -/
def saveTargetsFrom : Nat → List ForwardTarget → Preferences → Preferences
  | _, [], p => p
  | i, target :: rest, p =>
    let p1 := prefsPut (targetKey i "name") (.str target.name) p
    let p2 := prefsPut (targetKey i "type") (.str target.type) p1
    let p3 := prefsPut (targetKey i "addr") (.str target.address) p2
    let p4 := prefsPut (targetKey i "port") (.int target.port) p3
    let p5 := prefsPut (targetKey i "enabled") (.bool target.enabled) p4
    saveTargetsFrom (i + 1) rest p5

/-- Source `saveForwardTargets()`: clear the namespace, write the count, then the
fields of every target. -/
def saveForwardTargets (s : Relay) : Relay :=
  let cleared : Preferences := []
  let p := prefsPut "target_count" (.uint s.forwardTargets.length) cleared
  { s with prefs := saveTargetsFrom 0 s.forwardTargets p }

/-- The type string `addForwardTarget` stores for a `ForwardType`. -/
def typeString : ForwardType → String
  | .FORWARD_LORA => "lora"
  | .FORWARD_HTTP => "http"
  | .FORWARD_TCP => "tcp"
  | .FORWARD_UDP => "udp"
  | .FORWARD_SERIAL => "serial"

/-- Source `addForwardTarget(name, type, address, port)`: the returned flag and the
state left behind. -/
def addForwardTarget (name : String) (type : ForwardType) (address : String) (port : Int)
    (s : Relay) : Bool × Relay :=
  let port := if type = .FORWARD_HTTP ∧ port = 0 then 80 else port
  let target : ForwardTarget :=
    { name := name
      type := typeString type
      address := address
      port := port
      enabled := true
      lastSuccess := 0
      failureCount := 0 }
  (true, saveForwardTargets { s with forwardTargets := s.forwardTargets ++ [target] })

/-- Erase the first target called `name`, as the loop of `removeForwardTarget`
does. -/
def eraseFirst (name : String) : List ForwardTarget → List ForwardTarget
  | [] => []
  | target :: rest => if target.name = name then rest else target :: eraseFirst name rest

/-- The loops `for (auto& target : forwardTargets) if (target.name == name)
{ ...; return; }` of `Forwarder.cpp`: apply `f` to the first target called
`name`. -/
def updateFirst (name : String) (f : ForwardTarget → ForwardTarget) :
    List ForwardTarget → List ForwardTarget
  | [] => []
  | target :: rest =>
    if target.name = name then f target :: rest else target :: updateFirst name f rest

/-- The first target called `name`, if there is one. -/
def findFirst (name : String) : List ForwardTarget → Option ForwardTarget
  | [] => none
  | target :: rest => if target.name = name then some target else findFirst name rest

/-- Source `removeForwardTarget(name)`. -/
def removeForwardTarget (name : String) (s : Relay) : Bool × Relay :=
  match findFirst name s.forwardTargets with
  | some _ =>
    (true, saveForwardTargets { s with forwardTargets := eraseFirst name s.forwardTargets })
  | none => (false, s)

/-- Source `enableForwardTarget(name, enabled)`. -/
def enableForwardTarget (name : String) (enabled : Bool) (s : Relay) : Relay :=
  match findFirst name s.forwardTargets with
  | some _ =>
    saveForwardTargets
      { s with forwardTargets :=
          updateFirst name (fun target => { target with enabled := enabled }) s.forwardTargets }
  | none => s

/-- What the radio and the network answer during the send to one target,
and the clock reading when the outcome is recorded. -/
structure SendEnv where
  millis : Nat
  wifiConnected : Bool
  loraBeginPacket : Bool
  loraEndPacket : Bool
  httpResponseCode : Int
  tcpConnect : Bool
  udpBeginPacket : Bool
  udpEndPacket : Bool

/-- Source `forwardToLoRa(packet, target)`. -/
def forwardToLoRa (e : SendEnv) (_packet : String) (_target : ForwardTarget) : Bool :=
  if !e.loraBeginPacket then false else e.loraEndPacket

/-- Source `forwardToHTTP(packet, target)`: success is a 2xx response. -/
def forwardToHTTP (e : SendEnv) (_packet : String) (_target : ForwardTarget) : Bool :=
  if !e.wifiConnected then false
  else decide (e.httpResponseCode ≥ 200 ∧ e.httpResponseCode < 300)

/-- Source `forwardToTCP(packet, target)`. -/
def forwardToTCP (e : SendEnv) (_packet : String) (_target : ForwardTarget) : Bool :=
  if !e.wifiConnected then false
  else if e.tcpConnect then true else false

/-- Source `forwardToUDP(packet, target)`. -/
def forwardToUDP (e : SendEnv) (_packet : String) (_target : ForwardTarget) : Bool :=
  if !e.wifiConnected then false
  else if e.udpBeginPacket then e.udpEndPacket else false

/-- Source `forwardToSerial(packet, target)`. -/
def forwardToSerial (_e : SendEnv) (_packet : String) (_target : ForwardTarget) : Bool := true

/-- The transport selection of `forwardPacket`: the value of `success`. -/
def sendOutcome (e : SendEnv) (packet : String) (target : ForwardTarget) : Bool :=
  if target.type = "lora" then forwardToLoRa e packet target
  else if target.type = "http" then forwardToHTTP e packet target
  else if target.type = "tcp" then forwardToTCP e packet target
  else if target.type = "udp" then forwardToUDP e packet target
  else if target.type = "serial" then forwardToSerial e packet target
  else false

/-- The update `markTargetSuccess` makes to the target it finds. -/
def recordSuccess (now : Nat) (target : ForwardTarget) : ForwardTarget :=
  { target with lastSuccess := now, failureCount := 0 }

/-- The update `markTargetFailure` makes to the target it finds. -/
def recordFailure (target : ForwardTarget) : ForwardTarget :=
  let counted := { target with failureCount := target.failureCount + 1 }
  if counted.failureCount ≥ 5 then { counted with enabled := false } else counted

/-- Source `markTargetSuccess(name)` when `millis()` reads `now`. -/
def markTargetSuccess (now : Nat) (name : String) (s : Relay) : Relay :=
  { s with forwardTargets := updateFirst name (recordSuccess now) s.forwardTargets }

/-- Source `markTargetFailure(name)`. The registry is saved when the target found
reaches five failures. -/
def markTargetFailure (name : String) (s : Relay) : Relay :=
  match findFirst name s.forwardTargets with
  | some target =>
    let s1 := { s with forwardTargets := updateFirst name recordFailure s.forwardTargets }
    if target.failureCount + 1 ≥ 5 then saveForwardTargets s1 else s1
  | none => s

/-- One iteration of the loop of `forwardPacket`, for the target at position
`i`; `acc.1` is `anySuccess`. -/
def forwardStep (env : Nat → SendEnv) (packet : String) (acc : Bool × Relay) (i : Nat) :
    Bool × Relay :=
  match acc.2.forwardTargets[i]? with
  | none => acc
  | some target =>
    if !target.enabled then acc
    else
      let s1 := { acc.2 with sendLog := acc.2.sendLog ++ [⟨i, target.name, packet⟩] }
      if sendOutcome (env i) packet target then
        (true, markTargetSuccess (env i).millis target.name s1)
      else
        (acc.1, markTargetFailure target.name s1)

/-- The first `k` iterations of the loop of `forwardPacket`. -/
def forwardLoop (env : Nat → SendEnv) (packet : String) (s : Relay) (k : Nat) : Bool × Relay :=
  (List.range k).foldl (forwardStep env packet) (false, s)

/-- Source `forwardPacket(packet, nodeId)`; `env i` is the outside world during the
send to the target at position `i`. -/
def forwardPacket (env : Nat → SendEnv) (packet _nodeId : String) (s : Relay) : Bool × Relay :=
  let r := forwardLoop env packet s s.forwardTargets.length
  if r.1 then (true, { r.2 with totalForwarded := r.2.totalForwarded + 1 }) else (false, r.2)

/-- The loop of `checkTargetHealth`: `done` are the targets already visited,
`todo` those still to visit. -/
def checkTargetHealthLoop (now : Nat) : List ForwardTarget → List ForwardTarget → Relay → Relay
  | done, [], s => { s with forwardTargets := done }
  | done, target :: todo, s =>
    if !target.enabled then checkTargetHealthLoop now (done ++ [target]) todo s
    else if target.failureCount ≥ 5 ∧ millisDiff now target.lastSuccess > 600000 then
      let revived := { target with enabled := true, failureCount := 0 }
      let s1 := saveForwardTargets { s with forwardTargets := done ++ revived :: todo }
      checkTargetHealthLoop now (done ++ [revived]) todo s1
    else checkTargetHealthLoop now (done ++ [target]) todo s

/-- Source `checkTargetHealth()` when `millis()` reads `now`. -/
def checkTargetHealth (now : Nat) (s : Relay) : Relay :=
  checkTargetHealthLoop now [] s.forwardTargets s

/-- Source `getActiveTargets()`. -/
def getActiveTargets (s : Relay) : List ForwardTarget :=
  s.forwardTargets.filter (fun target => target.enabled)

/-- The target `loadForwardTargets` reads for position `i`. -/
def loadTarget (p : Preferences) (i : Nat) : ForwardTarget :=
  { name := getString p (targetKey i "name") ""
    type := getString p (targetKey i "type") "http"
    address := getString p (targetKey i "addr") ""
    port := getInt p (targetKey i "port") 80
    enabled := getBool p (targetKey i "enabled") true
    lastSuccess := 0
    failureCount := 0 }

/-- Source `loadForwardTargets()`. The stored count is converted to `int`, so a
count of `2 ^ 31` or more makes the loop run zero times. -/
def loadForwardTargets (s : Relay) : Relay :=
  let stored := getUInt s.prefs "target_count" 0
  let targetCount := if stored < 2147483648 then stored else 0
  let loaded :=
    ((List.range targetCount).map (loadTarget s.prefs)).filter (fun target => target.name.length > 0)
  let s1 := { s with forwardTargets := loaded }
  if loaded.isEmpty then (addForwardTarget "default-http" .FORWARD_HTTP "httpbin.org" 80 s1).2
  else s1

/-- Source `forwardPacketToRelay(packet)` of `RELAY_MAIN.cpp`, when `millis()`
reads `now` in the duplicate check. -/
def forwardPacketToRelay (parseLoRaPacket : String → JsonDocument) (now : Nat)
    (env : Nat → SendEnv) (packet : String) (s : Relay) : Relay :=
  let r := extractNodeId parseLoRaPacket packet
  if r.1 then
    let d := isPacketDuplicate now packet r.2 s
    if !d.1 then (forwardPacket env packet r.2 d.2).2 else d.2
  else s

/-! ## Sequences of calls -/

/-- The inputs of one `forwardPacket` call. -/
structure Pass where
  env : Nat → SendEnv
  packet : String
  nodeId : String

/-- Consecutive `forwardPacket` calls, one per element of the list. -/
def forwardPackets : List Pass → Relay → Relay
  | [], s => s
  | p :: rest, s => forwardPackets rest (forwardPacket p.env p.packet p.nodeId s).2

/-- A call on the history ledger. -/
inductive LedgerCall where
  | add (now : Nat) (packet nodeId : String) (rssi : Int)
  | cleanup (now : Nat)

/-- Run a sequence of ledger calls. -/
def runLedgerCalls : List LedgerCall → Relay → Relay
  | [], s => s
  | .add now packet nodeId rssi :: rest, s =>
    runLedgerCalls rest (addToPacketHistory now packet nodeId rssi s)
  | .cleanup now :: rest, s => runLedgerCalls rest (cleanupPacketHistory now s)

/-- The state after `resetStatistics()` on a relay without forward targets:
all counters zero, empty ledger, empty tracker. -/
def resetState : Relay :=
  { packetHistory := []
    packetHashes := []
    lastCleanup := 0
    totalReceived := 0
    totalForwarded := 0
    totalDuplicates := 0
    lastReceivedFrom := "None"
    forwardTargets := []
    prefs := []
    sendLog := [] }

/-- The globals `forwardPacket`, the health hooks and the registry calls never
write: the ledger, the tracker and the receive-side counters agree. -/
def SameReceiveSide (a b : Relay) : Prop :=
  a.packetHistory = b.packetHistory ∧ a.packetHashes = b.packetHashes ∧
  a.lastCleanup = b.lastCleanup ∧ a.totalReceived = b.totalReceived ∧
  a.totalDuplicates = b.totalDuplicates ∧ a.lastReceivedFrom = b.lastReceivedFrom

/-- The update one `forwardPacket` pass makes to an enabled target whose send
has the given outcome. -/
def recordOutcome (e : SendEnv) (packet : String) (target : ForwardTarget) : ForwardTarget :=
  if sendOutcome e packet target then recordSuccess e.millis target else recordFailure target

/-- The sends a pass over the registry `targets` starts, in order: one for
every position below `k` that holds an enabled target. -/
def expectedAttempts (packet : String) (targets : List ForwardTarget) (k : Nat) : List Attempt :=
  (List.range k).filterMap (fun j =>
    match targets[j]? with
    | some target => if target.enabled then some ⟨j, target.name, packet⟩ else none
    | none => none)

/-- The update a pass applies to the first target carrying the name of the
visited target `visited`, chosen by the outcome of the send to `visited`. -/
def outcomeUpdate (e : SendEnv) (packet : String) (visited : ForwardTarget) :
    ForwardTarget → ForwardTarget :=
  if sendOutcome e packet visited then recordSuccess e.millis else recordFailure

/-- Whether position `j` of the registry `targets` holds an enabled target. -/
def enabledAt (targets : List ForwardTarget) (j : Nat) : Bool :=
  match targets[j]? with
  | some target => target.enabled
  | none => false

/-- The change one `forwardPacket` pass makes to a target when the send to it
fails: nothing if the target is disabled (it is skipped), `recordFailure`
otherwise. -/
def failPass (target : ForwardTarget) : ForwardTarget :=
  if target.enabled then recordFailure target else target

/-- Scenario target A: `http`, `host`, port 80, enabled, no failures. -/
def targetA : ForwardTarget :=
  { name := "A", type := "http", address := "host", port := 80, enabled := true,
    lastSuccess := 0, failureCount := 0 }

/-- Scenario target B: `tcp`, `host2`, port 9000, enabled, no failures. -/
def targetB : ForwardTarget :=
  { name := "B", type := "tcp", address := "host2", port := 9000, enabled := true,
    lastSuccess := 0, failureCount := 0 }

/-- Scenario target S: the serial diagnostic channel, enabled, no failures. -/
def targetS : ForwardTarget :=
  { name := "S", type := "serial", address := "", port := 0, enabled := true,
    lastSuccess := 0, failureCount := 0 }

/-- An outside world in which nothing can be reached: no WiFi, the radio
refuses the packet. -/
def offline (_i : Nat) : SendEnv :=
  { millis := 0, wifiConnected := false, loraBeginPacket := false, loraEndPacket := false,
    httpResponseCode := -1, tcpConnect := false, udpBeginPacket := false,
    udpEndPacket := false }

/-- An outside world at clock reading `now` in which HTTP requests are answered
with status 200 and TCP connections are refused. -/
def httpOnly (now : Nat) (_i : Nat) : SendEnv :=
  { millis := now, wifiConnected := true, loraBeginPacket := false, loraEndPacket := false,
    httpResponseCode := 200, tcpConnect := false, udpBeginPacket := false,
    udpEndPacket := false }

/-! ## Specification vocabulary for the ledger and the registry -/

/-- The record `addToPacketHistory` appends for a packet: hash, origin, clock
reading, signal strength and payload, not yet forwarded. -/
def packetRecord (now : Nat) (packet nodeId : String) (rssi : Int) : PacketInfo :=
  { packetHash := generatePacketHash now packet nodeId
    nodeId := nodeId
    timestamp := now
    rssi := rssi
    data := packet
    forwarded := false
    forwardAttempts := 0 }

/-- The arguments of one `addToPacketHistory` call and the clock reading
during it. -/
structure Insertion where
  now : Nat
  packet : String
  nodeId : String
  rssi : Int

/-- The record an insertion appends. -/
def insertedRecord (c : Insertion) : PacketInfo := packetRecord c.now c.packet c.nodeId c.rssi

/-- Consecutive `addToPacketHistory` calls, one per element of the list. -/
def insertAll : List Insertion → Relay → Relay
  | [], s => s
  | c :: rest, s => insertAll rest (addToPacketHistory c.now c.packet c.nodeId c.rssi s)

/-- A target as `loadForwardTargets` restores it: the persisted fields, with
`lastSuccess` and `failureCount` zero. -/
def reloaded (target : ForwardTarget) : ForwardTarget :=
  { target with lastSuccess := 0, failureCount := 0 }

/-- The list the loop of `loadForwardTargets` builds from the store `p`. -/
def restoredTargets (p : Preferences) : List ForwardTarget :=
  let stored := getUInt p "target_count" 0
  let targetCount := if stored < 2147483648 then stored else 0
  ((List.range targetCount).map (loadTarget p)).filter (fun target => target.name.length > 0)

/-- The target `loadForwardTargets` adds when nothing is restored. -/
def defaultTarget : ForwardTarget :=
  { name := "default-http", type := "http", address := "httpbin.org", port := 80,
    enabled := true, lastSuccess := 0, failureCount := 0 }

/-- The names of the five fields `saveForwardTargets` writes per target. -/
def targetFields : List String := ["name", "type", "addr", "port", "enabled"]

/-- A call on the registry made by the operator. -/
inductive RegistryCall where
  | add (name : String) (type : ForwardType) (address : String) (port : Int)
  | remove (name : String)
  | enable (name : String) (enabled : Bool)

/-- Run one registry call. -/
def runRegistryCall : RegistryCall → Relay → Relay
  | .add name type address port, s => (addForwardTarget name type address port s).2
  | .remove name, s => (removeForwardTarget name s).2
  | .enable name enabled, s => enableForwardTarget name enabled s

/-- Run a sequence of registry calls. -/
def runRegistryCalls : List RegistryCall → Relay → Relay
  | [], s => s
  | c :: rest, s => runRegistryCalls rest (runRegistryCall c s)

/-- Whether every `add` of the sequence is made with a name the registry does
not hold at the time of the call. -/
def addsAreFresh : List RegistryCall → Relay → Bool
  | [], _ => true
  | .add name type address port :: rest, s =>
    (findFirst name s.forwardTargets).isNone &&
      addsAreFresh rest (runRegistryCall (.add name type address port) s)
  | c :: rest, s => addsAreFresh rest (runRegistryCall c s)

/-- The number a list of decimal digit characters denotes. -/
def digitsValue (ds : List Char) : Nat :=
  ds.foldl (fun acc c => 10 * acc + (c.toNat - 48)) 0

/-! ## The receive loop, the HTTP body and sequences of core calls -/

/-- Source `handleIncomingLoRaPackets()` when `millis()` reads `now`. The flag
`loraInitialized` and what the radio delivers (`none` when `parsePacket()`
returns 0, otherwise the bytes read and `packetRssi()`) are parameters. -/
def handleIncomingLoRaPackets (parseLoRaPacket : String → JsonDocument) (now : Nat)
    (loraInitialized : Bool) (incoming : Option (String × Int)) (s : Relay) : Relay :=
  if !loraInitialized then s
  else
    let s1 :=
      match incoming with
      | some (packet, rssi) => processReceivedPacket parseLoRaPacket now packet rssi s
      | none => s
    if millisDiff now s1.lastCleanup > PACKET_CLEANUP_INTERVAL then cleanupPacketHistory now s1
    else s1

/-- A value assigned to a member of the document `forwardToHTTP` builds. -/
inductive JsonValue where
  | str (s : String)
  | int (i : Int)
  deriving DecidableEq, Repr

/-- A JSON object under construction: its members in insertion order. -/
abbrev JsonObject := List (String × JsonValue)

/-- Source `doc[key] = v` on a `JsonDocument` (ArduinoJson, not in the
repository): replace the member, or append it. -/
def jsonAssign (key : String) (v : JsonValue) : JsonObject → JsonObject
  | [] => [(key, v)]
  | (k, w) :: rest => if k = key then (key, v) :: rest else (k, w) :: jsonAssign key v rest

/-- The document `forwardToHTTP` serialises as the POST body, when the global
`relayId` holds `relayId` and `millis()` reads `now`. -/
def httpBody (relayId : String) (now : Nat) (packet : String) (_target : ForwardTarget) :
    JsonObject :=
  let doc0 : JsonObject := []
  let doc1 := jsonAssign "relay_id" (.str relayId) doc0
  let doc2 := jsonAssign "timestamp" (.int now) doc1
  let doc3 := jsonAssign "original_packet" (.str packet) doc2
  jsonAssign "rssi" (.int (-80)) doc3

/-- A call of one of the core operations, with the clock reading and the
answers of the outside world it meets. -/
inductive CoreCall where
  | received (parse : String → JsonDocument) (now : Nat) (packet : String) (rssi : Int)
  | duplicateCheck (now : Nat) (packet nodeId : String)
  | addHistory (now : Nat) (packet nodeId : String) (rssi : Int)
  | cleanup (now : Nat)
  | forward (env : Nat → SendEnv) (packet nodeId : String)
  | relay (parse : String → JsonDocument) (now : Nat) (env : Nat → SendEnv) (packet : String)
  | checkHealth (now : Nat)
  | markSuccess (now : Nat) (name : String)
  | markFailure (name : String)
  | add (name : String) (type : ForwardType) (address : String) (port : Int)
  | remove (name : String)
  | enable (name : String) (enabled : Bool)
  | load
  | save

/-- Run one core call. -/
def runCore : CoreCall → Relay → Relay
  | .received parse now packet rssi, s => processReceivedPacket parse now packet rssi s
  | .duplicateCheck now packet nodeId, s => (isPacketDuplicate now packet nodeId s).2
  | .addHistory now packet nodeId rssi, s => addToPacketHistory now packet nodeId rssi s
  | .cleanup now, s => cleanupPacketHistory now s
  | .forward env packet nodeId, s => (forwardPacket env packet nodeId s).2
  | .relay parse now env packet, s => forwardPacketToRelay parse now env packet s
  | .checkHealth now, s => checkTargetHealth now s
  | .markSuccess now name, s => markTargetSuccess now name s
  | .markFailure name, s => markTargetFailure name s
  | .add name type address port, s => (addForwardTarget name type address port s).2
  | .remove name, s => (removeForwardTarget name s).2
  | .enable name enabled, s => enableForwardTarget name enabled s
  | .load, s => loadForwardTargets s
  | .save, s => saveForwardTargets s

/-- Run a sequence of core calls. -/
def runCores : List CoreCall → Relay → Relay
  | [], s => s
  | c :: rest, s => runCores rest (runCore c s)

/-- Whether the call is an `enableForwardTarget` call. -/
def isEnableCall : CoreCall → Bool
  | .enable _ _ => true
  | _ => false

/-- Whether the call is a `forwardPacket` or a `checkTargetHealth` call. -/
def isForwardOrCheck : CoreCall → Bool
  | .forward _ _ _ => true
  | .checkHealth _ => true
  | _ => false

/-- Whether the call is a `processReceivedPacket` or a `cleanupPacketHistory`
call. -/
def isReceiveOrCleanup : CoreCall → Bool
  | .received _ _ _ _ => true
  | .cleanup _ => true
  | _ => false

/-- The number of calls of the sequence, run from `s`, that append a record to
the ledger: the `processReceivedPacket` calls whose packet is not classified
duplicate. -/
def recordedCount : List CoreCall → Relay → Nat
  | [], _ => 0
  | .received parse now packet rssi :: rest, s =>
    (if (isPacketDuplicate now packet (extractNodeId parse packet).2
          (noteReceived (extractNodeId parse packet).2 s)).1 then 0 else 1) +
      recordedCount rest (runCore (.received parse now packet rssi) s)
  | c :: rest, s => recordedCount rest (runCore c s)

/-- The per-target health invariant: an enabled target has between 0 and 4
failures, and a target with 5 or more failures is disabled. -/
def TargetHealthy (t : ForwardTarget) : Prop :=
  (t.enabled = true → 0 ≤ t.failureCount ∧ t.failureCount ≤ 4) ∧
  (t.failureCount ≥ 5 → t.enabled = false)

/-- Every target of the registry satisfies the health invariant. -/
def RegistryHealthy (s : Relay) : Prop := ∀ t ∈ s.forwardTargets, TargetHealthy t

/-- The change `checkTargetHealth` makes to one target at clock reading `now`. -/
def healthReview (now : Nat) (target : ForwardTarget) : ForwardTarget :=
  if target.enabled = true ∧ target.failureCount ≥ 5 ∧
      millisDiff now target.lastSuccess > 600000 then
    { target with enabled := true, failureCount := 0 }
  else target

/-- The value of a lower-case hexadecimal digit character. -/
def hexDigitValue (c : Char) : Nat := if c.toNat ≤ 57 then c.toNat - 48 else c.toNat - 87

/-- The number a list of lower-case hexadecimal digit characters denotes. -/
def hexValue (ds : List Char) : Nat := ds.foldl (fun acc c => 16 * acc + hexDigitValue c) 0

/-- The decimal digits of `n` except the last one, as `String(n)` renders them. -/
def leadingDigits (n : Nat) : List Char := if n / 10 = 0 then [] else Nat.toDigits 10 (n / 10)

/-- The update one `forwardPacket` iteration applies to the first target that
carries the name of the visited target: none when the visited target is
disabled (it is skipped), the update chosen by the outcome otherwise. -/
def passUpdate (e : SendEnv) (packet : String) (visited : ForwardTarget) :
    ForwardTarget → ForwardTarget :=
  if visited.enabled then outcomeUpdate e packet visited else id

/-! ## Lemmas on clock arithmetic and the tracker -/

theorem millisDiff_eq_sub (a b : Nat) (hle : b ≤ a) (hlt : a - b < ULONG_RANGE) :
    millisDiff a b = a - b := by
  unfold millisDiff
  simp only [ULONG_RANGE] at *
  omega

theorem same_bucket_close (t1 t2 : Nat) (hle : t1 ≤ t2)
    (hb : t1 / PACKET_DUPLICATE_WINDOW = t2 / PACKET_DUPLICATE_WINDOW) :
    t2 - t1 < PACKET_DUPLICATE_WINDOW := by
  simp only [PACKET_DUPLICATE_WINDOW] at *
  omega

theorem hashFind_hashAssign_same (hash : String) (v : Nat) (m : HashMap) :
    hashFind hash (hashAssign hash v m) = some v := by
  induction m with
  | nil => simp [hashAssign, hashFind]
  | cons e rest ih =>
    obtain ⟨k, w⟩ := e
    by_cases hk : k = hash
    · simp [hashAssign, hashFind, hk]
    · simp [hashAssign, hashFind, hk, ih]

theorem hashFind_hashAssign_other (hash key : String) (v : Nat) (m : HashMap)
    (hne : key ≠ hash) : hashFind key (hashAssign hash v m) = hashFind key m := by
  induction m with
  | nil => simp [hashAssign, hashFind, Ne.symm hne]
  | cons e rest ih =>
    obtain ⟨k, w⟩ := e
    by_cases hk : k = hash
    · subst hk
      simp [hashAssign, hashFind, Ne.symm hne]
    · by_cases hk2 : k = key
      · subst hk2
        simp [hashAssign, hashFind, hk]
      · simp [hashAssign, hashFind, hk, hk2, ih]

theorem generatePacketHash_bucket (t1 t2 : Nat) (packet nodeId : String)
    (hb : t1 / PACKET_DUPLICATE_WINDOW = t2 / PACKET_DUPLICATE_WINDOW) :
    generatePacketHash t1 packet nodeId = generatePacketHash t2 packet nodeId := by
  simp only [generatePacketHash, hb]

/-- Evaluation of `isPacketDuplicate` on a fresh or expired hash. -/
theorem isPacketDuplicate_false_state (now : Nat) (packet nodeId : String) (s : Relay)
    (h : (isPacketDuplicate now packet nodeId s).1 = false) :
    (isPacketDuplicate now packet nodeId s).2 =
      { s with packetHashes :=
          hashAssign (generatePacketHash now packet nodeId) now s.packetHashes } := by
  rcases hf : hashFind (generatePacketHash now packet nodeId) s.packetHashes with _ | lastSeen
  · simp [isPacketDuplicate, hf]
  · by_cases hw : millisDiff now lastSeen < PACKET_DUPLICATE_WINDOW
    · simp [isPacketDuplicate, hf, hw] at h
    · simp [isPacketDuplicate, hf, hw]

/-- Evaluation of `isPacketDuplicate` on a hash seen inside the window. -/
theorem isPacketDuplicate_true_state (now : Nat) (packet nodeId : String) (s : Relay)
    (h : (isPacketDuplicate now packet nodeId s).1 = true) :
    (isPacketDuplicate now packet nodeId s).2 =
      { s with totalDuplicates := s.totalDuplicates + 1 } := by
  rcases hf : hashFind (generatePacketHash now packet nodeId) s.packetHashes with _ | lastSeen
  · simp [isPacketDuplicate, hf] at h
  · by_cases hw : millisDiff now lastSeen < PACKET_DUPLICATE_WINDOW
    · simp [isPacketDuplicate, hf, hw]
    · simp [isPacketDuplicate, hf, hw] at h

theorem isPacketDuplicate_true_iff (now : Nat) (packet nodeId : String) (s : Relay) :
    (isPacketDuplicate now packet nodeId s).1 = true ↔
      ∃ lastSeen, hashFind (generatePacketHash now packet nodeId) s.packetHashes = some lastSeen ∧
        millisDiff now lastSeen < PACKET_DUPLICATE_WINDOW := by
  rcases hf : hashFind (generatePacketHash now packet nodeId) s.packetHashes with _ | lastSeen
  · simp [isPacketDuplicate, hf]
  · by_cases hw : millisDiff now lastSeen < PACKET_DUPLICATE_WINDOW
    · simp [isPacketDuplicate, hf, hw]
    · simp [isPacketDuplicate, hf, hw]

/-! ## Lemmas on `processReceivedPacket` -/

theorem addToPacketHistory_frame (now : Nat) (packet nodeId : String) (rssi : Int) (s : Relay) :
    (addToPacketHistory now packet nodeId rssi s).packetHashes = s.packetHashes ∧
    (addToPacketHistory now packet nodeId rssi s).totalReceived = s.totalReceived ∧
    (addToPacketHistory now packet nodeId rssi s).totalForwarded = s.totalForwarded ∧
    (addToPacketHistory now packet nodeId rssi s).totalDuplicates = s.totalDuplicates ∧
    (addToPacketHistory now packet nodeId rssi s).forwardTargets = s.forwardTargets ∧
    (addToPacketHistory now packet nodeId rssi s).prefs = s.prefs ∧
    (addToPacketHistory now packet nodeId rssi s).sendLog = s.sendLog := by
  simp only [addToPacketHistory]
  split_ifs <;> simp

theorem processReceivedPacket_fresh (parse : String → JsonDocument) (now : Nat)
    (packet : String) (rssi : Int) (s : Relay)
    (h : (isPacketDuplicate now packet (extractNodeId parse packet).2
      (noteReceived (extractNodeId parse packet).2 s)).1 = false) :
    processReceivedPacket parse now packet rssi s =
      addToPacketHistory now packet (extractNodeId parse packet).2 rssi
        { noteReceived (extractNodeId parse packet).2 s with
          packetHashes :=
            hashAssign (generatePacketHash now packet (extractNodeId parse packet).2) now
              s.packetHashes } := by
  have hs := isPacketDuplicate_false_state now packet _ _ h
  simp only [processReceivedPacket, h, hs]
  simp [noteReceived]

theorem processReceivedPacket_dup (parse : String → JsonDocument) (now : Nat)
    (packet : String) (rssi : Int) (s : Relay)
    (h : (isPacketDuplicate now packet (extractNodeId parse packet).2
      (noteReceived (extractNodeId parse packet).2 s)).1 = true) :
    processReceivedPacket parse now packet rssi s =
      { noteReceived (extractNodeId parse packet).2 s with
        totalDuplicates := s.totalDuplicates + 1 } := by
  have hs := isPacketDuplicate_true_state now packet _ _ h
  simp only [processReceivedPacket, h, hs]
  simp [noteReceived]

/-- A packet received at `t1` and kept is found again at any `t2 ≥ t1` of the
same bucket. -/
theorem second_receipt_is_duplicate (parse : String → JsonDocument) (packet : String)
    (rssi : Int) (t1 t2 : Nat) (s : Relay) (hle : t1 ≤ t2)
    (hb : t1 / PACKET_DUPLICATE_WINDOW = t2 / PACKET_DUPLICATE_WINDOW)
    (hfirst : (isPacketDuplicate t1 packet (extractNodeId parse packet).2
      (noteReceived (extractNodeId parse packet).2 s)).1 = false) :
    (isPacketDuplicate t2 packet (extractNodeId parse packet).2
      (noteReceived (extractNodeId parse packet).2
        (processReceivedPacket parse t1 packet rssi s))).1 = true := by
  rw [isPacketDuplicate_true_iff]
  refine ⟨t1, ?_, ?_⟩
  · rw [processReceivedPacket_fresh parse t1 packet rssi s hfirst]
    have hfr := (addToPacketHistory_frame t1 packet (extractNodeId parse packet).2 rssi
      { noteReceived (extractNodeId parse packet).2 s with
        packetHashes :=
          hashAssign (generatePacketHash t1 packet (extractNodeId parse packet).2) t1
            s.packetHashes }).1
    simp only [noteReceived] at hfr ⊢
    rw [hfr, ← generatePacketHash_bucket t1 t2 packet _ hb]
    exact hashFind_hashAssign_same _ _ _
  · have hclose := same_bucket_close t1 t2 hle hb
    rw [millisDiff_eq_sub t2 t1 hle]
    · exact hclose
    · simp only [PACKET_DUPLICATE_WINDOW, ULONG_RANGE] at *
      omega

/-! ## The claims -/

/-- C1. Two receipts of the same payload (hence the same origin) at times
`t1 ≤ t2` of the same 60000 ms bucket, the first one classified non-duplicate:
the `isPacketDuplicate` call of the second `processReceivedPacket` returns
true, `totalDuplicates` grows by exactly 1 in the second call and by 0 in the
first, `totalReceived` grows by 2 over the two calls, and the second call adds
nothing to the ledger. -/
theorem processReceivedPacket_same_bucket_duplicate (parse : String → JsonDocument)
    (packet : String) (rssi1 rssi2 : Int) (t1 t2 : Nat) (s : Relay) (hle : t1 ≤ t2)
    (hb : t1 / PACKET_DUPLICATE_WINDOW = t2 / PACKET_DUPLICATE_WINDOW)
    (hfirst : (isPacketDuplicate t1 packet (extractNodeId parse packet).2
      (noteReceived (extractNodeId parse packet).2 s)).1 = false) :
    (isPacketDuplicate t2 packet (extractNodeId parse packet).2
      (noteReceived (extractNodeId parse packet).2
        (processReceivedPacket parse t1 packet rssi1 s))).1 = true ∧
    (processReceivedPacket parse t2 packet rssi2
      (processReceivedPacket parse t1 packet rssi1 s)).totalDuplicates =
        (processReceivedPacket parse t1 packet rssi1 s).totalDuplicates + 1 ∧
    (processReceivedPacket parse t1 packet rssi1 s).totalDuplicates = s.totalDuplicates ∧
    (processReceivedPacket parse t2 packet rssi2
      (processReceivedPacket parse t1 packet rssi1 s)).totalReceived = s.totalReceived + 2 ∧
    (processReceivedPacket parse t2 packet rssi2
      (processReceivedPacket parse t1 packet rssi1 s)).packetHistory =
        (processReceivedPacket parse t1 packet rssi1 s).packetHistory := by
  have hdup := second_receipt_is_duplicate parse packet rssi1 t1 t2 s hle hb hfirst
  refine ⟨hdup, ?_⟩
  rw [processReceivedPacket_dup parse t2 packet rssi2 _ hdup]
  rw [processReceivedPacket_fresh parse t1 packet rssi1 s hfirst]
  have hfr := addToPacketHistory_frame t1 packet (extractNodeId parse packet).2 rssi1
      { noteReceived (extractNodeId parse packet).2 s with
        packetHashes :=
          hashAssign (generatePacketHash t1 packet (extractNodeId parse packet).2) t1
            s.packetHashes }
  simp only [noteReceived] at hfr ⊢
  refine ⟨trivial, hfr.2.2.2.1, ?_, trivial⟩
  rw [hfr.2.1]
  ring

/-- Witness for C1: the payload `hello` received at 1000 ms and at 1500 ms
after a reset. -/
theorem processReceivedPacket_same_bucket_duplicate_witness :
    (isPacketDuplicate 1500 "hello" "UNKNOWN"
      (noteReceived "UNKNOWN"
        (processReceivedPacket (fun _ => []) 1000 "hello" (-70) resetState))).1 = true ∧
    (processReceivedPacket (fun _ => []) 1500 "hello" (-71)
      (processReceivedPacket (fun _ => []) 1000 "hello" (-70) resetState)).totalDuplicates =
        (processReceivedPacket (fun _ => []) 1000 "hello" (-70) resetState).totalDuplicates + 1 ∧
    (processReceivedPacket (fun _ => []) 1000 "hello" (-70) resetState).totalDuplicates =
      resetState.totalDuplicates ∧
    (processReceivedPacket (fun _ => []) 1500 "hello" (-71)
      (processReceivedPacket (fun _ => []) 1000 "hello" (-70) resetState)).totalReceived =
        resetState.totalReceived + 2 ∧
    (processReceivedPacket (fun _ => []) 1500 "hello" (-71)
      (processReceivedPacket (fun _ => []) 1000 "hello" (-70) resetState)).packetHistory =
        (processReceivedPacket (fun _ => []) 1000 "hello" (-70) resetState).packetHistory :=
  processReceivedPacket_same_bucket_duplicate (fun _ => []) "hello" (-70) (-71) 1000 1500
    resetState (by decide) (by decide) (by decide)

/-- C2. `isPacketDuplicate` returns true exactly when the tracker holds an
entry for the identity hash whose last-seen time is less than 60000 ms before
`now` (the difference taken as the source takes it, on 32-bit clock readings;
it is the ordinary difference whenever the entry is not newer than `now`).
When it returns true only `totalDuplicates` changes, by +1, so the tracker is
the same and the entry is not refreshed; when it returns false only the
tracker changes: the entry of the hash becomes `now`, every other key reads as
before, and `totalDuplicates` is the same. -/
theorem isPacketDuplicate_contract (now : Nat) (packet nodeId : String) (s : Relay) :
    ((isPacketDuplicate now packet nodeId s).1 = true ↔
      ∃ lastSeen,
        hashFind (generatePacketHash now packet nodeId) s.packetHashes = some lastSeen ∧
        millisDiff now lastSeen < 60000) ∧
    (∀ lastSeen, lastSeen ≤ now → now < ULONG_RANGE → millisDiff now lastSeen = now - lastSeen) ∧
    ((isPacketDuplicate now packet nodeId s).1 = true →
      (isPacketDuplicate now packet nodeId s).2 =
        { s with totalDuplicates := s.totalDuplicates + 1 } ∧
      (isPacketDuplicate now packet nodeId s).2.totalDuplicates = s.totalDuplicates + 1 ∧
      (isPacketDuplicate now packet nodeId s).2.packetHashes = s.packetHashes) ∧
    ((isPacketDuplicate now packet nodeId s).1 = false →
      (isPacketDuplicate now packet nodeId s).2 =
        { s with packetHashes :=
            hashAssign (generatePacketHash now packet nodeId) now s.packetHashes } ∧
      hashFind (generatePacketHash now packet nodeId)
        (isPacketDuplicate now packet nodeId s).2.packetHashes = some now ∧
      (∀ key, key ≠ generatePacketHash now packet nodeId →
        hashFind key (isPacketDuplicate now packet nodeId s).2.packetHashes =
          hashFind key s.packetHashes) ∧
      (isPacketDuplicate now packet nodeId s).2.totalDuplicates = s.totalDuplicates) := by
  refine ⟨isPacketDuplicate_true_iff now packet nodeId s, ?_, ?_, ?_⟩
  · intro lastSeen hle hlt
    exact millisDiff_eq_sub now lastSeen hle (by omega)
  · intro h
    rw [isPacketDuplicate_true_state now packet nodeId s h]
    exact ⟨rfl, rfl, rfl⟩
  · intro h
    rw [isPacketDuplicate_false_state now packet nodeId s h]
    refine ⟨rfl, hashFind_hashAssign_same _ _ _, ?_, rfl⟩
    intro key hne
    exact hashFind_hashAssign_other _ key now s.packetHashes hne

/-- C3 as stated fails: two receipts of the payload `ping` 1 ms apart, at
59999 ms and 60000 ms, lie in different buckets, and the second one is not
classified duplicate. -/
theorem close_receipts_not_always_duplicate :
    ¬ ∀ (parse : String → JsonDocument) (packet : String) (rssi1 rssi2 : Int) (t1 t2 : Nat)
        (s : Relay), t1 ≤ t2 → t2 - t1 < 1000 →
      (isPacketDuplicate t2 packet (extractNodeId parse packet).2
        (noteReceived (extractNodeId parse packet).2
          (processReceivedPacket parse t1 packet rssi1 (resetStatistics s)))).1 = true ∧
      (processReceivedPacket parse t2 packet rssi2
        (processReceivedPacket parse t1 packet rssi1 (resetStatistics s))).totalReceived = 2 ∧
      (processReceivedPacket parse t2 packet rssi2
        (processReceivedPacket parse t1 packet rssi1 (resetStatistics s))).totalForwarded = 0 ∧
      (processReceivedPacket parse t2 packet rssi2
        (processReceivedPacket parse t1 packet rssi1 (resetStatistics s))).totalDuplicates = 1 := by
  intro h
  have h1 := (h (fun _ => []) "ping" (-70) (-70) 59999 60000 resetState (by decide)
    (by decide)).1
  revert h1
  decide

/-- C3, amended. From the state left by `resetStatistics`, two receipts of the
same payload at times `t1 ≤ t2` less than 1000 ms apart that lie in the same
60000 ms bucket: the second is classified duplicate, no send is started and
the registry is untouched, and the counters end at `totalReceived = 2`,
`totalForwarded = 0`, `totalDuplicates = 1`. -/
theorem close_receipts_same_bucket_duplicate (parse : String → JsonDocument)
    (packet : String) (rssi1 rssi2 : Int) (t1 t2 : Nat) (s : Relay) (hle : t1 ≤ t2)
    (_hclose : t2 - t1 < 1000)
    (hb : t1 / PACKET_DUPLICATE_WINDOW = t2 / PACKET_DUPLICATE_WINDOW) :
    (isPacketDuplicate t2 packet (extractNodeId parse packet).2
      (noteReceived (extractNodeId parse packet).2
        (processReceivedPacket parse t1 packet rssi1 (resetStatistics s)))).1 = true ∧
    (processReceivedPacket parse t2 packet rssi2
      (processReceivedPacket parse t1 packet rssi1 (resetStatistics s))).sendLog = s.sendLog ∧
    (processReceivedPacket parse t2 packet rssi2
      (processReceivedPacket parse t1 packet rssi1 (resetStatistics s))).forwardTargets =
        s.forwardTargets ∧
    (processReceivedPacket parse t2 packet rssi2
      (processReceivedPacket parse t1 packet rssi1 (resetStatistics s))).totalReceived = 2 ∧
    (processReceivedPacket parse t2 packet rssi2
      (processReceivedPacket parse t1 packet rssi1 (resetStatistics s))).totalForwarded = 0 ∧
    (processReceivedPacket parse t2 packet rssi2
      (processReceivedPacket parse t1 packet rssi1 (resetStatistics s))).totalDuplicates = 1 := by
  have hfirst : (isPacketDuplicate t1 packet (extractNodeId parse packet).2
      (noteReceived (extractNodeId parse packet).2 (resetStatistics s))).1 = false := by
    simp [isPacketDuplicate, noteReceived, resetStatistics, hashFind]
  have hdup := second_receipt_is_duplicate parse packet rssi1 t1 t2 _ hle hb hfirst
  refine ⟨hdup, ?_⟩
  rw [processReceivedPacket_dup parse t2 packet rssi2 _ hdup]
  rw [processReceivedPacket_fresh parse t1 packet rssi1 _ hfirst]
  have hfr := addToPacketHistory_frame t1 packet (extractNodeId parse packet).2 rssi1
      { noteReceived (extractNodeId parse packet).2 (resetStatistics s) with
        packetHashes :=
          hashAssign (generatePacketHash t1 packet (extractNodeId parse packet).2) t1
            (resetStatistics s).packetHashes }
  simp only [noteReceived] at hfr ⊢
  obtain ⟨-, hrec, hfwd, hdups, htargets, -, hlog⟩ := hfr
  refine ⟨hlog, htargets, ?_, hfwd, ?_⟩
  · rw [hrec]
    simp [resetStatistics]
  · rw [hdups]
    simp [resetStatistics]

/-- Witness for amended C3: the payload `hello` at 1000 ms and 1500 ms. -/
theorem close_receipts_same_bucket_duplicate_witness :
    (isPacketDuplicate 1500 "hello" "UNKNOWN"
      (noteReceived "UNKNOWN"
        (processReceivedPacket (fun _ => []) 1000 "hello" (-70)
          (resetStatistics resetState)))).1 = true ∧
    (processReceivedPacket (fun _ => []) 1500 "hello" (-71)
      (processReceivedPacket (fun _ => []) 1000 "hello" (-70)
        (resetStatistics resetState))).sendLog = resetState.sendLog ∧
    (processReceivedPacket (fun _ => []) 1500 "hello" (-71)
      (processReceivedPacket (fun _ => []) 1000 "hello" (-70)
        (resetStatistics resetState))).forwardTargets = resetState.forwardTargets ∧
    (processReceivedPacket (fun _ => []) 1500 "hello" (-71)
      (processReceivedPacket (fun _ => []) 1000 "hello" (-70)
        (resetStatistics resetState))).totalReceived = 2 ∧
    (processReceivedPacket (fun _ => []) 1500 "hello" (-71)
      (processReceivedPacket (fun _ => []) 1000 "hello" (-70)
        (resetStatistics resetState))).totalForwarded = 0 ∧
    (processReceivedPacket (fun _ => []) 1500 "hello" (-71)
      (processReceivedPacket (fun _ => []) 1000 "hello" (-70)
        (resetStatistics resetState))).totalDuplicates = 1 :=
  close_receipts_same_bucket_duplicate (fun _ => []) "hello" (-70) (-71) 1000 1500 resetState
    (by decide) (by decide) (by decide)

/-- C4. `generatePacketHash` is deterministic per time bucket: for the same
payload and origin, two clock readings with the same quotient by 60000 give
the same hash. -/
theorem generatePacketHash_deterministic_per_bucket (packet nodeId : String) (t1 t2 : Nat)
    (hb : t1 / 60000 = t2 / 60000) :
    generatePacketHash t1 packet nodeId = generatePacketHash t2 packet nodeId :=
  generatePacketHash_bucket t1 t2 packet nodeId hb

/-- Witness for C4: the readings 60000 and 119999 both lie in bucket 1. -/
theorem generatePacketHash_deterministic_per_bucket_witness :
    generatePacketHash 60000 "ping" "H1" =
      generatePacketHash 119999 "ping" "H1" :=
  generatePacketHash_deterministic_per_bucket "ping" "H1" 60000 119999
    (by decide)

/-! ## Lemmas on the history ledger -/

theorem addToPacketHistory_length_le (now : Nat) (packet nodeId : String) (rssi : Int)
    (s : Relay) (h : s.packetHistory.length ≤ MAX_PACKET_HISTORY) :
    (addToPacketHistory now packet nodeId rssi s).packetHistory.length ≤ MAX_PACKET_HISTORY := by
  simp only [addToPacketHistory]
  split_ifs with hfull
  · simp only [List.length_tail, List.length_append, List.length_singleton]
    omega
  · simp only [gt_iff_lt, not_lt] at hfull
    exact hfull

theorem cleanupPacketHistory_length_le (now : Nat) (s : Relay) :
    (cleanupPacketHistory now s).packetHistory.length ≤ s.packetHistory.length := by
  simp only [cleanupPacketHistory]
  exact List.length_filter_le _ _

theorem runLedgerCalls_length_le (calls : List LedgerCall) (s : Relay)
    (h : s.packetHistory.length ≤ MAX_PACKET_HISTORY) :
    (runLedgerCalls calls s).packetHistory.length ≤ MAX_PACKET_HISTORY := by
  induction calls generalizing s with
  | nil => exact h
  | cons call rest ih =>
    cases call with
    | add now packet nodeId rssi =>
      exact ih _ (addToPacketHistory_length_le now packet nodeId rssi s h)
    | cleanup now =>
      exact ih _ (le_trans (cleanupPacketHistory_length_le now s) h)

/-- C10. The history ledger never holds more than `MAX_PACKET_HISTORY` = 1000
records: from a ledger of at most 1000 records, any sequence of
`addToPacketHistory` and `cleanupPacketHistory` calls leaves at most 1000. -/
theorem packetHistory_never_exceeds_capacity (calls : List LedgerCall) (s : Relay)
    (h : s.packetHistory.length ≤ 1000) :
    MAX_PACKET_HISTORY = 1000 ∧ (runLedgerCalls calls s).packetHistory.length ≤ 1000 :=
  ⟨rfl, runLedgerCalls_length_le calls s h⟩

/-- Witness for C10: two insertions and a cleanup on the empty ledger. -/
theorem packetHistory_never_exceeds_capacity_witness :
    MAX_PACKET_HISTORY = 1000 ∧
    (runLedgerCalls [.add 10 "a" "H1" (-60), .add 20 "b" "H2" (-61), .cleanup 400000]
      resetState).packetHistory.length ≤ 1000 :=
  packetHistory_never_exceeds_capacity
    [.add 10 "a" "H1" (-60), .add 20 "b" "H2" (-61), .cleanup 400000] resetState (by decide)

/-! ## Lemmas on the registry loops -/

theorem updateFirst_length (name : String) (f : ForwardTarget → ForwardTarget)
    (ts : List ForwardTarget) : (updateFirst name f ts).length = ts.length := by
  induction ts with
  | nil => rfl
  | cons t rest ih =>
    by_cases h : t.name = name
    · simp [updateFirst, h]
    · simp [updateFirst, h, ih]

theorem updateFirst_names (name : String) (f : ForwardTarget → ForwardTarget)
    (hf : ∀ t, (f t).name = t.name) (ts : List ForwardTarget) :
    (updateFirst name f ts).map (fun t => t.name) = ts.map (fun t => t.name) := by
  induction ts with
  | nil => rfl
  | cons t rest ih =>
    by_cases h : t.name = name
    · simp [updateFirst, h, hf]
    · simp [updateFirst, h, ih]

/-- Positions after an occurrence of `name` are not touched. -/
theorem updateFirst_getElem?_after (name : String) (f : ForwardTarget → ForwardTarget)
    (ts : List ForwardTarget) (i j : Nat) (t : ForwardTarget)
    (hi : ts[i]? = some t) (hn : t.name = name) (hij : i < j) :
    (updateFirst name f ts)[j]? = ts[j]? := by
  induction ts generalizing i j with
  | nil => simp [updateFirst]
  | cons u rest ih =>
    by_cases h : u.name = name
    · cases j with
      | zero => omega
      | succ j => simp [updateFirst, h]
    · cases i with
      | zero =>
        simp only [List.getElem?_cons_zero, Option.some.injEq] at hi
        subst hi
        exact absurd hn h
      | succ i =>
        cases j with
        | zero => omega
        | succ j =>
          simp only [List.getElem?_cons_succ] at hi
          simp only [updateFirst, h, if_false, List.getElem?_cons_succ]
          exact ih i j hi (by omega)

/-- A position holding another name is not touched. -/
theorem updateFirst_getElem?_other (name : String) (f : ForwardTarget → ForwardTarget)
    (ts : List ForwardTarget) (j : Nat) (u : ForwardTarget)
    (hj : ts[j]? = some u) (hn : u.name ≠ name) :
    (updateFirst name f ts)[j]? = some u := by
  induction ts generalizing j with
  | nil => simp at hj
  | cons v rest ih =>
    by_cases h : v.name = name
    · cases j with
      | zero =>
        simp only [List.getElem?_cons_zero, Option.some.injEq] at hj
        subst hj
        exact absurd h hn
      | succ j =>
        simp only [List.getElem?_cons_succ] at hj
        simp [updateFirst, h, hj]
    · cases j with
      | zero =>
        simp only [List.getElem?_cons_zero, Option.some.injEq] at hj
        subst hj
        simp [updateFirst, h]
      | succ j =>
        simp only [List.getElem?_cons_succ] at hj
        simp only [updateFirst, h, if_false, List.getElem?_cons_succ]
        exact ih j hj

/-- The first occurrence of `name` is the position that is updated. -/
theorem updateFirst_getElem?_first (name : String) (f : ForwardTarget → ForwardTarget)
    (ts : List ForwardTarget) (i : Nat) (t : ForwardTarget)
    (hi : ts[i]? = some t) (hn : t.name = name)
    (hfirst : ∀ j u, j < i → ts[j]? = some u → u.name ≠ name) :
    (updateFirst name f ts)[i]? = some (f t) := by
  induction ts generalizing i with
  | nil => simp at hi
  | cons v rest ih =>
    cases i with
    | zero =>
      simp only [List.getElem?_cons_zero, Option.some.injEq] at hi
      subst hi
      simp [updateFirst, hn]
    | succ i =>
      have hv : v.name ≠ name := hfirst 0 v (by omega) (by simp)
      simp only [List.getElem?_cons_succ] at hi
      simp only [updateFirst, hv, if_false, List.getElem?_cons_succ]
      refine ih i hi ?_
      intro j u hj hu
      exact hfirst (j + 1) u (by omega) (by simpa using hu)

theorem recordSuccess_name (now : Nat) (t : ForwardTarget) :
    (recordSuccess now t).name = t.name := rfl

theorem recordFailure_name (t : ForwardTarget) : (recordFailure t).name = t.name := by
  simp only [recordFailure]
  split_ifs <;> rfl

theorem recordOutcome_name (e : SendEnv) (packet : String) (t : ForwardTarget) :
    (recordOutcome e packet t).name = t.name := by
  simp only [recordOutcome]
  split_ifs
  · exact recordSuccess_name _ _
  · exact recordFailure_name _

theorem saveForwardTargets_frame (s : Relay) :
    (saveForwardTargets s).forwardTargets = s.forwardTargets ∧
    (saveForwardTargets s).sendLog = s.sendLog ∧
    (saveForwardTargets s).totalForwarded = s.totalForwarded ∧
    SameReceiveSide (saveForwardTargets s) s := by
  simp [saveForwardTargets, SameReceiveSide]

theorem markTargetSuccess_frame (now : Nat) (name : String) (s : Relay) :
    (markTargetSuccess now name s).forwardTargets =
      updateFirst name (recordSuccess now) s.forwardTargets ∧
    (markTargetSuccess now name s).sendLog = s.sendLog ∧
    (markTargetSuccess now name s).totalForwarded = s.totalForwarded ∧
    SameReceiveSide (markTargetSuccess now name s) s := by
  simp [markTargetSuccess, SameReceiveSide]

theorem updateFirst_absent (name : String) (f : ForwardTarget → ForwardTarget)
    (ts : List ForwardTarget) (h : findFirst name ts = none) : updateFirst name f ts = ts := by
  induction ts with
  | nil => rfl
  | cons t rest ih =>
    by_cases hn : t.name = name
    · simp [findFirst, hn] at h
    · simp only [findFirst, hn, if_false] at h
      simp [updateFirst, hn, ih h]

theorem markTargetFailure_frame (name : String) (s : Relay) :
    (markTargetFailure name s).forwardTargets =
      updateFirst name recordFailure s.forwardTargets ∧
    (markTargetFailure name s).sendLog = s.sendLog ∧
    (markTargetFailure name s).totalForwarded = s.totalForwarded ∧
    SameReceiveSide (markTargetFailure name s) s := by
  rcases hf : findFirst name s.forwardTargets with _ | target
  · simp [markTargetFailure, hf, SameReceiveSide, updateFirst_absent name _ _ hf]
  · by_cases h5 : target.failureCount + 1 ≥ 5
    · simp [markTargetFailure, hf, h5, SameReceiveSide, saveForwardTargets]
    · simp [markTargetFailure, hf, h5, SameReceiveSide]

theorem outcomeUpdate_name (e : SendEnv) (packet : String) (visited t : ForwardTarget) :
    (outcomeUpdate e packet visited t).name = t.name := by
  simp only [outcomeUpdate]
  split_ifs
  · exact recordSuccess_name _ _
  · exact recordFailure_name _

theorem outcomeUpdate_self (e : SendEnv) (packet : String) (t : ForwardTarget) :
    outcomeUpdate e packet t t = recordOutcome e packet t := by
  simp only [outcomeUpdate, recordOutcome]
  split_ifs <;> rfl

theorem forwardStep_skip (env : Nat → SendEnv) (packet : String) (acc : Bool × Relay) (i : Nat)
    (h : acc.2.forwardTargets[i]? = none ∨
      ∃ t, acc.2.forwardTargets[i]? = some t ∧ t.enabled = false) :
    forwardStep env packet acc i = acc := by
  rcases h with h | ⟨t, h, hd⟩
  · simp [forwardStep, h]
  · simp [forwardStep, h, hd]

theorem forwardStep_enabled (env : Nat → SendEnv) (packet : String) (acc : Bool × Relay)
    (i : Nat) (t : ForwardTarget) (h : acc.2.forwardTargets[i]? = some t)
    (he : t.enabled = true) :
    (forwardStep env packet acc i).1 = (acc.1 || sendOutcome (env i) packet t) ∧
    (forwardStep env packet acc i).2.forwardTargets =
      updateFirst t.name (outcomeUpdate (env i) packet t) acc.2.forwardTargets ∧
    (forwardStep env packet acc i).2.sendLog = acc.2.sendLog ++ [⟨i, t.name, packet⟩] ∧
    (forwardStep env packet acc i).2.totalForwarded = acc.2.totalForwarded ∧
    SameReceiveSide (forwardStep env packet acc i).2 acc.2 := by
  by_cases ho : sendOutcome (env i) packet t = true
  · have hm := markTargetSuccess_frame (env i).millis t.name
      { acc.2 with sendLog := acc.2.sendLog ++ [⟨i, t.name, packet⟩] }
    simp only [forwardStep, h, he, ho, outcomeUpdate]
    simpa [SameReceiveSide] using hm
  · have hm := markTargetFailure_frame t.name
      { acc.2 with sendLog := acc.2.sendLog ++ [⟨i, t.name, packet⟩] }
    simp only [Bool.not_eq_true] at ho
    simp only [forwardStep, h, he, ho, outcomeUpdate]
    simpa [SameReceiveSide] using hm

theorem forwardLoop_succ (env : Nat → SendEnv) (packet : String) (s : Relay) (k : Nat) :
    forwardLoop env packet s (k + 1) = forwardStep env packet (forwardLoop env packet s k) k := by
  simp [forwardLoop, List.range_succ, List.foldl_append]

theorem expectedAttempts_succ (packet : String) (ts : List ForwardTarget) (k : Nat) :
    expectedAttempts packet ts (k + 1) =
      expectedAttempts packet ts k ++
        (match ts[k]? with
          | some target => if target.enabled then [⟨k, target.name, packet⟩] else []
          | none => []) := by
  simp only [expectedAttempts, List.range_succ, List.filterMap_append]
  congr 1
  rcases hk : ts[k]? with _ | target
  · simp [List.filterMap, hk]
  · by_cases he : target.enabled = true <;> simp [List.filterMap, hk, he]

/-- The state after the first `k` iterations of the loop of `forwardPacket`. -/
theorem forwardLoop_invariant (env : Nat → SendEnv) (packet : String) (s : Relay) (k : Nat) :
    (∀ j, k ≤ j → (forwardLoop env packet s k).2.forwardTargets[j]? = s.forwardTargets[j]?) ∧
    (forwardLoop env packet s k).2.forwardTargets.map (fun t => t.name) =
      s.forwardTargets.map (fun t => t.name) ∧
    ((forwardLoop env packet s k).1 = true ↔
      ∃ j t, j < k ∧ s.forwardTargets[j]? = some t ∧ t.enabled = true ∧
        sendOutcome (env j) packet t = true) ∧
    (forwardLoop env packet s k).2.sendLog =
      s.sendLog ++ expectedAttempts packet s.forwardTargets k ∧
    (forwardLoop env packet s k).2.totalForwarded = s.totalForwarded ∧
    SameReceiveSide (forwardLoop env packet s k).2 s := by
  induction k with
  | zero =>
    simp [forwardLoop, expectedAttempts, SameReceiveSide]
  | succ k ih =>
    obtain ⟨hpos, hnames, hflag, hlog, hfwd, hside⟩ := ih
    rw [forwardLoop_succ]
    have hk := hpos k (le_refl k)
    rcases hs : s.forwardTargets[k]? with _ | t
    · rw [forwardStep_skip env packet _ k (Or.inl (hk.trans hs))]
      refine ⟨fun j hj => hpos j (by omega), hnames, ?_, ?_, hfwd, hside⟩
      · rw [hflag]
        constructor
        · rintro ⟨j, u, hj, hu⟩
          exact ⟨j, u, by omega, hu⟩
        · rintro ⟨j, u, hj, hu, hrest⟩
          have hne : j ≠ k := by
            rintro rfl
            rw [hs] at hu
            exact Option.noConfusion hu
          exact ⟨j, u, by omega, hu, hrest⟩
      · rw [hlog, expectedAttempts_succ, hs]
        simp
    · by_cases he : t.enabled = true
      · obtain ⟨h1, h2, h3, h4, h5⟩ :=
          forwardStep_enabled env packet (forwardLoop env packet s k) k t (hk.trans hs) he
        refine ⟨?_, ?_, ?_, ?_, h4.trans hfwd, ?_⟩
        · intro j hj
          rw [h2, updateFirst_getElem?_after t.name _ _ k j t (hk.trans hs) rfl (by omega)]
          exact hpos j (by omega)
        · rw [h2, updateFirst_names _ _ (outcomeUpdate_name _ _ _), hnames]
        · rw [h1, Bool.or_eq_true, hflag]
          constructor
          · rintro (⟨j, u, hj, hu⟩ | ho)
            · exact ⟨j, u, by omega, hu⟩
            · exact ⟨k, t, by omega, hs, he, ho⟩
          · rintro ⟨j, u, hj, hu, hue, huo⟩
            by_cases hjk : j = k
            · subst hjk
              rw [hs] at hu
              cases hu
              exact Or.inr huo
            · exact Or.inl ⟨j, u, by omega, hu, hue, huo⟩
        · rw [h3, hlog, expectedAttempts_succ, hs]
          simp [he]
        · obtain ⟨a1, a2, a3, a4, a5, a6⟩ := h5
          obtain ⟨b1, b2, b3, b4, b5, b6⟩ := hside
          exact ⟨a1.trans b1, a2.trans b2, a3.trans b3, a4.trans b4, a5.trans b5, a6.trans b6⟩
      · simp only [Bool.not_eq_true] at he
        rw [forwardStep_skip env packet _ k (Or.inr ⟨t, hk.trans hs, he⟩)]
        refine ⟨fun j hj => hpos j (by omega), hnames, ?_, ?_, hfwd, hside⟩
        · rw [hflag]
          constructor
          · rintro ⟨j, u, hj, hu⟩
            exact ⟨j, u, by omega, hu⟩
          · rintro ⟨j, u, hj, hu, hue, huo⟩
            have hne : j ≠ k := by
              rintro rfl
              rw [hs] at hu
              cases hu
              rw [he] at hue
              exact Bool.noConfusion hue
            exact ⟨j, u, by omega, hu, hue, huo⟩
        · rw [hlog, expectedAttempts_succ, hs]
          simp [he]

/-- What one `forwardPacket` call returns and leaves behind. -/
theorem forwardPacket_result (env : Nat → SendEnv) (packet nodeId : String) (s : Relay) :
    ((forwardPacket env packet nodeId s).1 = true ↔
      ∃ j t, s.forwardTargets[j]? = some t ∧ t.enabled = true ∧
        sendOutcome (env j) packet t = true) ∧
    (forwardPacket env packet nodeId s).2.totalForwarded =
      s.totalForwarded + (if (forwardPacket env packet nodeId s).1 then 1 else 0) ∧
    (forwardPacket env packet nodeId s).2.sendLog =
      s.sendLog ++ expectedAttempts packet s.forwardTargets s.forwardTargets.length ∧
    (forwardPacket env packet nodeId s).2.forwardTargets =
      (forwardLoop env packet s s.forwardTargets.length).2.forwardTargets ∧
    SameReceiveSide (forwardPacket env packet nodeId s).2 s := by
  obtain ⟨-, -, hflag, hlog, hfwd, hside⟩ :=
    forwardLoop_invariant env packet s s.forwardTargets.length
  have hiff : (forwardLoop env packet s s.forwardTargets.length).1 = true ↔
      ∃ j t, s.forwardTargets[j]? = some t ∧ t.enabled = true ∧
        sendOutcome (env j) packet t = true := by
    rw [hflag]
    constructor
    · rintro ⟨j, t, -, h⟩
      exact ⟨j, t, h⟩
    · rintro ⟨j, t, hj, h⟩
      have hlt : j < s.forwardTargets.length := by
        by_contra hge
        rw [List.getElem?_eq_none (by omega)] at hj
        exact Option.noConfusion hj
      exact ⟨j, t, hlt, hj, h⟩
  by_cases hr : (forwardLoop env packet s s.forwardTargets.length).1 = true
  · simp only [forwardPacket, hr, if_true]
    refine ⟨?_, ?_, hlog, trivial, hside⟩
    · simpa using hiff.mp hr
    · simp [hfwd]
  · have hnot : ¬ ∃ j t, s.forwardTargets[j]? = some t ∧ t.enabled = true ∧
        sendOutcome (env j) packet t = true := fun h => hr (hiff.mpr h)
    simp only [Bool.not_eq_true] at hr
    simp only [forwardPacket, hr, Bool.false_eq_true, if_false]
    refine ⟨?_, ?_, hlog, trivial, hside⟩
    · simpa using hnot
    · simp [hfwd]

theorem getElem?_name_of_map_eq (ts us : List ForwardTarget) (j : Nat) (u : ForwardTarget)
    (hmap : ts.map (fun t => t.name) = us.map (fun t => t.name)) (hj : ts[j]? = some u) :
    ∃ v, us[j]? = some v ∧ v.name = u.name := by
  have h1 : (ts.map (fun t => t.name))[j]? = some u.name := by
    rw [List.getElem?_map, hj]
    rfl
  rw [hmap, List.getElem?_map] at h1
  rcases hv : us[j]? with _ | v
  · rw [hv] at h1
    exact Option.noConfusion h1
  · rw [hv] at h1
    refine ⟨v, rfl, ?_⟩
    simpa using h1

/-- The effect of the first `k` iterations on a target whose name no other
registry entry carries. -/
theorem forwardLoop_unique (env : Nat → SendEnv) (packet : String) (s : Relay) (i : Nat)
    (t : ForwardTarget) (hi : s.forwardTargets[i]? = some t)
    (huniq : ∀ j u, s.forwardTargets[j]? = some u → u.name = t.name → j = i) (k : Nat) :
    (forwardLoop env packet s k).2.forwardTargets[i]? =
      some (if k ≤ i then t else if t.enabled then recordOutcome (env i) packet t else t) := by
  induction k with
  | zero => simpa [forwardLoop] using hi
  | succ k ih =>
    obtain ⟨hpos, hnames, -⟩ := forwardLoop_invariant env packet s k
    rw [forwardLoop_succ]
    have hk := hpos k (le_refl k)
    have hskip : forwardStep env packet (forwardLoop env packet s k) k =
        forwardLoop env packet s k → t.enabled = false ∨ k ≠ i →
        (forwardStep env packet (forwardLoop env packet s k) k).2.forwardTargets[i]? =
          some (if k + 1 ≤ i then t
            else if t.enabled then recordOutcome (env i) packet t else t) := by
      intro hstep hcase
      rw [hstep, ih]
      rcases hcase with hd | hne
      · simp [hd]
      · by_cases hle : k ≤ i
        · have : k + 1 ≤ i := by omega
          simp [hle, this]
        · have : ¬ k + 1 ≤ i := by omega
          simp [hle, this]
    rcases hs : s.forwardTargets[k]? with _ | u
    · refine hskip (forwardStep_skip env packet _ k (Or.inl (hk.trans hs))) (Or.inr ?_)
      rintro rfl
      rw [hs] at hi
      exact Option.noConfusion hi
    · by_cases he : u.enabled = true
      · obtain ⟨-, h2, -⟩ :=
          forwardStep_enabled env packet (forwardLoop env packet s k) k u (hk.trans hs) he
        rw [h2]
        by_cases hki : k = i
        · subst hki
          rw [hs] at hi
          cases hi
          have hcur : (forwardLoop env packet s k).2.forwardTargets[k]? = some t := hk.trans hs
          rw [updateFirst_getElem?_first t.name _ _ k t hcur rfl]
          · simp [he, outcomeUpdate_self]
          · intro j v hj hv hname
            obtain ⟨w, hw, hwn⟩ := getElem?_name_of_map_eq _ _ j v hnames hv
            have := huniq j w hw (hwn.trans hname)
            omega
        · have hne : u.name ≠ t.name := fun h => hki (huniq k u hs h)
          rw [updateFirst_getElem?_other u.name _ _ i _ ih]
          · by_cases hle : k ≤ i
            · have : k + 1 ≤ i := by omega
              simp [hle, this]
            · have : ¬ k + 1 ≤ i := by omega
              simp [hle, this]
          · intro hcontra
            apply hne
            rw [← hcontra]
            split_ifs
            · rfl
            · exact recordOutcome_name _ _ _
            · rfl
      · simp only [Bool.not_eq_true] at he
        refine hskip (forwardStep_skip env packet _ k (Or.inr ⟨u, hk.trans hs, he⟩)) ?_
        by_cases hki : k = i
        · subst hki
          rw [hs] at hi
          cases hi
          exact Or.inl he
        · exact Or.inr hki

theorem expectedAttempts_index (packet : String) (ts : List ForwardTarget) (k : Nat) :
    (expectedAttempts packet ts k).map (fun a => a.index) =
      (List.range k).filter (enabledAt ts) := by
  induction k with
  | zero => simp [expectedAttempts]
  | succ k ih =>
    rw [expectedAttempts_succ, List.map_append, ih, List.range_succ, List.filter_append]
    congr 1
    rcases hk : ts[k]? with _ | target
    · simp [enabledAt, hk]
    · by_cases he : target.enabled = true <;> simp [enabledAt, hk, he]

theorem expectedAttempts_mem (packet : String) (ts : List ForwardTarget) (k : Nat) (a : Attempt)
    (ha : a ∈ expectedAttempts packet ts k) :
    a.packet = packet ∧ a.index < k ∧
      ∃ t, ts[a.index]? = some t ∧ t.enabled = true ∧ a.name = t.name := by
  simp only [expectedAttempts, List.mem_filterMap, List.mem_range] at ha
  obtain ⟨j, hj, hsome⟩ := ha
  rcases hk : ts[j]? with _ | target
  · simp [hk] at hsome
  · by_cases he : target.enabled = true
    · simp only [hk, he, if_true, Option.some.injEq] at hsome
      subst hsome
      exact ⟨rfl, hj, target, hk, he, rfl⟩
    · simp [hk, he] at hsome

/-- C7. `forwardPacket` returns true exactly when the send to at least one
target that is enabled succeeded, for every registry and every outcome of the
sends; `totalForwarded` grows by exactly 1 when it returns true, however many
sends succeeded, and is unchanged when it returns false. In particular, with
the three enabled targets A (http), S (serial) and B (tcp), of which the sends
to A and S succeed and the send to B fails, `totalForwarded` goes from 0 to 1. -/
theorem forwardPacket_anySuccess_counts_once (env : Nat → SendEnv) (packet nodeId : String)
    (s : Relay) :
    ((forwardPacket env packet nodeId s).1 = true ↔
      ∃ j t, s.forwardTargets[j]? = some t ∧ t.enabled = true ∧
        sendOutcome (env j) packet t = true) ∧
    ((forwardPacket env packet nodeId s).1 = true →
      (forwardPacket env packet nodeId s).2.totalForwarded = s.totalForwarded + 1) ∧
    ((forwardPacket env packet nodeId s).1 = false →
      (forwardPacket env packet nodeId s).2.totalForwarded = s.totalForwarded) ∧
    (sendOutcome (httpOnly 1000 0) "p1" targetA = true ∧
      sendOutcome (httpOnly 1000 1) "p1" targetS = true ∧
      sendOutcome (httpOnly 1000 2) "p1" targetB = false ∧
      (forwardPacket (httpOnly 1000) "p1" "H1"
        { resetState with forwardTargets := [targetA, targetS, targetB] }).2.totalForwarded =
          1) := by
  obtain ⟨hflag, hfwd, -⟩ := forwardPacket_result env packet nodeId s
  refine ⟨hflag, ?_, ?_, by decide⟩
  · intro h
    rw [hfwd, h]
    rfl
  · intro h
    rw [hfwd, h]
    simp

theorem expectedAttempts_append (packet : String) (ts : List ForwardTarget)
    (t : ForwardTarget) (k : Nat) (hk : k ≤ ts.length) :
    expectedAttempts packet (ts ++ [t]) k = expectedAttempts packet ts k := by
  induction k with
  | zero => simp [expectedAttempts]
  | succ k ih =>
    rw [expectedAttempts_succ, expectedAttempts_succ, ih (by omega),
      List.getElem?_append_left (by omega)]

theorem expectedAttempts_names (packet : String) (ts : List ForwardTarget) :
    (expectedAttempts packet ts ts.length).map (fun a => a.name) =
      (ts.filter (fun t => t.enabled)).map (fun t => t.name) := by
  induction ts using List.reverseRecOn with
  | nil => simp [expectedAttempts]
  | append_singleton ts t ih =>
    rw [List.length_append, List.length_singleton, expectedAttempts_succ,
      expectedAttempts_append packet ts t ts.length (le_refl _), List.map_append, ih,
      List.filter_append, List.map_append]
    congr 1
    by_cases he : t.enabled = true <;> simp [he]

/-- C8. One `forwardPacket` pass starts its sends at exactly the positions
that hold an enabled target when the pass starts, in registry order and each
once, whatever the outcomes of the sends: the positions of the sends logged by
the pass are the enabled positions of `0, 1, ..., n-1` in increasing order, a
position holding an enabled target occurs once among them and a position
holding a disabled target never, and each send carries the packet and the name
of the target at its position, so that the names of the sends are the names
of `getActiveTargets()` at the start of the pass, in the same order. -/
theorem forwardPacket_attempts_each_enabled_once (env : Nat → SendEnv) (packet nodeId : String)
    (s : Relay) :
    (forwardPacket env packet nodeId s).2.sendLog =
      s.sendLog ++ expectedAttempts packet s.forwardTargets s.forwardTargets.length ∧
    (expectedAttempts packet s.forwardTargets s.forwardTargets.length).map (fun a => a.name) =
      (getActiveTargets s).map (fun t => t.name) ∧
    (expectedAttempts packet s.forwardTargets s.forwardTargets.length).map (fun a => a.index) =
      (List.range s.forwardTargets.length).filter (enabledAt s.forwardTargets) ∧
    (∀ j t, s.forwardTargets[j]? = some t →
      ((expectedAttempts packet s.forwardTargets s.forwardTargets.length).map
        (fun a => a.index)).count j = if t.enabled then 1 else 0) ∧
    (∀ a ∈ expectedAttempts packet s.forwardTargets s.forwardTargets.length,
      a.packet = packet ∧
      ∃ t, s.forwardTargets[a.index]? = some t ∧ t.enabled = true ∧ a.name = t.name) := by
  obtain ⟨-, -, hlog, -⟩ := forwardPacket_result env packet nodeId s
  refine ⟨hlog, expectedAttempts_names _ _, expectedAttempts_index _ _ _, ?_, ?_⟩
  · intro j t hj
    have hlt : j < s.forwardTargets.length := by
      by_contra hge
      rw [List.getElem?_eq_none (by omega)] at hj
      exact Option.noConfusion hj
    rw [expectedAttempts_index,
      List.count_eq_of_nodup ((List.nodup_range _).filter _)]
    simp [List.mem_filter, List.mem_range, hlt, enabledAt, hj]
  · intro a ha
    obtain ⟨h1, -, h3⟩ := expectedAttempts_mem packet _ _ a ha
    exact ⟨h1, h3⟩

/-! ## Lemmas on passes over a uniquely named target -/

theorem forwardPacket_unique (env : Nat → SendEnv) (packet nodeId : String) (s : Relay)
    (i : Nat) (t : ForwardTarget) (hi : s.forwardTargets[i]? = some t)
    (huniq : ∀ j u, s.forwardTargets[j]? = some u → u.name = t.name → j = i) :
    (forwardPacket env packet nodeId s).2.forwardTargets[i]? =
      some (if t.enabled then recordOutcome (env i) packet t else t) ∧
    (∀ j u, (forwardPacket env packet nodeId s).2.forwardTargets[j]? = some u →
      u.name = t.name → j = i) := by
  obtain ⟨-, -, -, htargets, -⟩ := forwardPacket_result env packet nodeId s
  obtain ⟨-, hnames, -⟩ := forwardLoop_invariant env packet s s.forwardTargets.length
  have hlt : i < s.forwardTargets.length := by
    by_contra hge
    rw [List.getElem?_eq_none (by omega)] at hi
    exact Option.noConfusion hi
  rw [htargets]
  constructor
  · rw [forwardLoop_unique env packet s i t hi huniq]
    have : ¬ s.forwardTargets.length ≤ i := by omega
    simp [this]
  · intro j u hj hname
    obtain ⟨w, hw, hwn⟩ := getElem?_name_of_map_eq _ _ j u hnames hj
    exact huniq j w hw (hwn.trans hname)

theorem sendOutcome_type (e : SendEnv) (packet : String) (t u : ForwardTarget)
    (h : t.type = u.type) : sendOutcome e packet t = sendOutcome e packet u := by
  simp [sendOutcome, forwardToLoRa, forwardToHTTP, forwardToTCP, forwardToUDP,
    forwardToSerial, h]

theorem recordFailure_type (t : ForwardTarget) : (recordFailure t).type = t.type := by
  simp only [recordFailure]
  split_ifs <;> rfl

theorem failPass_type (t : ForwardTarget) : (failPass t).type = t.type := by
  simp only [failPass]
  split_ifs
  · exact recordFailure_type t
  · rfl

theorem failPass_name (t : ForwardTarget) : (failPass t).name = t.name := by
  simp only [failPass]
  split_ifs
  · exact recordFailure_name t
  · rfl

/-- Consecutive passes in each of which the send to a uniquely named target
fails apply `failPass` to it once per pass. -/
theorem forwardPackets_failing (passes : List Pass) (s : Relay) (i : Nat) (t : ForwardTarget)
    (hi : s.forwardTargets[i]? = some t)
    (huniq : ∀ j u, s.forwardTargets[j]? = some u → u.name = t.name → j = i)
    (hfail : ∀ p ∈ passes, sendOutcome (p.env i) p.packet t = false) :
    (forwardPackets passes s).forwardTargets[i]? = some (failPass^[passes.length] t) ∧
    (∀ j u, (forwardPackets passes s).forwardTargets[j]? = some u → u.name = t.name → j = i) := by
  induction passes generalizing s t with
  | nil => exact ⟨by simpa [forwardPackets] using hi, huniq⟩
  | cons p rest ih =>
    obtain ⟨h1, h2⟩ := forwardPacket_unique p.env p.packet p.nodeId s i t hi huniq
    have hp : sendOutcome (p.env i) p.packet t = false := hfail p (List.mem_cons_self _ _)
    have hstep : (if t.enabled then recordOutcome (p.env i) p.packet t else t) = failPass t := by
      simp [recordOutcome, failPass, hp]
    rw [hstep] at h1
    have hrest : ∀ q ∈ rest, sendOutcome (q.env i) q.packet (failPass t) = false := by
      intro q hq
      rw [sendOutcome_type _ _ (failPass t) t (failPass_type t)]
      exact hfail q (List.mem_cons_of_mem _ hq)
    have h2' : ∀ j u, (forwardPacket p.env p.packet p.nodeId s).2.forwardTargets[j]? = some u →
        u.name = (failPass t).name → j = i := by
      intro j u hj hname
      exact h2 j u hj (hname.trans (failPass_name t))
    obtain ⟨r1, r2⟩ := ih _ (failPass t) h1 h2' hrest
    refine ⟨?_, ?_⟩
    · simp only [forwardPackets, List.length_cons, Function.iterate_succ_apply]
      exact r1
    · intro j u hj hname
      exact r2 j u hj (hname.trans (failPass_name t).symm)

theorem failPass_five (t : ForwardTarget) (he : t.enabled = true) (hfc : t.failureCount = 0) :
    failPass^[5] t = { t with failureCount := 5, enabled := false } := by
  obtain ⟨name, type, address, port, enabled, lastSuccess, failureCount⟩ := t
  simp only at he hfc
  subst he hfc
  simp [Function.iterate_succ, failPass, recordFailure]

/-- C6. A uniquely named enabled target that starts with `failureCount` 0 is
disabled after five `forwardPacket` passes in each of which its send fails
(its `failureCount` is then 5 and `lastSuccess` is as before), and its name is
still unique. In every pass made while a uniquely named target is disabled, no
send to it is started and its `failureCount`, `lastSuccess` and `enabled`
flag (the whole entry) stay as they are. -/
theorem five_failures_disable_and_exclude (passes : List Pass) (s : Relay) (i : Nat)
    (t : ForwardTarget) (hi : s.forwardTargets[i]? = some t)
    (huniq : ∀ j u, s.forwardTargets[j]? = some u → u.name = t.name → j = i)
    (he : t.enabled = true) (hfc : t.failureCount = 0) (hlen : passes.length = 5)
    (hfail : ∀ p ∈ passes, sendOutcome (p.env i) p.packet t = false) :
    (forwardPackets passes s).forwardTargets[i]? =
      some { t with failureCount := 5, enabled := false } ∧
    (∀ j u, (forwardPackets passes s).forwardTargets[j]? = some u → u.name = t.name → j = i) ∧
    (∀ (later : Pass) (s' : Relay) (t' : ForwardTarget),
      s'.forwardTargets[i]? = some t' → t'.enabled = false →
      (∀ j u, s'.forwardTargets[j]? = some u → u.name = t'.name → j = i) →
      (forwardPacket later.env later.packet later.nodeId s').2.forwardTargets[i]? = some t' ∧
      ∃ attempts,
        (forwardPacket later.env later.packet later.nodeId s').2.sendLog =
          s'.sendLog ++ attempts ∧
        ∀ a ∈ attempts, a.index ≠ i) := by
  obtain ⟨h1, h2⟩ := forwardPackets_failing passes s i t hi huniq hfail
  rw [hlen, failPass_five t he hfc] at h1
  refine ⟨h1, h2, ?_⟩
  intro later s' t' hi' hd' huniq'
  obtain ⟨g1, -⟩ := forwardPacket_unique later.env later.packet later.nodeId s' i t' hi' huniq'
  obtain ⟨-, -, hlog, -⟩ := forwardPacket_result later.env later.packet later.nodeId s'
  refine ⟨by simpa [hd'] using g1, _, hlog, ?_⟩
  intro a ha hai
  obtain ⟨-, -, u, hu, hue, -⟩ := expectedAttempts_mem _ _ _ a ha
  rw [hai, hi'] at hu
  cases hu
  rw [hd'] at hue
  exact Bool.noConfusion hue

/-- Witness for C6: the registry holding only the TCP target B, and five
passes made while the network is unreachable. -/
theorem five_failures_disable_and_exclude_witness :
    (forwardPackets (List.replicate 5 ⟨offline, "ping", "H1"⟩)
      { resetState with forwardTargets := [targetB] }).forwardTargets[0]? =
      some { targetB with failureCount := 5, enabled := false } :=
  (five_failures_disable_and_exclude (List.replicate 5 ⟨offline, "ping", "H1"⟩)
    { resetState with forwardTargets := [targetB] } 0 targetB rfl
    (by
      intro j u hj _
      cases j with
      | zero => rfl
      | succ j => simp at hj)
    rfl rfl rfl
    (by
      intro p hp
      rw [List.eq_of_mem_replicate hp]
      decide)).1

/-! ## Lemmas on consecutive passes -/

theorem SameReceiveSide.trans {a b c : Relay} (h1 : SameReceiveSide a b)
    (h2 : SameReceiveSide b c) : SameReceiveSide a c := by
  obtain ⟨a1, a2, a3, a4, a5, a6⟩ := h1
  obtain ⟨b1, b2, b3, b4, b5, b6⟩ := h2
  exact ⟨a1.trans b1, a2.trans b2, a3.trans b3, a4.trans b4, a5.trans b5, a6.trans b6⟩

theorem forwardPacket_names (env : Nat → SendEnv) (packet nodeId : String) (s : Relay) :
    (forwardPacket env packet nodeId s).2.forwardTargets.map (fun t => t.name) =
      s.forwardTargets.map (fun t => t.name) := by
  obtain ⟨-, -, -, htargets, -⟩ := forwardPacket_result env packet nodeId s
  obtain ⟨-, hnames, -⟩ := forwardLoop_invariant env packet s s.forwardTargets.length
  rw [htargets, hnames]

theorem forwardPackets_names (passes : List Pass) (s : Relay) :
    (forwardPackets passes s).forwardTargets.map (fun t => t.name) =
      s.forwardTargets.map (fun t => t.name) ∧
    SameReceiveSide (forwardPackets passes s) s := by
  induction passes generalizing s with
  | nil => exact ⟨rfl, rfl, rfl, rfl, rfl, rfl, rfl⟩
  | cons p rest ih =>
    obtain ⟨h1, h2⟩ := ih (forwardPacket p.env p.packet p.nodeId s).2
    obtain ⟨-, -, -, -, hside⟩ := forwardPacket_result p.env p.packet p.nodeId s
    exact ⟨h1.trans (forwardPacket_names _ _ _ s), h2.trans hside⟩

/-- Consecutive passes in each of which the send to a uniquely named, enabled
target succeeds keep it enabled with no failures, and each pass counts as
forwarded. -/
theorem forwardPackets_succeeding (passes : List Pass) (s : Relay) (i : Nat)
    (t : ForwardTarget) (hi : s.forwardTargets[i]? = some t)
    (huniq : ∀ j u, s.forwardTargets[j]? = some u → u.name = t.name → j = i)
    (he : t.enabled = true) (hfc : t.failureCount = 0)
    (hok : ∀ p ∈ passes, sendOutcome (p.env i) p.packet t = true) :
    (∃ t', (forwardPackets passes s).forwardTargets[i]? = some t' ∧ t'.enabled = true ∧
      t'.failureCount = 0 ∧ t'.name = t.name ∧ t'.type = t.type ∧ t'.address = t.address ∧
      t'.port = t.port) ∧
    (forwardPackets passes s).totalForwarded = s.totalForwarded + passes.length := by
  induction passes generalizing s t with
  | nil => exact ⟨⟨t, by simpa [forwardPackets] using hi, he, hfc, rfl, rfl, rfl, rfl⟩, by simp [forwardPackets]⟩
  | cons p rest ih =>
    obtain ⟨h1, h2⟩ := forwardPacket_unique p.env p.packet p.nodeId s i t hi huniq
    obtain ⟨hflag, hfwd, -⟩ := forwardPacket_result p.env p.packet p.nodeId s
    have hp : sendOutcome (p.env i) p.packet t = true := hok p (List.mem_cons_self _ _)
    have htrue : (forwardPacket p.env p.packet p.nodeId s).1 = true :=
      hflag.mpr ⟨i, t, hi, he, hp⟩
    have hstep : (if t.enabled then recordOutcome (p.env i) p.packet t else t) =
        recordSuccess (p.env i).millis t := by
      simp [recordOutcome, he, hp]
    rw [hstep] at h1
    have hrest : ∀ q ∈ rest,
        sendOutcome (q.env i) q.packet (recordSuccess (p.env i).millis t) = true := by
      intro q hq
      rw [sendOutcome_type _ _ (recordSuccess (p.env i).millis t) t rfl]
      exact hok q (List.mem_cons_of_mem _ hq)
    obtain ⟨⟨t', r1, r2, r3, r4, r5, r6, r7⟩, rfwd⟩ :=
      ih _ (recordSuccess (p.env i).millis t) h1 h2 he rfl hrest
    refine ⟨⟨t', r1, r2, r3, r4, r5, r6, r7⟩, ?_⟩
    simp only [forwardPackets, List.length_cons]
    rw [rfwd, hfwd, htrue]
    push_cast
    simp only [if_true]
    ring

/-- C9. From zeroed statistics and the registry `[A, B]` with A = (http, host,
80) and B = (tcp, host2, 9000), both enabled with zero failure counters, five
`forwardPacket` passes in which the send to A always succeeds and the send to
B always fails end with B disabled (after exactly 5 counted failures), A
enabled with `failureCount` 0, `totalForwarded = 5` and `totalDuplicates = 0`.
The packets of the passes are arbitrary, distinct or not. -/
theorem scenario_A_succeeds_B_fails_five_times (passes : List Pass) (s : Relay)
    (hreg : s.forwardTargets = [targetA, targetB])
    (hrecv : s.totalReceived = 0) (hfwd : s.totalForwarded = 0) (hdup : s.totalDuplicates = 0)
    (hlen : passes.length = 5)
    (hA : ∀ p ∈ passes, sendOutcome (p.env 0) p.packet targetA = true)
    (hB : ∀ p ∈ passes, sendOutcome (p.env 1) p.packet targetB = false) :
    (forwardPackets passes s).forwardTargets.length = 2 ∧
    (∃ a, (forwardPackets passes s).forwardTargets[0]? = some a ∧ a.name = "A" ∧
      a.enabled = true ∧ a.failureCount = 0) ∧
    (forwardPackets passes s).forwardTargets[1]? =
      some { targetB with failureCount := 5, enabled := false } ∧
    (forwardPackets passes s).totalForwarded = 5 ∧
    (forwardPackets passes s).totalDuplicates = 0 ∧
    (forwardPackets passes s).totalReceived = 0 := by
  have hA0 : s.forwardTargets[0]? = some targetA := by simp [hreg]
  have hB1 : s.forwardTargets[1]? = some targetB := by simp [hreg]
  have huA : ∀ j u, s.forwardTargets[j]? = some u → u.name = targetA.name → j = 0 := by
    intro j u hj hname
    rw [hreg] at hj
    match j, hj with
    | 0, _ => rfl
    | 1, hj =>
      simp only [List.getElem?_cons_succ, List.getElem?_cons_zero, Option.some.injEq] at hj
      subst hj
      exact absurd hname (by decide)
    | j + 2, hj => simp at hj
  have huB : ∀ j u, s.forwardTargets[j]? = some u → u.name = targetB.name → j = 1 := by
    intro j u hj hname
    rw [hreg] at hj
    match j, hj with
    | 0, hj =>
      simp only [List.getElem?_cons_zero, Option.some.injEq] at hj
      subst hj
      exact absurd hname (by decide)
    | 1, _ => rfl
    | j + 2, hj => simp at hj
  obtain ⟨⟨a, a1, a2, a3, a4, -⟩, afwd⟩ :=
    forwardPackets_succeeding passes s 0 targetA hA0 huA rfl rfl hA
  obtain ⟨b1, -⟩ := forwardPackets_failing passes s 1 targetB hB1 huB hB
  obtain ⟨hnames, hside⟩ := forwardPackets_names passes s
  rw [hlen, failPass_five targetB rfl rfl] at b1
  refine ⟨?_, ⟨a, a1, a4, a2, a3⟩, b1, ?_, ?_, ?_⟩
  · have := congrArg List.length hnames
    simpa [hreg] using this
  · rw [afwd, hfwd, hlen]
    rfl
  · rw [hside.2.2.2.2.1, hdup]
  · rw [hside.2.2.2.1, hrecv]

/-- Witness for C9: five passes at clock readings 1000, ..., 5000 in a world
where HTTP answers 200 and TCP connections are refused. -/
theorem scenario_A_succeeds_B_fails_five_times_witness :
    (forwardPackets
      [⟨httpOnly 1000, "p1", "H1"⟩, ⟨httpOnly 2000, "p2", "H1"⟩, ⟨httpOnly 3000, "p3", "H1"⟩,
        ⟨httpOnly 4000, "p4", "H1"⟩, ⟨httpOnly 5000, "p5", "H1"⟩]
      { resetState with forwardTargets := [targetA, targetB] }).totalForwarded = 5 :=
  (scenario_A_succeeds_B_fails_five_times
    [⟨httpOnly 1000, "p1", "H1"⟩, ⟨httpOnly 2000, "p2", "H1"⟩, ⟨httpOnly 3000, "p3", "H1"⟩,
      ⟨httpOnly 4000, "p4", "H1"⟩, ⟨httpOnly 5000, "p5", "H1"⟩]
    { resetState with forwardTargets := [targetA, targetB] } rfl rfl rfl rfl rfl
    (by
      intro p hp
      simp only [List.mem_cons, List.mem_singleton, List.not_mem_nil, or_false] at hp
      rcases hp with rfl | rfl | rfl | rfl | rfl <;> decide)
    (by
      intro p hp
      simp only [List.mem_cons, List.mem_singleton, List.not_mem_nil, or_false] at hp
      rcases hp with rfl | rfl | rfl | rfl | rfl <;> decide)).2.2.2.1

/-- C5 fails on the code: a disabled target with five failures whose last
success lies 700000 ms back is skipped by `checkTargetHealth`; it stays
disabled with `failureCount` 5, and nothing is persisted. -/
theorem checkTargetHealth_skips_disabled_target :
    checkTargetHealth 700000
        { resetState with
          forwardTargets := [{ targetB with enabled := false, failureCount := 5 }] } =
      { resetState with
        forwardTargets := [{ targetB with enabled := false, failureCount := 5 }] } ∧
    millisDiff 700000 0 ≥ 600000 := by
  decide

/-! ## Lemmas on ledger insertion and cleanup -/

theorem addToPacketHistory_history (now : Nat) (packet nodeId : String) (rssi : Int)
    (s : Relay) :
    (addToPacketHistory now packet nodeId rssi s).packetHistory =
      if (s.packetHistory ++ [packetRecord now packet nodeId rssi]).length > MAX_PACKET_HISTORY
      then (s.packetHistory ++ [packetRecord now packet nodeId rssi]).tail
      else s.packetHistory ++ [packetRecord now packet nodeId rssi] := by
  simp only [addToPacketHistory, packetRecord]
  split_ifs <;> rfl

theorem addToPacketHistory_below (now : Nat) (packet nodeId : String) (rssi : Int) (s : Relay)
    (h : s.packetHistory.length < MAX_PACKET_HISTORY) :
    (addToPacketHistory now packet nodeId rssi s).packetHistory =
      s.packetHistory ++ [packetRecord now packet nodeId rssi] := by
  rw [addToPacketHistory_history, if_neg]
  simp only [List.length_append, List.length_singleton]
  omega

theorem addToPacketHistory_full (now : Nat) (packet nodeId : String) (rssi : Int) (s : Relay)
    (h : s.packetHistory.length = MAX_PACKET_HISTORY) :
    (addToPacketHistory now packet nodeId rssi s).packetHistory =
      s.packetHistory.tail ++ [packetRecord now packet nodeId rssi] := by
  rw [addToPacketHistory_history, if_pos]
  · cases hl : s.packetHistory with
    | nil =>
      rw [hl] at h
      simp only [List.length_nil, MAX_PACKET_HISTORY] at h
      omega
    | cons p rest => simp
  · simp only [List.length_append, List.length_singleton]
    omega

theorem insertAll_history (calls : List Insertion) (s : Relay)
    (h : s.packetHistory.length ≤ MAX_PACKET_HISTORY) :
    (insertAll calls s).packetHistory =
      (s.packetHistory ++ calls.map insertedRecord).drop
        (s.packetHistory.length + calls.length - MAX_PACKET_HISTORY) := by
  induction calls generalizing s with
  | nil =>
    simp only [insertAll, List.map_nil, List.append_nil, List.length_nil, Nat.add_zero]
    rw [Nat.sub_eq_zero_of_le h]
    rfl
  | cons c rest ih =>
    simp only [insertAll]
    rcases Nat.lt_or_ge s.packetHistory.length MAX_PACKET_HISTORY with hlt | hge
    · have hstep := addToPacketHistory_below c.now c.packet c.nodeId c.rssi s hlt
      rw [ih _ (by rw [hstep]; simp only [List.length_append, List.length_singleton]; omega),
        hstep]
      simp only [List.length_append, List.length_singleton, List.length_cons, List.map_cons,
        List.append_assoc, List.singleton_append, insertedRecord, List.length_nil,
        Nat.zero_add]
      rw [show s.packetHistory.length + 1 + rest.length =
        s.packetHistory.length + (rest.length + 1) by omega]
    · have heq : s.packetHistory.length = MAX_PACKET_HISTORY := by omega
      have hstep := addToPacketHistory_full c.now c.packet c.nodeId c.rssi s heq
      cases hl : s.packetHistory with
      | nil =>
        rw [hl] at heq
        simp only [List.length_nil, MAX_PACKET_HISTORY] at heq
        omega
      | cons p old =>
        rw [hl] at hstep heq
        simp only [List.tail_cons] at hstep
        simp only [List.length_cons] at heq
        rw [ih _ (by rw [hstep]; simp only [List.length_append, List.length_singleton]; omega),
          hstep]
        simp only [List.length_append, List.length_singleton, List.length_cons, List.map_cons,
          List.append_assoc, List.singleton_append, insertedRecord, List.cons_append,
          List.length_nil, List.nil_append, Nat.zero_add]
        have h1 : old.length + 1 + rest.length - MAX_PACKET_HISTORY = rest.length := by omega
        have h2 : old.length + 1 + (rest.length + 1) - MAX_PACKET_HISTORY = rest.length + 1 := by
          omega
        rw [h1, h2, List.drop_succ_cons]

/-- C11. `addToPacketHistory` evicts oldest-first. A ledger with fewer than 1000
records gets the new record appended; a ledger with exactly 1000 records loses
its first (oldest) record and gets the new record appended. After `n`
insertions into an empty ledger the ledger is the list of the inserted records
without its first `n - 1000` elements: the last `min n 1000` inserted records,
in insertion order. -/
theorem addToPacketHistory_evicts_oldest_first (now : Nat) (packet nodeId : String) (rssi : Int)
    (s : Relay) (calls : List Insertion) :
    (s.packetHistory.length < 1000 →
      (addToPacketHistory now packet nodeId rssi s).packetHistory =
        s.packetHistory ++ [packetRecord now packet nodeId rssi]) ∧
    (s.packetHistory.length = 1000 →
      (addToPacketHistory now packet nodeId rssi s).packetHistory =
        s.packetHistory.tail ++ [packetRecord now packet nodeId rssi]) ∧
    (s.packetHistory = [] →
      (insertAll calls s).packetHistory =
        (calls.map insertedRecord).drop (calls.length - 1000) ∧
      (insertAll calls s).packetHistory.length = min calls.length 1000) := by
  refine ⟨addToPacketHistory_below now packet nodeId rssi s,
    addToPacketHistory_full now packet nodeId rssi s, ?_⟩
  intro hempty
  have h := insertAll_history calls s (by rw [hempty]; simp)
  rw [hempty] at h
  simp only [List.nil_append, List.length_nil, Nat.zero_add, MAX_PACKET_HISTORY] at h
  refine ⟨h, ?_⟩
  rw [h, List.length_drop, List.length_map]
  omega

/-- C12. `cleanupPacketHistory` keeps exactly the records whose age
`now - timestamp` (on 32-bit clock readings) is at most 300000 ms, unmodified
and in their original order, and removes every older record, whatever the
size of the ledger. -/
theorem cleanupPacketHistory_keeps_recent_records (now : Nat) (s : Relay) :
    (cleanupPacketHistory now s).packetHistory =
      s.packetHistory.filter (fun p => decide (millisDiff now p.timestamp ≤ 300000)) ∧
    (cleanupPacketHistory now s).packetHistory.Sublist s.packetHistory ∧
    (∀ p, p ∈ (cleanupPacketHistory now s).packetHistory ↔
      p ∈ s.packetHistory ∧ millisDiff now p.timestamp ≤ 300000) := by
  have hfilter : (cleanupPacketHistory now s).packetHistory =
      s.packetHistory.filter (fun p => decide (millisDiff now p.timestamp ≤ 300000)) := by
    simp only [cleanupPacketHistory, PACKET_CLEANUP_INTERVAL]
    apply List.filter_congr
    intro p _
    by_cases hp : millisDiff now p.timestamp ≤ 300000
    · simp [hp, Nat.not_lt.mpr hp]
    · simp [hp, Nat.lt_of_not_le hp]
  refine ⟨hfilter, ?_, ?_⟩
  · rw [hfilter]
    exact List.filter_sublist _
  · intro p
    rw [hfilter, List.mem_filter]
    simp

theorem hashFind_none_of_not_mem (key : String) (m : HashMap)
    (h : key ∉ m.map Prod.fst) : hashFind key m = none := by
  induction m with
  | nil => rfl
  | cons e rest ih =>
    obtain ⟨k, v⟩ := e
    simp only [List.map_cons, List.mem_cons, not_or] at h
    have hk : ¬ k = key := fun hk => h.1 hk.symm
    simp only [hashFind, hk, if_false]
    exact ih h.2

theorem hashFind_filter (key : String) (keep : String × Nat → Bool) (m : HashMap)
    (hnodup : (m.map Prod.fst).Nodup) :
    hashFind key (m.filter keep) =
      match hashFind key m with
      | some v => if keep (key, v) then some v else none
      | none => none := by
  induction m with
  | nil => rfl
  | cons e rest ih =>
    obtain ⟨k, v⟩ := e
    simp only [List.map_cons, List.nodup_cons] at hnodup
    obtain ⟨hfresh, hrest⟩ := hnodup
    by_cases hk : k = key
    · subst hk
      by_cases hkeep : keep (k, v) = true
      · simp [List.filter, hkeep, hashFind]
      · simp only [Bool.not_eq_true] at hkeep
        have hnot : k ∉ (rest.filter keep).map Prod.fst := by
          intro hmem
          apply hfresh
          obtain ⟨e, he, hek⟩ := List.mem_map.mp hmem
          exact List.mem_map.mpr ⟨e, (List.mem_filter.mp he).1, hek⟩
        simp [List.filter, hkeep, hashFind, hashFind_none_of_not_mem k _ hnot]
    · by_cases hkeep : keep (k, v) = true
      · simp only [List.filter, hkeep, hashFind, hk, if_false]
        exact ih hrest
      · simp only [Bool.not_eq_true] at hkeep
        simp only [List.filter, hkeep, hashFind, hk, if_false]
        exact ih hrest

/-- C13. After `cleanupPacketHistory` the tracker consists of exactly the
entries whose age `now - lastSeen` (on 32-bit clock readings) is at most
120000 ms, twice the duplicate window, each unchanged: no entry older than
that is left, and every entry that is not older is still there. In a tracker
with one entry per hash, the hash of a packet last recorded more than
120000 ms before the pass is therefore no longer found, and every other
lookup answers as before. -/
theorem cleanupPacketHistory_prunes_tracker (now : Nat) (s : Relay) :
    PACKET_DUPLICATE_WINDOW * 2 = 120000 ∧
    (cleanupPacketHistory now s).packetHashes =
      s.packetHashes.filter (fun e => decide (millisDiff now e.2 ≤ 120000)) ∧
    (∀ e ∈ (cleanupPacketHistory now s).packetHashes, ¬ millisDiff now e.2 > 120000) ∧
    (∀ e ∈ s.packetHashes, millisDiff now e.2 ≤ 120000 →
      e ∈ (cleanupPacketHistory now s).packetHashes) ∧
    (∀ e ∈ s.packetHashes, millisDiff now e.2 > 120000 →
      e ∉ (cleanupPacketHistory now s).packetHashes) ∧
    ((s.packetHashes.map Prod.fst).Nodup → ∀ hash,
      hashFind hash (cleanupPacketHistory now s).packetHashes =
        match hashFind hash s.packetHashes with
        | some lastSeen => if millisDiff now lastSeen ≤ 120000 then some lastSeen else none
        | none => none) := by
  have hfilter : (cleanupPacketHistory now s).packetHashes =
      s.packetHashes.filter (fun e => decide (millisDiff now e.2 ≤ 120000)) := by
    simp only [cleanupPacketHistory, PACKET_DUPLICATE_WINDOW]
    apply List.filter_congr
    intro e _
    by_cases he : millisDiff now e.2 ≤ 120000
    · simp [he, Nat.not_lt.mpr he]
    · simp [he, Nat.lt_of_not_le he]
  refine ⟨rfl, hfilter, ?_, ?_, ?_, ?_⟩
  · intro e he
    rw [hfilter, List.mem_filter] at he
    have := he.2
    simp only [decide_eq_true_eq] at this
    omega
  · intro e he hage
    rw [hfilter, List.mem_filter]
    exact ⟨he, by simpa using hage⟩
  · intro e _ hage hmem
    rw [hfilter, List.mem_filter] at hmem
    have := hmem.2
    simp only [decide_eq_true_eq] at this
    omega
  · intro hnodup hash
    rw [hfilter, hashFind_filter hash _ _ hnodup]
    rcases hashFind hash s.packetHashes with _ | lastSeen
    · rfl
    · by_cases hage : millisDiff now lastSeen ≤ 120000 <;> simp [hage]

/-! ## Lemmas on registries with unique names -/

theorem nodup_names_unique (ts : List ForwardTarget)
    (hnodup : (ts.map (fun t => t.name)).Nodup) (i j : Nat) (t u : ForwardTarget)
    (hi : ts[i]? = some t) (hj : ts[j]? = some u) (hn : u.name = t.name) : j = i := by
  induction ts generalizing i j with
  | nil => simp at hi
  | cons v rest ih =>
    simp only [List.map_cons, List.nodup_cons, List.mem_map, not_exists, not_and] at hnodup
    obtain ⟨hfresh, hrest⟩ := hnodup
    cases i with
    | zero =>
      cases j with
      | zero => rfl
      | succ j =>
        simp only [List.getElem?_cons_zero, Option.some.injEq] at hi
        simp only [List.getElem?_cons_succ] at hj
        subst hi
        exact absurd hn (hfresh u (List.mem_iff_getElem?.mpr ⟨j, hj⟩))
    | succ i =>
      cases j with
      | zero =>
        simp only [List.getElem?_cons_zero, Option.some.injEq] at hj
        simp only [List.getElem?_cons_succ] at hi
        subst hj
        exact absurd hn.symm (hfresh t (List.mem_iff_getElem?.mpr ⟨i, hi⟩))
      | succ j =>
        simp only [List.getElem?_cons_succ] at hi hj
        rw [ih hrest i j hi hj]

/-- A position that does not hold the name is not touched, in range or not. -/
theorem updateFirst_getElem?_ne (name : String) (f : ForwardTarget → ForwardTarget)
    (ts : List ForwardTarget) (j : Nat)
    (h : ∀ u, ts[j]? = some u → u.name ≠ name) :
    (updateFirst name f ts)[j]? = ts[j]? := by
  rcases hj : ts[j]? with _ | u
  · rw [List.getElem?_eq_none_iff] at hj ⊢
    rw [updateFirst_length]
    exact hj
  · exact updateFirst_getElem?_other name f ts j u hj (h u hj)

theorem findFirst_of_first (name : String) (ts : List ForwardTarget) (i : Nat)
    (t : ForwardTarget) (hi : ts[i]? = some t) (hn : t.name = name)
    (hfirst : ∀ j u, j < i → ts[j]? = some u → u.name ≠ name) :
    findFirst name ts = some t := by
  induction ts generalizing i with
  | nil => simp at hi
  | cons v rest ih =>
    cases i with
    | zero =>
      simp only [List.getElem?_cons_zero, Option.some.injEq] at hi
      subst hi
      simp [findFirst, hn]
    | succ i =>
      have hv : v.name ≠ name := hfirst 0 v (by omega) (by simp)
      simp only [List.getElem?_cons_succ] at hi
      simp only [findFirst, hv, if_false]
      refine ih i hi ?_
      intro j u hj hu
      exact hfirst (j + 1) u (by omega) (by simpa using hu)

theorem findFirst_none_iff (name : String) (ts : List ForwardTarget) :
    findFirst name ts = none ↔ ∀ u ∈ ts, u.name ≠ name := by
  induction ts with
  | nil => simp [findFirst]
  | cons v rest ih =>
    by_cases hv : v.name = name
    · simp [findFirst, hv]
    · simp [findFirst, hv, ih]

/-- In a registry with unique names, `updateFirst` changes the one position
that holds the name and no other. -/
theorem updateFirst_unique (name : String) (f : ForwardTarget → ForwardTarget)
    (ts : List ForwardTarget) (hnodup : (ts.map (fun t => t.name)).Nodup) (i : Nat)
    (t : ForwardTarget) (hi : ts[i]? = some t) (hn : t.name = name) :
    (updateFirst name f ts)[i]? = some (f t) ∧
    (∀ j, j ≠ i → (updateFirst name f ts)[j]? = ts[j]?) ∧
    findFirst name ts = some t := by
  have hfirst : ∀ j u, j < i → ts[j]? = some u → u.name ≠ name := by
    intro j u hj hu hname
    have := nodup_names_unique ts hnodup i j t u hi hu (hname.trans hn.symm)
    omega
  refine ⟨updateFirst_getElem?_first name f ts i t hi hn hfirst, ?_,
    findFirst_of_first name ts i t hi hn hfirst⟩
  intro j hj
  apply updateFirst_getElem?_ne
  intro u hu hname
  exact hj (nodup_names_unique ts hnodup i j t u hi hu (hname.trans hn.symm))

/-- C18. In a registry with unique names that holds `name` at position `i`,
`markTargetSuccess(name)` at clock reading `now` sets that target's
`failureCount` to 0 and its `lastSuccess` to `now` and leaves its name,
`enabled` flag, type, address and port as they are; every other position, the
length of the registry and every other global are unchanged. For a name that
is not in the registry the call changes nothing. -/
theorem markTargetSuccess_resets_named_target (now : Nat) (name : String) (s : Relay) (i : Nat)
    (t : ForwardTarget) (hnodup : (s.forwardTargets.map (fun t => t.name)).Nodup)
    (hi : s.forwardTargets[i]? = some t) (hn : t.name = name) :
    (markTargetSuccess now name s).forwardTargets[i]? =
      some { t with lastSuccess := now, failureCount := 0 } ∧
    (∀ j, j ≠ i →
      (markTargetSuccess now name s).forwardTargets[j]? = s.forwardTargets[j]?) ∧
    (markTargetSuccess now name s).forwardTargets.length = s.forwardTargets.length ∧
    markTargetSuccess now name s =
      { s with forwardTargets := (markTargetSuccess now name s).forwardTargets } ∧
    (∀ other, (∀ u ∈ s.forwardTargets, u.name ≠ other) →
      markTargetSuccess now other s = s) := by
  obtain ⟨h1, h2, -⟩ := updateFirst_unique name (recordSuccess now) s.forwardTargets hnodup i t hi hn
  refine ⟨h1, h2, updateFirst_length _ _ _, rfl, ?_⟩
  intro other hother
  simp only [markTargetSuccess]
  rw [updateFirst_absent other _ _ ((findFirst_none_iff other _).mpr hother)]

/-- Witness for C18: success of target B in the registry `[A, B]` at clock
reading 5000. -/
theorem markTargetSuccess_resets_named_target_witness :
    (markTargetSuccess 5000 "B"
      { resetState with
        forwardTargets := [targetA, { targetB with failureCount := 3 }] }).forwardTargets[1]? =
      some { targetB with lastSuccess := 5000, failureCount := 0 } :=
  (markTargetSuccess_resets_named_target 5000 "B"
    { resetState with forwardTargets := [targetA, { targetB with failureCount := 3 }] } 1
    { targetB with failureCount := 3 } (by decide) rfl rfl).1

/-- C19. In a registry with unique names that holds `name` at position `i`,
`markTargetFailure(name)` increases that target's `failureCount` by exactly 1
and leaves its `lastSuccess` (and name, type, address, port) as they are. When
the new count is at least 5 the target is marked disabled and the store is
rewritten from the registry; when it is below 5 the `enabled` flag and the
store are unchanged. No other position and no other global changes. -/
theorem markTargetFailure_counts_and_disables (name : String) (s : Relay) (i : Nat)
    (t : ForwardTarget) (hnodup : (s.forwardTargets.map (fun t => t.name)).Nodup)
    (hi : s.forwardTargets[i]? = some t) (hn : t.name = name) :
    (t.failureCount + 1 ≥ 5 →
      (markTargetFailure name s).forwardTargets[i]? =
        some { t with failureCount := t.failureCount + 1, enabled := false } ∧
      (markTargetFailure name s).prefs =
        (saveForwardTargets
          { s with forwardTargets := (markTargetFailure name s).forwardTargets }).prefs) ∧
    (t.failureCount + 1 < 5 →
      (markTargetFailure name s).forwardTargets[i]? =
        some { t with failureCount := t.failureCount + 1 } ∧
      (markTargetFailure name s).prefs = s.prefs) ∧
    (∀ j, j ≠ i →
      (markTargetFailure name s).forwardTargets[j]? = s.forwardTargets[j]?) ∧
    (markTargetFailure name s).forwardTargets.length = s.forwardTargets.length ∧
    markTargetFailure name s =
      { s with
        forwardTargets := (markTargetFailure name s).forwardTargets
        prefs := (markTargetFailure name s).prefs } := by
  obtain ⟨h1, h2, h3⟩ := updateFirst_unique name recordFailure s.forwardTargets hnodup i t hi hn
  obtain ⟨htargets, -⟩ := markTargetFailure_frame name s
  refine ⟨?_, ?_, ?_, ?_, ?_⟩
  · intro h5
    rw [htargets, h1]
    refine ⟨by simp [recordFailure, h5], ?_⟩
    simp [markTargetFailure, h3, h5, saveForwardTargets]
  · intro h5
    have h5' : ¬ t.failureCount + 1 ≥ 5 := by omega
    rw [htargets, h1]
    refine ⟨by simp [recordFailure, h5'], ?_⟩
    simp [markTargetFailure, h3, h5']
  · intro j hj
    rw [htargets]
    exact h2 j hj
  · rw [htargets, updateFirst_length]
  · by_cases h5 : t.failureCount + 1 ≥ 5
    · simp [markTargetFailure, h3, h5, saveForwardTargets]
    · simp [markTargetFailure, h3, h5]

/-- Witness for C19: the fifth failure of target B in the registry `[A, B]`. -/
theorem markTargetFailure_counts_and_disables_witness :
    (markTargetFailure "B"
      { resetState with
        forwardTargets := [targetA, { targetB with failureCount := 4 }] }).forwardTargets[1]? =
      some { targetB with failureCount := 4 + 1, enabled := false } :=
  ((markTargetFailure_counts_and_disables "B"
    { resetState with forwardTargets := [targetA, { targetB with failureCount := 4 }] } 1
    { targetB with failureCount := 4 } (by decide) rfl rfl).1 (by decide)).1

/-! ## Lemmas on registry calls -/

theorem eraseFirst_sublist (name : String) (ts : List ForwardTarget) :
    (eraseFirst name ts).Sublist ts := by
  induction ts with
  | nil => exact List.Sublist.refl _
  | cons t rest ih =>
    by_cases h : t.name = name
    · simp only [eraseFirst, h, if_true]
      exact List.sublist_cons_self t rest
    · simp only [eraseFirst, h, if_false]
      exact ih.cons₂ t

theorem addForwardTarget_appends (name : String) (type : ForwardType) (address : String)
    (port : Int) (s : Relay) :
    (addForwardTarget name type address port s).1 = true ∧
    (addForwardTarget name type address port s).2.forwardTargets =
      s.forwardTargets ++
        [{ name := name, type := typeString type, address := address,
           port := if type = .FORWARD_HTTP ∧ port = 0 then 80 else port,
           enabled := true, lastSuccess := 0, failureCount := 0 }] := by
  simp [addForwardTarget, saveForwardTargets]

theorem runRegistryCall_nodup (c : RegistryCall) (s : Relay)
    (hnodup : (s.forwardTargets.map (fun t => t.name)).Nodup)
    (hfresh : addsAreFresh [c] s = true) :
    ((runRegistryCall c s).forwardTargets.map (fun t => t.name)).Nodup := by
  cases c with
  | add name type address port =>
    simp only [addsAreFresh, Bool.and_true, Option.isNone_iff_eq_none] at hfresh
    rw [findFirst_none_iff] at hfresh
    simp only [runRegistryCall, (addForwardTarget_appends name type address port s).2,
      List.map_append, List.map_cons, List.map_nil]
    rw [List.nodup_append]
    refine ⟨hnodup, List.nodup_singleton _, ?_⟩
    intro a ha hb
    simp only [List.mem_singleton] at hb
    subst hb
    obtain ⟨u, hu, hname⟩ := List.mem_map.mp ha
    exact hfresh u hu hname
  | remove name =>
    simp only [runRegistryCall, removeForwardTarget]
    rcases findFirst name s.forwardTargets with _ | found
    · exact hnodup
    · simp only [saveForwardTargets]
      exact List.Nodup.sublist ((eraseFirst_sublist name _).map _) hnodup
  | enable name enabled =>
    simp only [runRegistryCall, enableForwardTarget]
    rcases findFirst name s.forwardTargets with _ | found
    · exact hnodup
    · simp only [saveForwardTargets]
      rw [updateFirst_names name (fun target => { target with enabled := enabled })
        (fun _ => rfl)]
      exact hnodup

theorem runRegistryCalls_nodup (calls : List RegistryCall) (s : Relay)
    (hnodup : (s.forwardTargets.map (fun t => t.name)).Nodup)
    (hfresh : addsAreFresh calls s = true) :
    ((runRegistryCalls calls s).forwardTargets.map (fun t => t.name)).Nodup := by
  induction calls generalizing s with
  | nil => exact hnodup
  | cons c rest ih =>
    have hsplit : addsAreFresh [c] s = true ∧ addsAreFresh rest (runRegistryCall c s) = true := by
      cases c with
      | add name type address port =>
        simp only [addsAreFresh, Bool.and_eq_true, Bool.and_true] at hfresh ⊢
        exact hfresh
      | remove name => exact ⟨rfl, hfresh⟩
      | enable name enabled => exact ⟨rfl, hfresh⟩
    exact ih _ (runRegistryCall_nodup c s hnodup hsplit.1) hsplit.2

/-- C17 as stated fails: adding the name `A` twice to an empty registry
succeeds both times and leaves two targets called `A`. -/
theorem duplicate_name_is_added_twice :
    ¬ ∀ calls : List RegistryCall,
      ((runRegistryCalls calls resetState).forwardTargets.map (fun t => t.name)).Nodup := by
  intro h
  have h2 := h [.add "A" .FORWARD_HTTP "host" 80, .add "A" .FORWARD_TCP "host2" 9000]
  revert h2
  decide

/-- C17, amended. `addForwardTarget` never rejects a name: it returns true and
appends the new target (enabled, counters zero), also when the registry
already holds the name. Target names are unique in every state reached from an
empty registry by `removeForwardTarget`, `enableForwardTarget` and those
`addForwardTarget` calls whose name is not in the registry when the call is
made. -/
theorem names_unique_when_adds_are_fresh (calls : List RegistryCall) (s : Relay)
    (hempty : s.forwardTargets = []) (hfresh : addsAreFresh calls s = true) :
    ((runRegistryCalls calls s).forwardTargets.map (fun t => t.name)).Nodup ∧
    (∀ (name : String) (type : ForwardType) (address : String) (port : Int) (r : Relay),
      (addForwardTarget name type address port r).1 = true ∧
      (addForwardTarget name type address port r).2.forwardTargets =
        r.forwardTargets ++
          [{ name := name, type := typeString type, address := address,
             port := if type = .FORWARD_HTTP ∧ port = 0 then 80 else port,
             enabled := true, lastSuccess := 0, failureCount := 0 }]) := by
  refine ⟨runRegistryCalls_nodup calls s ?_ hfresh, ?_⟩
  · rw [hempty]
    exact List.nodup_nil
  · intro name type address port r
    exact addForwardTarget_appends name type address port r

/-- Witness for amended C17: add A, add B, disable A, remove B, add B again. -/
theorem names_unique_when_adds_are_fresh_witness :
    ((runRegistryCalls
      [.add "A" .FORWARD_HTTP "host" 80, .add "B" .FORWARD_TCP "host2" 9000,
        .enable "A" false, .remove "B", .add "B" .FORWARD_UDP "host3" 9001]
      resetState).forwardTargets.map (fun t => t.name)).Nodup :=
  (names_unique_when_adds_are_fresh
    [.add "A" .FORWARD_HTTP "host" 80, .add "B" .FORWARD_TCP "host2" 9000,
      .enable "A" false, .remove "B", .add "B" .FORWARD_UDP "host3" 9001]
    resetState rfl (by decide)).1

/-! ## Packets without an origin identifier -/

theorem extractNodeId_unknown (parse : String → JsonDocument) (packet : String)
    (h1 : jsonMember (parse packet) "node_id" = none)
    (h2 : jsonMember (parse packet) "nodeId" = none)
    (h3 : jsonMember (parse packet) "id" = none) :
    extractNodeId parse packet = (false, "UNKNOWN") := by
  simp [extractNodeId, h1, h2, h3]

/-- C20 as stated fails: with the serial target S enabled, a payload without
origin identifier handed to `forwardPacketToRelay` is dropped before the
duplicate check (no send, tracker untouched), and `processReceivedPacket`
records it but starts no send either. -/
theorem unknown_origin_is_not_forwarded :
    extractNodeId (fun _ => []) "ping" = (false, "UNKNOWN") ∧
    forwardPacketToRelay (fun _ => []) 1000 offline "ping"
        { resetState with forwardTargets := [targetS] } =
      { resetState with forwardTargets := [targetS] } ∧
    (processReceivedPacket (fun _ => []) 1000 "ping" (-70)
      { resetState with forwardTargets := [targetS] }).sendLog = [] ∧
    (processReceivedPacket (fun _ => []) 1000 "ping" (-70)
      { resetState with forwardTargets := [targetS] }).totalForwarded = 0 := by
  decide

/-- C20, amended. A packet in which none of the keys `node_id`, `nodeId`, `id`
is found gets the origin `UNKNOWN`. `processReceivedPacket` does not block it:
the packet is counted, checked for duplicates under the origin `UNKNOWN` and,
when it is not a duplicate, recorded in the ledger with that origin.
`forwardPacketToRelay` forwards only packets whose origin was extracted: on
such a packet it leaves the whole state unchanged. -/
theorem unknown_origin_is_recorded_under_sentinel (parse : String → JsonDocument) (now : Nat)
    (env : Nat → SendEnv) (packet : String) (rssi : Int) (s : Relay)
    (h1 : jsonMember (parse packet) "node_id" = none)
    (h2 : jsonMember (parse packet) "nodeId" = none)
    (h3 : jsonMember (parse packet) "id" = none) :
    extractNodeId parse packet = (false, "UNKNOWN") ∧
    (processReceivedPacket parse now packet rssi s).totalReceived = s.totalReceived + 1 ∧
    (processReceivedPacket parse now packet rssi s).lastReceivedFrom = "UNKNOWN" ∧
    ((isPacketDuplicate now packet "UNKNOWN" (noteReceived "UNKNOWN" s)).1 = false →
      (processReceivedPacket parse now packet rssi s).packetHistory =
        (addToPacketHistory now packet "UNKNOWN" rssi s).packetHistory ∧
      hashFind (generatePacketHash now packet "UNKNOWN")
        (processReceivedPacket parse now packet rssi s).packetHashes = some now) ∧
    ((isPacketDuplicate now packet "UNKNOWN" (noteReceived "UNKNOWN" s)).1 = true →
      (processReceivedPacket parse now packet rssi s).packetHistory = s.packetHistory ∧
      (processReceivedPacket parse now packet rssi s).totalDuplicates =
        s.totalDuplicates + 1) ∧
    forwardPacketToRelay parse now env packet s = s := by
  have hx := extractNodeId_unknown parse packet h1 h2 h3
  have hid : (extractNodeId parse packet).2 = "UNKNOWN" := by rw [hx]
  have hrelay : forwardPacketToRelay parse now env packet s = s := by
    simp [forwardPacketToRelay, hx]
  by_cases hd : (isPacketDuplicate now packet "UNKNOWN" (noteReceived "UNKNOWN" s)).1 = true
  · have hproc := processReceivedPacket_dup parse now packet rssi s (by rw [hid]; exact hd)
    rw [hid] at hproc
    refine ⟨hx, ?_, ?_, ?_, ?_, hrelay⟩
    · rw [hproc]
      rfl
    · rw [hproc]
      rfl
    · intro hcontra
      rw [hd] at hcontra
      exact Bool.noConfusion hcontra
    · intro _
      rw [hproc]
      exact ⟨rfl, rfl⟩
  · simp only [Bool.not_eq_true] at hd
    have hproc := processReceivedPacket_fresh parse now packet rssi s (by rw [hid]; exact hd)
    rw [hid] at hproc
    obtain ⟨f1, f2, -⟩ := addToPacketHistory_frame now packet "UNKNOWN" rssi
      { noteReceived "UNKNOWN" s with
        packetHashes := hashAssign (generatePacketHash now packet "UNKNOWN") now s.packetHashes }
    refine ⟨hx, ?_, ?_, ?_, ?_, hrelay⟩
    · rw [hproc, f2]
      rfl
    · rw [hproc]
      simp only [addToPacketHistory]
      split_ifs <;> rfl
    · intro _
      refine ⟨?_, ?_⟩
      · rw [hproc, addToPacketHistory_history, addToPacketHistory_history]
        rfl
      · rw [hproc, f1]
        exact hashFind_hashAssign_same _ _ _
    · intro hcontra
      rw [hd] at hcontra
      exact Bool.noConfusion hcontra

/-- Witness for amended C20: the payload `ping`, which the parser reads as a
document without members. -/
theorem unknown_origin_is_recorded_under_sentinel_witness :
    forwardPacketToRelay (fun _ => []) 1000 offline "ping"
        { resetState with forwardTargets := [targetS] } =
      { resetState with forwardTargets := [targetS] } :=
  (unknown_origin_is_recorded_under_sentinel (fun _ => []) 1000 offline "ping" (-70)
    { resetState with forwardTargets := [targetS] } rfl rfl rfl).2.2.2.2.2

/-! ## Lemmas on the keys of the persisted store -/

theorem digitChar_digit (d : Nat) (h : d < 10) :
    (Nat.digitChar d).toNat - 48 = d ∧ (Nat.digitChar d).isDigit = true := by
  interval_cases d <;> exact ⟨rfl, rfl⟩

theorem toDigitsCore_value (fuel n : Nat) (ds : List Char) (h : n < fuel) :
    (Nat.toDigitsCore 10 fuel n ds).foldl (fun acc c => 10 * acc + (c.toNat - 48)) 0 =
      ds.foldl (fun acc c => 10 * acc + (c.toNat - 48)) n := by
  induction fuel generalizing n ds with
  | zero => omega
  | succ fuel ih =>
    have hd := (digitChar_digit (n % 10) (Nat.mod_lt n (by omega))).1
    simp only [Nat.toDigitsCore]
    split_ifs with h0
    · have hn : n % 10 = n := by omega
      simp only [List.foldl_cons, Nat.mul_zero, Nat.zero_add, hd]
      rw [hn]
    · rw [ih (n / 10) _ (by omega)]
      simp only [List.foldl_cons, hd]
      rw [Nat.div_add_mod]

theorem toDigitsCore_isDigit (fuel n : Nat) (ds : List Char)
    (h : ∀ c ∈ ds, c.isDigit = true) :
    ∀ c ∈ Nat.toDigitsCore 10 fuel n ds, c.isDigit = true := by
  induction fuel generalizing n ds with
  | zero => simpa [Nat.toDigitsCore] using h
  | succ fuel ih =>
    have hd := (digitChar_digit (n % 10) (Nat.mod_lt n (by omega))).2
    have hcons : ∀ c ∈ Nat.digitChar (n % 10) :: ds, c.isDigit = true := by
      intro c hc
      rcases List.mem_cons.mp hc with rfl | hc
      · exact hd
      · exact h c hc
    simp only [Nat.toDigitsCore]
    split_ifs with h0
    · exact hcons
    · exact ih (n / 10) _ hcons

theorem digitsValue_toDigits (n : Nat) : digitsValue (Nat.toDigits 10 n) = n := by
  simp only [digitsValue, Nat.toDigits]
  rw [toDigitsCore_value (n + 1) n [] (by omega)]
  rfl

theorem toDigits_isDigit (n : Nat) : ∀ c ∈ Nat.toDigits 10 n, c.isDigit = true :=
  toDigitsCore_isDigit (n + 1) n [] (by simp)

theorem split_at_separator (a b x y : List Char) (ha : ∀ c ∈ a, c.isDigit = true)
    (hb : ∀ c ∈ b, c.isDigit = true) (h : a ++ '_' :: x = b ++ '_' :: y) : a = b ∧ x = y := by
  induction a generalizing b with
  | nil =>
    cases b with
    | nil => simpa using h
    | cons c b =>
      simp only [List.nil_append, List.cons_append, List.cons.injEq] at h
      have := hb c (by simp)
      rw [← h.1] at this
      exact absurd this (by decide)
  | cons c a ih =>
    cases b with
    | nil =>
      simp only [List.nil_append, List.cons_append, List.cons.injEq] at h
      have := ha c (by simp)
      rw [h.1] at this
      exact absurd this (by decide)
    | cons d b =>
      simp only [List.cons_append, List.cons.injEq] at h
      obtain ⟨hab, hxy⟩ := ih b (fun e he => ha e (List.mem_cons_of_mem _ he))
        (fun e he => hb e (List.mem_cons_of_mem _ he)) h.2
      exact ⟨by rw [h.1, hab], hxy⟩

theorem targetKey_data (i : Nat) (field : String) :
    (targetKey i field).data = 't' :: (Nat.toDigits 10 i ++ '_' :: field.data) := by
  simp [targetKey, String.data_append, toString, Nat.repr, List.asString]

theorem targetKey_inj (i j : Nat) (f g : String) (h : targetKey i f = targetKey j g) :
    i = j ∧ f = g := by
  have hdata := congrArg String.data h
  rw [targetKey_data, targetKey_data] at hdata
  simp only [List.cons.injEq, true_and] at hdata
  obtain ⟨hdigits, hfield⟩ :=
    split_at_separator _ _ _ _ (toDigits_isDigit i) (toDigits_isDigit j) hdata
  refine ⟨?_, String.ext hfield⟩
  rw [← digitsValue_toDigits i, ← digitsValue_toDigits j, hdigits]

theorem targetKey_ne_count (i : Nat) (f : String) : targetKey i f ≠ "target_count" := by
  intro h
  have hdata := congrArg String.data h
  rw [targetKey_data] at hdata
  have hcount : "target_count".data = 't' :: 'a' :: "rget_count".data := by decide
  rw [hcount] at hdata
  simp only [List.cons.injEq, true_and] at hdata
  rcases hdigits : Nat.toDigits 10 i with _ | ⟨c, cs⟩
  · rw [hdigits] at hdata
    simp only [List.nil_append, List.cons.injEq] at hdata
    exact absurd hdata.1 (by decide)
  · rw [hdigits] at hdata
    simp only [List.cons_append, List.cons.injEq] at hdata
    have := toDigits_isDigit i c (by rw [hdigits]; simp)
    rw [hdata.1] at this
    exact absurd this (by decide)

theorem prefsFind_prefsPut_same (key : String) (v : PrefValue) (p : Preferences) :
    prefsFind key (prefsPut key v p) = some v := by
  induction p with
  | nil => simp [prefsPut, prefsFind]
  | cons e rest ih =>
    obtain ⟨k, w⟩ := e
    by_cases hk : k = key
    · simp [prefsPut, prefsFind, hk]
    · simp [prefsPut, prefsFind, hk, ih]

theorem prefsFind_prefsPut_other (key other : String) (v : PrefValue) (p : Preferences)
    (hne : other ≠ key) : prefsFind other (prefsPut key v p) = prefsFind other p := by
  induction p with
  | nil => simp [prefsPut, prefsFind, Ne.symm hne]
  | cons e rest ih =>
    obtain ⟨k, w⟩ := e
    by_cases hk : k = key
    · subst hk
      simp [prefsPut, prefsFind, Ne.symm hne]
    · by_cases hk2 : k = other
      · subst hk2
        simp [prefsPut, prefsFind, hk]
      · simp [prefsPut, prefsFind, hk, hk2, ih]

theorem targetKey_ne_field (i : Nat) (f g : String) (h : f ≠ g) :
    targetKey i f ≠ targetKey i g :=
  fun heq => h (targetKey_inj i i f g heq).2

theorem targetKey_ne_index (i j : Nat) (f g : String) (h : i ≠ j) :
    targetKey i f ≠ targetKey j g :=
  fun heq => h (targetKey_inj i j f g heq).1

/-- Keys that `saveForwardTargets` does not write for the positions from `i`
on read as before. -/
theorem saveTargetsFrom_find_other (i : Nat) (ts : List ForwardTarget) (p : Preferences)
    (key : String)
    (h : ∀ j f, i ≤ j → j < i + ts.length → f ∈ targetFields → key ≠ targetKey j f) :
    prefsFind key (saveTargetsFrom i ts p) = prefsFind key p := by
  induction ts generalizing i p with
  | nil => rfl
  | cons t rest ih =>
    have hi : ∀ f, f ∈ targetFields → key ≠ targetKey i f := fun f hf =>
      h i f (le_refl i) (by simp) hf
    simp only [saveTargetsFrom]
    rw [ih (i + 1) _ (fun j f hj hlt hf => h j f (by omega)
      (by simp only [List.length_cons]; omega) hf)]
    rw [prefsFind_prefsPut_other _ _ _ _ (hi "enabled" (by decide)),
      prefsFind_prefsPut_other _ _ _ _ (hi "port" (by decide)),
      prefsFind_prefsPut_other _ _ _ _ (hi "addr" (by decide)),
      prefsFind_prefsPut_other _ _ _ _ (hi "type" (by decide)),
      prefsFind_prefsPut_other _ _ _ _ (hi "name" (by decide))]

/-- The five fields of the target at position `k` are found under its keys. -/
theorem saveTargetsFrom_find_field (i : Nat) (ts : List ForwardTarget) (p : Preferences)
    (k : Nat) (t : ForwardTarget) (hk : ts[k]? = some t) :
    prefsFind (targetKey (i + k) "name") (saveTargetsFrom i ts p) = some (.str t.name) ∧
    prefsFind (targetKey (i + k) "type") (saveTargetsFrom i ts p) = some (.str t.type) ∧
    prefsFind (targetKey (i + k) "addr") (saveTargetsFrom i ts p) = some (.str t.address) ∧
    prefsFind (targetKey (i + k) "port") (saveTargetsFrom i ts p) = some (.int t.port) ∧
    prefsFind (targetKey (i + k) "enabled") (saveTargetsFrom i ts p) =
      some (.bool t.enabled) := by
  induction ts generalizing i k p with
  | nil => simp at hk
  | cons u rest ih =>
    cases k with
    | zero =>
      simp only [List.getElem?_cons_zero, Option.some.injEq] at hk
      subst hk
      have hlater : ∀ g, ∀ j f, i + 1 ≤ j → j < i + 1 + rest.length → f ∈ targetFields →
          targetKey i g ≠ targetKey j f := fun g j f hj _ _ =>
        targetKey_ne_index i j g f (by omega)
      simp only [Nat.add_zero, saveTargetsFrom]
      rw [saveTargetsFrom_find_other (i + 1) rest _ _ (hlater "name"),
        saveTargetsFrom_find_other (i + 1) rest _ _ (hlater "type"),
        saveTargetsFrom_find_other (i + 1) rest _ _ (hlater "addr"),
        saveTargetsFrom_find_other (i + 1) rest _ _ (hlater "port"),
        saveTargetsFrom_find_other (i + 1) rest _ _ (hlater "enabled")]
      refine ⟨?_, ?_, ?_, ?_, ?_⟩
      · rw [prefsFind_prefsPut_other _ _ _ _ (targetKey_ne_field i _ _ (by decide)),
          prefsFind_prefsPut_other _ _ _ _ (targetKey_ne_field i _ _ (by decide)),
          prefsFind_prefsPut_other _ _ _ _ (targetKey_ne_field i _ _ (by decide)),
          prefsFind_prefsPut_other _ _ _ _ (targetKey_ne_field i _ _ (by decide)),
          prefsFind_prefsPut_same]
      · rw [prefsFind_prefsPut_other _ _ _ _ (targetKey_ne_field i _ _ (by decide)),
          prefsFind_prefsPut_other _ _ _ _ (targetKey_ne_field i _ _ (by decide)),
          prefsFind_prefsPut_other _ _ _ _ (targetKey_ne_field i _ _ (by decide)),
          prefsFind_prefsPut_same]
      · rw [prefsFind_prefsPut_other _ _ _ _ (targetKey_ne_field i _ _ (by decide)),
          prefsFind_prefsPut_other _ _ _ _ (targetKey_ne_field i _ _ (by decide)),
          prefsFind_prefsPut_same]
      · rw [prefsFind_prefsPut_other _ _ _ _ (targetKey_ne_field i _ _ (by decide)),
          prefsFind_prefsPut_same]
      · rw [prefsFind_prefsPut_same]
    | succ k =>
      simp only [List.getElem?_cons_succ] at hk
      have hidx : i + (k + 1) = i + 1 + k := by omega
      simp only [saveTargetsFrom, hidx]
      exact ih (i + 1) _ k hk

theorem saveForwardTargets_count (s : Relay) :
    prefsFind "target_count" (saveForwardTargets s).prefs =
      some (.uint s.forwardTargets.length) := by
  simp only [saveForwardTargets]
  rw [saveTargetsFrom_find_other 0 _ _ _
    (fun j f _ _ _ => (targetKey_ne_count j f).symm)]
  simp [prefsPut, prefsFind]

theorem saveForwardTargets_fields (s : Relay) (k : Nat) (t : ForwardTarget)
    (hk : s.forwardTargets[k]? = some t) :
    prefsFind (targetKey k "name") (saveForwardTargets s).prefs = some (.str t.name) ∧
    prefsFind (targetKey k "type") (saveForwardTargets s).prefs = some (.str t.type) ∧
    prefsFind (targetKey k "addr") (saveForwardTargets s).prefs = some (.str t.address) ∧
    prefsFind (targetKey k "port") (saveForwardTargets s).prefs = some (.int t.port) ∧
    prefsFind (targetKey k "enabled") (saveForwardTargets s).prefs =
      some (.bool t.enabled) := by
  have h := saveTargetsFrom_find_field 0 s.forwardTargets
    (prefsPut "target_count" (.uint s.forwardTargets.length) []) k t hk
  simp only [Nat.zero_add] at h
  exact h

theorem loadTarget_saved (s : Relay) (k : Nat) (t : ForwardTarget)
    (hk : s.forwardTargets[k]? = some t) :
    loadTarget (saveForwardTargets s).prefs k = reloaded t := by
  obtain ⟨h1, h2, h3, h4, h5⟩ := saveForwardTargets_fields s k t hk
  simp [loadTarget, getString, getInt, getBool, h1, h2, h3, h4, h5, reloaded]

/-- What the loop of `loadForwardTargets` rebuilds from a store written by
`saveForwardTargets`. -/
theorem restoredTargets_saved (s : Relay) (hlen : s.forwardTargets.length < 2147483648) :
    restoredTargets (saveForwardTargets s).prefs =
      (s.forwardTargets.map reloaded).filter (fun target => target.name.length > 0) := by
  have hmap : (List.range s.forwardTargets.length).map (loadTarget (saveForwardTargets s).prefs) =
      s.forwardTargets.map reloaded := by
    apply List.ext_getElem?
    intro k
    rw [List.getElem?_map, List.getElem?_map]
    rcases hk : s.forwardTargets[k]? with _ | t
    · have hge : s.forwardTargets.length ≤ k := List.getElem?_eq_none_iff.mp hk
      rw [List.getElem?_eq_none (by simpa using hge)]
      rfl
    · have hlt : k < s.forwardTargets.length := by
        by_contra hge
        rw [List.getElem?_eq_none (by omega)] at hk
        exact Option.noConfusion hk
      rw [List.getElem?_range hlt]
      simp only [Option.map_some']
      rw [loadTarget_saved s k t hk]
  simp only [restoredTargets, getUInt, saveForwardTargets_count, hlen, if_true, hmap]

theorem loadForwardTargets_eq (s : Relay) :
    loadForwardTargets s =
      if (restoredTargets s.prefs).isEmpty then
        (addForwardTarget "default-http" .FORWARD_HTTP "httpbin.org" 80
          { s with forwardTargets := restoredTargets s.prefs }).2
      else { s with forwardTargets := restoredTargets s.prefs } := rfl

/-! ## Persistence of the registry -/

/-- C14 as stated fails: an empty registry comes back as the default target,
and a target with an empty name is not restored at all. -/
theorem save_load_not_identity_on_every_list :
    ¬ ∀ s : Relay,
      (loadForwardTargets (saveForwardTargets s)).forwardTargets =
        s.forwardTargets.map reloaded := by
  intro h
  have h1 := h resetState
  revert h1
  decide

/-- A second failing input for C14: the registry `[B', A]` where `B'` is B with
an empty name comes back as `[A]` only. -/
theorem save_load_drops_unnamed_target :
    (loadForwardTargets (saveForwardTargets
      { resetState with
        forwardTargets := [{ targetB with name := "" }, targetA] })).forwardTargets =
      [targetA] := by
  decide

/-- C14, amended. For every non-empty registry (of fewer than `2 ^ 31` targets)
in which every target has a non-empty name, `saveForwardTargets` followed by
`loadForwardTargets` yields the same targets in the same order, each with the
same name, type, address, port and `enabled` flag and with `failureCount` and
`lastSuccess` reset to 0, whatever they were before the save. -/
theorem save_load_round_trip (s : Relay) (hne : s.forwardTargets ≠ [])
    (hnames : ∀ t ∈ s.forwardTargets, t.name.length > 0)
    (hlen : s.forwardTargets.length < 2147483648) :
    (loadForwardTargets (saveForwardTargets s)).forwardTargets =
      s.forwardTargets.map reloaded ∧
    (loadForwardTargets (saveForwardTargets s)).forwardTargets.length =
      s.forwardTargets.length ∧
    (∀ (k : Nat) (t : ForwardTarget), s.forwardTargets[k]? = some t →
      (loadForwardTargets (saveForwardTargets s)).forwardTargets[k]? =
        some ({ name := t.name, type := t.type, address := t.address, port := t.port,
                enabled := t.enabled, lastSuccess := 0, failureCount := 0 } :
              ForwardTarget)) := by
  have hrestored : restoredTargets (saveForwardTargets s).prefs =
      s.forwardTargets.map reloaded := by
    rw [restoredTargets_saved s hlen, List.filter_eq_self]
    intro u hu
    obtain ⟨t, ht, rfl⟩ := List.mem_map.mp hu
    simpa [reloaded] using hnames t ht
  have hload : (loadForwardTargets (saveForwardTargets s)).forwardTargets =
      s.forwardTargets.map reloaded := by
    rw [loadForwardTargets_eq, hrestored]
    cases hts : s.forwardTargets with
    | nil => exact absurd hts hne
    | cons t rest => simp
  refine ⟨hload, by rw [hload, List.length_map], ?_⟩
  intro k t hk
  rw [hload, List.getElem?_map, hk]
  rfl

/-- Witness for amended C14: the registry `[A, B]` after three failures of B
and a success of A at 7000 ms. -/
theorem save_load_round_trip_witness :
    (loadForwardTargets (saveForwardTargets
      { resetState with
        forwardTargets :=
          [{ targetA with lastSuccess := 7000 }, { targetB with failureCount := 3 }] })).forwardTargets =
      [{ targetA with lastSuccess := 7000 }, { targetB with failureCount := 3 }].map reloaded :=
  (save_load_round_trip
    { resetState with
      forwardTargets :=
        [{ targetA with lastSuccess := 7000 }, { targetB with failureCount := 3 }] }
    (by decide) (by decide) (by decide)).1

/-- C15. After `loadForwardTargets` the registry is never empty. When the
store restores no target, the registry is exactly the one default target
(`default-http`, type `http`, address `httpbin.org`, port 80, enabled, counters
zero), and the store has been rewritten to the count 1 and that target's five
fields, from which the loop of `loadForwardTargets` restores that single
target. When the store restores targets, they are the registry and the store
is left as it is. -/
theorem loadForwardTargets_never_empty (s : Relay) :
    (loadForwardTargets s).forwardTargets ≠ [] ∧
    (restoredTargets s.prefs = [] →
      (loadForwardTargets s).forwardTargets = [defaultTarget] ∧
      (loadForwardTargets s).prefs =
        [("target_count", .uint 1), ("t0_name", .str "default-http"), ("t0_type", .str "http"),
          ("t0_addr", .str "httpbin.org"), ("t0_port", .int 80), ("t0_enabled", .bool true)] ∧
      restoredTargets (loadForwardTargets s).prefs = [defaultTarget]) ∧
    (restoredTargets s.prefs ≠ [] →
      (loadForwardTargets s).forwardTargets = restoredTargets s.prefs ∧
      (loadForwardTargets s).prefs = s.prefs) := by
  have hempty : restoredTargets s.prefs = [] →
      (loadForwardTargets s).forwardTargets = [defaultTarget] ∧
      (loadForwardTargets s).prefs =
        [("target_count", .uint 1), ("t0_name", .str "default-http"), ("t0_type", .str "http"),
          ("t0_addr", .str "httpbin.org"), ("t0_port", .int 80), ("t0_enabled", .bool true)] := by
    intro h
    rw [loadForwardTargets_eq, h]
    simp only [List.isEmpty_nil, if_true, addForwardTarget, saveForwardTargets, List.nil_append]
    exact ⟨by decide, by decide⟩
  refine ⟨?_, ?_, ?_⟩
  · rcases hr : restoredTargets s.prefs with _ | ⟨t, rest⟩
    · rw [(hempty hr).1]
      exact List.cons_ne_nil _ _
    · rw [loadForwardTargets_eq, hr]
      simp
  · intro h
    obtain ⟨h1, h2⟩ := hempty h
    refine ⟨h1, h2, ?_⟩
    rw [h2]
    decide
  · intro h
    rw [loadForwardTargets_eq]
    rcases hr : restoredTargets s.prefs with _ | ⟨t, rest⟩
    · exact absurd hr h
    · simp

/-- C16. `saveForwardTargets` fully replaces the persisted state. The store it
leaves does not depend on the prior store. It holds `target_count = n`, the
five fields of every target under the keys of its position, and no other key:
a key is present exactly when it is `target_count` or the name, type, addr,
port or enabled key of a position below `n`. A load from it restores only
targets of the current list (those with a non-empty name, counters zero),
whatever an earlier, longer list had written. -/
theorem saveForwardTargets_replaces_store (s : Relay) (prior : Preferences) :
    (saveForwardTargets { s with prefs := prior }).prefs = (saveForwardTargets s).prefs ∧
    prefsFind "target_count" (saveForwardTargets s).prefs =
      some (.uint s.forwardTargets.length) ∧
    (∀ k t, s.forwardTargets[k]? = some t →
      prefsFind (targetKey k "name") (saveForwardTargets s).prefs = some (.str t.name) ∧
      prefsFind (targetKey k "type") (saveForwardTargets s).prefs = some (.str t.type) ∧
      prefsFind (targetKey k "addr") (saveForwardTargets s).prefs = some (.str t.address) ∧
      prefsFind (targetKey k "port") (saveForwardTargets s).prefs = some (.int t.port) ∧
      prefsFind (targetKey k "enabled") (saveForwardTargets s).prefs =
        some (.bool t.enabled)) ∧
    (∀ key, (prefsFind key (saveForwardTargets s).prefs).isSome = true ↔
      key = "target_count" ∨
        ∃ j f, j < s.forwardTargets.length ∧ f ∈ targetFields ∧ key = targetKey j f) ∧
    (s.forwardTargets.length < 2147483648 →
      restoredTargets (saveForwardTargets { s with prefs := prior }).prefs =
        (s.forwardTargets.map reloaded).filter (fun target => target.name.length > 0)) := by
  refine ⟨rfl, saveForwardTargets_count s, saveForwardTargets_fields s, ?_, ?_⟩
  · intro key
    constructor
    · intro hsome
      by_contra hnot
      simp only [not_or, not_exists, not_and] at hnot
      obtain ⟨hcount, hkeys⟩ := hnot
      have hfind : prefsFind key (saveForwardTargets s).prefs = none := by
        simp only [saveForwardTargets]
        rw [saveTargetsFrom_find_other 0 _ _ key
          (fun j f _ hj hf => hkeys j f (by omega) hf)]
        simp [prefsPut, prefsFind, Ne.symm hcount]
      rw [hfind] at hsome
      exact Bool.noConfusion hsome
    · rintro (rfl | ⟨j, f, hj, hf, rfl⟩)
      · rw [saveForwardTargets_count]
        rfl
      · obtain ⟨t, ht⟩ : ∃ t, s.forwardTargets[j]? = some t :=
          ⟨s.forwardTargets[j], List.getElem?_eq_getElem hj⟩
        obtain ⟨h1, h2, h3, h4, h5⟩ := saveForwardTargets_fields s j t ht
        simp only [targetFields, List.mem_cons, List.mem_singleton, List.not_mem_nil,
          or_false] at hf
        rcases hf with rfl | rfl | rfl | rfl | rfl
        · rw [h1]; rfl
        · rw [h2]; rfl
        · rw [h3]; rfl
        · rw [h4]; rfl
        · rw [h5]; rfl
  · intro hlen
    exact restoredTargets_saved { s with prefs := prior } hlen

/-! ## The receive path and dispatch -/

theorem isPacketDuplicate_frame (now : Nat) (packet nodeId : String) (s : Relay) :
    (isPacketDuplicate now packet nodeId s).2.forwardTargets = s.forwardTargets ∧
    (isPacketDuplicate now packet nodeId s).2.prefs = s.prefs ∧
    (isPacketDuplicate now packet nodeId s).2.sendLog = s.sendLog ∧
    (isPacketDuplicate now packet nodeId s).2.totalReceived = s.totalReceived ∧
    (isPacketDuplicate now packet nodeId s).2.totalForwarded = s.totalForwarded ∧
    (isPacketDuplicate now packet nodeId s).2.packetHistory = s.packetHistory ∧
    (isPacketDuplicate now packet nodeId s).2.totalDuplicates =
      s.totalDuplicates + (if (isPacketDuplicate now packet nodeId s).1 then 1 else 0) := by
  by_cases hd : (isPacketDuplicate now packet nodeId s).1 = true
  · rw [isPacketDuplicate_true_state now packet nodeId s hd, hd]
    exact ⟨rfl, rfl, rfl, rfl, rfl, rfl, rfl⟩
  · simp only [Bool.not_eq_true] at hd
    rw [isPacketDuplicate_false_state now packet nodeId s hd, hd]
    refine ⟨rfl, rfl, rfl, rfl, rfl, rfl, ?_⟩
    simp

/-- The globals `processReceivedPacket` writes and those it leaves alone. -/
theorem processReceivedPacket_frame (parse : String → JsonDocument) (now : Nat)
    (packet : String) (rssi : Int) (s : Relay) :
    (processReceivedPacket parse now packet rssi s).forwardTargets = s.forwardTargets ∧
    (processReceivedPacket parse now packet rssi s).prefs = s.prefs ∧
    (processReceivedPacket parse now packet rssi s).sendLog = s.sendLog ∧
    (processReceivedPacket parse now packet rssi s).totalForwarded = s.totalForwarded ∧
    (processReceivedPacket parse now packet rssi s).totalReceived = s.totalReceived + 1 ∧
    (processReceivedPacket parse now packet rssi s).totalDuplicates =
      s.totalDuplicates +
        (if (isPacketDuplicate now packet (extractNodeId parse packet).2
          (noteReceived (extractNodeId parse packet).2 s)).1 then 1 else 0) := by
  by_cases hd : (isPacketDuplicate now packet (extractNodeId parse packet).2
      (noteReceived (extractNodeId parse packet).2 s)).1 = true
  · rw [processReceivedPacket_dup parse now packet rssi s hd, hd]
    exact ⟨rfl, rfl, rfl, rfl, rfl, rfl⟩
  · simp only [Bool.not_eq_true] at hd
    rw [processReceivedPacket_fresh parse now packet rssi s hd, hd]
    obtain ⟨-, f2, f3, f4, f5, f6, f7⟩ :=
      addToPacketHistory_frame now packet (extractNodeId parse packet).2 rssi
        { noteReceived (extractNodeId parse packet).2 s with
          packetHashes :=
            hashAssign (generatePacketHash now packet (extractNodeId parse packet).2) now
              s.packetHashes }
    rw [f2, f3, f4, f5, f6, f7]
    refine ⟨rfl, rfl, rfl, rfl, rfl, ?_⟩
    simp [noteReceived]

/-- C21 fails on the code: with the serial target S enabled (a send to it
always succeeds), the payload `ping` received at 1000 ms is not a duplicate
and is recorded in the ledger, but neither `processReceivedPacket` nor
`handleIncomingLoRaPackets` starts a send: the send log stays empty, the
target is untouched and `totalForwarded` stays 0, whereas `forwardPacket` on
the same packet would return true and count it. -/
theorem processReceivedPacket_starts_no_send :
    (isPacketDuplicate 1000 "ping" "UNKNOWN"
      (noteReceived "UNKNOWN" { resetState with forwardTargets := [targetS] })).1 = false ∧
    (processReceivedPacket (fun _ => []) 1000 "ping" (-70)
      { resetState with forwardTargets := [targetS] }).packetHistory =
        [packetRecord 1000 "ping" "UNKNOWN" (-70)] ∧
    (processReceivedPacket (fun _ => []) 1000 "ping" (-70)
      { resetState with forwardTargets := [targetS] }).sendLog = [] ∧
    (processReceivedPacket (fun _ => []) 1000 "ping" (-70)
      { resetState with forwardTargets := [targetS] }).totalForwarded = 0 ∧
    (processReceivedPacket (fun _ => []) 1000 "ping" (-70)
      { resetState with forwardTargets := [targetS] }).forwardTargets = [targetS] ∧
    handleIncomingLoRaPackets (fun _ => []) 1000 true (some ("ping", -70))
        { resetState with forwardTargets := [targetS] } =
      processReceivedPacket (fun _ => []) 1000 "ping" (-70)
        { resetState with forwardTargets := [targetS] } ∧
    (forwardPacket offline "ping" "UNKNOWN"
      { resetState with forwardTargets := [targetS] }).1 = true ∧
    (forwardPacket offline "ping" "UNKNOWN"
      { resetState with forwardTargets := [targetS] }).2.totalForwarded = 1 := by
  decide

/-! ## The HTTP body -/

/-- C24 as stated fails: the body has no member `signal_strength`; its fourth
member is called `rssi`. -/
theorem httpBody_has_no_signal_strength :
    ¬ ∀ (relayId : String) (now : Nat) (packet : String) (target : ForwardTarget),
      (httpBody relayId now packet target).map Prod.fst =
        ["relay_id", "timestamp", "original_packet", "signal_strength"] := by
  intro h
  have h1 := h "RELAY_01" 1000 "ping" targetA
  revert h1
  decide

/-- C24, amended. For every packet and target the document `forwardToHTTP`
serialises has exactly the four members `relay_id` (the relay's id string),
`timestamp` (the clock reading, an integer), `original_packet` (the packet
string) and `rssi` (an integer), in this order. -/
theorem httpBody_members (relayId : String) (now : Nat) (packet : String)
    (target : ForwardTarget) :
    (httpBody relayId now packet target).map Prod.fst =
      ["relay_id", "timestamp", "original_packet", "rssi"] ∧
    ∃ rssi : Int,
      httpBody relayId now packet target =
        [("relay_id", .str relayId), ("timestamp", .int now), ("original_packet", .str packet),
          ("rssi", .int rssi)] := by
  refine ⟨?_, -80, ?_⟩ <;> simp [httpBody, jsonAssign]

/-! ## The rendering of the hash -/

theorem digitChar_hex (d : Nat) (h : d < 16) :
    hexDigitValue (Nat.digitChar d) = d ∧
    ((Nat.digitChar d).isDigit = true ∨
      (97 ≤ (Nat.digitChar d).toNat ∧ (Nat.digitChar d).toNat ≤ 102)) := by
  interval_cases d <;> exact ⟨rfl, by decide⟩

theorem toDigitsCore_hexValue (fuel n : Nat) (ds : List Char) (h : n < fuel) :
    (Nat.toDigitsCore 16 fuel n ds).foldl (fun acc c => 16 * acc + hexDigitValue c) 0 =
      ds.foldl (fun acc c => 16 * acc + hexDigitValue c) n := by
  induction fuel generalizing n ds with
  | zero => omega
  | succ fuel ih =>
    have hd := (digitChar_hex (n % 16) (Nat.mod_lt n (by omega))).1
    simp only [Nat.toDigitsCore]
    split_ifs with h0
    · have hn : n % 16 = n := by omega
      simp only [List.foldl_cons, Nat.mul_zero, Nat.zero_add, hd]
      rw [hn]
    · rw [ih (n / 16) _ (by omega)]
      simp only [List.foldl_cons, hd]
      rw [Nat.div_add_mod]

theorem hexValue_toHex (n : Nat) : hexValue (toHex n).data = n := by
  simp only [hexValue, toHex, Nat.toDigits]
  rw [toDigitsCore_hexValue (n + 1) n [] (by omega)]
  rfl

theorem toHex_injective (a b : Nat) (h : toHex a = toHex b) : a = b := by
  rw [← hexValue_toHex a, ← hexValue_toHex b, h]

theorem toDigitsCore_isHex (fuel n : Nat) (ds : List Char)
    (h : ∀ c ∈ ds, c.isDigit = true ∨ (97 ≤ c.toNat ∧ c.toNat ≤ 102)) :
    ∀ c ∈ Nat.toDigitsCore 16 fuel n ds,
      c.isDigit = true ∨ (97 ≤ c.toNat ∧ c.toNat ≤ 102) := by
  induction fuel generalizing n ds with
  | zero => simpa [Nat.toDigitsCore] using h
  | succ fuel ih =>
    have hd := (digitChar_hex (n % 16) (Nat.mod_lt n (by omega))).2
    have hcons : ∀ c ∈ Nat.digitChar (n % 16) :: ds,
        c.isDigit = true ∨ (97 ≤ c.toNat ∧ c.toNat ≤ 102) := by
      intro c hc
      rcases List.mem_cons.mp hc with rfl | hc
      · exact hd
      · exact h c hc
    simp only [Nat.toDigitsCore]
    split_ifs with h0
    · exact hcons
    · exact ih (n / 16) _ hcons

theorem toDigitsCore_length_ge (b fuel n : Nat) (ds : List Char) :
    ds.length ≤ (Nat.toDigitsCore b fuel n ds).length := by
  induction fuel generalizing n ds with
  | zero => simp [Nat.toDigitsCore]
  | succ fuel ih =>
    simp only [Nat.toDigitsCore]
    split_ifs with h0
    · simp
    · exact le_trans (by simp) (ih (n / b) (Nat.digitChar (n % b) :: ds))

theorem toHex_length (n : Nat) (h : n < ULONG_RANGE) :
    1 ≤ (toHex n).length ∧ (toHex n).length ≤ 8 := by
  simp only [toHex, String.length, Nat.toDigits]
  constructor
  · simp only [Nat.toDigitsCore]
    split_ifs with h0
    · simp
    · exact le_trans (by simp) (toDigitsCore_length_ge 16 n (n / 16) [Nat.digitChar (n % 16)])
  · exact Nat.toDigitsCore_length 16 (by omega) (n + 1) n 8
      (by simp only [ULONG_RANGE] at h; omega) (by omega)

theorem rollingHash_lt (hashInput : String) : rollingHash hashInput < ULONG_RANGE := by
  have hgen : ∀ (l : List Char) (init : Nat), init < ULONG_RANGE →
      l.foldl (fun hash c => (hash * 31 + charAt c) % ULONG_RANGE) init < ULONG_RANGE := by
    intro l
    induction l with
    | nil => intro init hinit; simpa using hinit
    | cons c rest ih =>
      intro init _
      simp only [List.foldl_cons]
      exact ih _ (Nat.mod_lt _ (by simp [ULONG_RANGE]))
  exact hgen _ 0 (by simp [ULONG_RANGE])

/-- C25 as stated fails: the payload `ok` with origin `UNKNOWN` at 1000 ms
hashes to the seven digits `4c83f22`, while `ping` at 59999 ms hashes to the
eight digits `2ef2bcb8`. -/
theorem generatePacketHash_not_fixed_width :
    ¬ ∀ (packet nodeId : String) (now : Nat),
      (generatePacketHash now packet nodeId).length = 8 := by
  intro h
  have h1 := h "ok" "UNKNOWN" 1000
  revert h1
  decide

/-- C25, amended. `generatePacketHash` folds payload, then origin, then the
decimal bucket number through `h = h * 31 + byte` modulo `2 ^ 32` and renders
the result in lower-case hexadecimal without leading zeros: the hash value is
below `2 ^ 32`, the returned string has between 1 and 8 characters, each a
hexadecimal digit, and it denotes the hash value. -/
theorem generatePacketHash_bounded_hex (packet nodeId : String) (now : Nat) :
    generatePacketHash now packet nodeId =
      toHex (rollingHash (packet ++ nodeId ++ toString (now / 60000))) ∧
    rollingHash (packet ++ nodeId ++ toString (now / 60000)) < 4294967296 ∧
    1 ≤ (generatePacketHash now packet nodeId).length ∧
    (generatePacketHash now packet nodeId).length ≤ 8 ∧
    (∀ c ∈ (generatePacketHash now packet nodeId).data,
      c.isDigit = true ∨ (97 ≤ c.toNat ∧ c.toNat ≤ 102)) ∧
    hexValue (generatePacketHash now packet nodeId).data =
      rollingHash (packet ++ nodeId ++ toString (now / 60000)) := by
  have hlt := rollingHash_lt (packet ++ nodeId ++ toString (now / 60000))
  have hlen := toHex_length _ hlt
  refine ⟨rfl, hlt, hlen.1, hlen.2, ?_, hexValue_toHex _⟩
  intro c hc
  exact toDigitsCore_isHex _ _ [] (by simp) c hc

/-! ## Hashes across a bucket boundary -/

theorem toDigitsCore_append (b fuel n : Nat) (ds : List Char) :
    Nat.toDigitsCore b fuel n ds = Nat.toDigitsCore b fuel n [] ++ ds := by
  induction fuel generalizing n ds with
  | zero => simp [Nat.toDigitsCore]
  | succ fuel ih =>
    simp only [Nat.toDigitsCore]
    split_ifs with h0
    · simp
    · rw [ih (n / b) (Nat.digitChar (n % b) :: ds), ih (n / b) [Nat.digitChar (n % b)]]
      simp

theorem toDigitsCore_enough_fuel (n : Nat) :
    ∀ fuel, n < fuel → Nat.toDigitsCore 10 fuel n [] = Nat.toDigits 10 n := by
  induction n using Nat.strong_induction_on with
  | _ n ih =>
    intro fuel hfuel
    cases fuel with
    | zero => omega
    | succ fuel =>
      simp only [Nat.toDigits, Nat.toDigitsCore]
      split_ifs with h0
      · rfl
      · have hdiv : n / 10 < n := by omega
        rw [toDigitsCore_append 10 fuel (n / 10), toDigitsCore_append 10 n (n / 10),
          ih (n / 10) hdiv fuel (by omega), ih (n / 10) hdiv n hdiv]

theorem toDigits_split (n : Nat) :
    Nat.toDigits 10 n = leadingDigits n ++ [Nat.digitChar (n % 10)] := by
  simp only [leadingDigits]
  split_ifs with h0
  · simp [Nat.toDigits, Nat.toDigitsCore, h0]
  · have hdiv : n / 10 < n := by omega
    simp only [Nat.toDigits, Nat.toDigitsCore, h0, if_false]
    rw [toDigitsCore_append 10 n (n / 10), toDigitsCore_enough_fuel (n / 10) n hdiv]
    rfl

theorem charAt_digitChar (d : Nat) (h : d < 10) : charAt (Nat.digitChar d) = 48 + d := by
  interval_cases d <;> rfl

theorem rollingHash_decimal (body : String) (n : Nat) :
    rollingHash (body ++ toString n) =
      ((leadingDigits n).foldl (fun hash c => (hash * 31 + charAt c) % ULONG_RANGE)
        (rollingHash body) * 31 + (48 + n % 10)) % ULONG_RANGE := by
  have hdata : (body ++ toString n).data = body.data ++ Nat.toDigits 10 n := by
    simp [String.data_append, toString, Nat.repr, List.asString]
  simp only [rollingHash, hdata, toDigits_split, List.foldl_append, List.foldl_cons,
    List.foldl_nil, charAt_digitChar (n % 10) (Nat.mod_lt n (by omega))]

/-- Across a boundary after a bucket whose number does not end in 9, the last
decimal digit is the only character of the hash input that changes. -/
theorem rollingHash_next_bucket (body : String) (n : Nat) (h9 : n % 10 ≠ 9) :
    rollingHash (body ++ toString n) ≠ rollingHash (body ++ toString (n + 1)) := by
  have hlead : leadingDigits (n + 1) = leadingDigits n := by
    have : (n + 1) / 10 = n / 10 := by omega
    simp only [leadingDigits, this]
  have hlast : (n + 1) % 10 = n % 10 + 1 := by omega
  rw [rollingHash_decimal, rollingHash_decimal, hlead, hlast]
  simp only [ULONG_RANGE]
  omega

/-- C26 as stated fails: for the payload `09C:E19` with origin `UNKNOWN` the
readings 599999 ms and 600000 ms lie in the buckets 9 and 10, the two hashes
are both `5555555c`, and the second receipt is classified duplicate by a
tracker that holds only the entry of the first. -/
theorem boundary_hashes_can_collide :
    ¬ ∀ (packet nodeId : String) (t1 t2 : Nat) (s : Relay), t1 < t2 →
        t2 / PACKET_DUPLICATE_WINDOW = t1 / PACKET_DUPLICATE_WINDOW + 1 →
        s.packetHashes = [(generatePacketHash t1 packet nodeId, t1)] →
      generatePacketHash t1 packet nodeId ≠ generatePacketHash t2 packet nodeId ∧
      (isPacketDuplicate t2 packet nodeId s).1 = false := by
  intro h
  have h1 := (h "09C:E19" "UNKNOWN" 599999 600000
    { resetState with packetHashes := [("5555555c", 599999)] } (by decide) (by decide)
    (by decide)).1
  revert h1
  decide

/-- C26, amended. For every payload and origin and all readings `t1 < t2` that
straddle a bucket boundary, the two hashes differ exactly when the 32-bit
rolling hashes of the two hash inputs differ; they always differ when the
bucket number of `t1` does not end in the decimal digit 9. Whenever the two
hashes differ, a tracker that holds only the entry of the first receipt
classifies the second receipt as non-duplicate, however close `t2` is to
`t1`. -/
theorem boundary_receipt_not_deduplicated (packet nodeId : String) (t1 t2 : Nat) (s : Relay)
    (_hlt : t1 < t2)
    (hb : t2 / PACKET_DUPLICATE_WINDOW = t1 / PACKET_DUPLICATE_WINDOW + 1)
    (htracker : s.packetHashes = [(generatePacketHash t1 packet nodeId, t1)]) :
    (generatePacketHash t1 packet nodeId ≠ generatePacketHash t2 packet nodeId ↔
      rollingHash (packet ++ nodeId ++ toString (t1 / PACKET_DUPLICATE_WINDOW)) ≠
        rollingHash (packet ++ nodeId ++ toString (t2 / PACKET_DUPLICATE_WINDOW))) ∧
    ((t1 / PACKET_DUPLICATE_WINDOW) % 10 ≠ 9 →
      generatePacketHash t1 packet nodeId ≠ generatePacketHash t2 packet nodeId) ∧
    (generatePacketHash t1 packet nodeId ≠ generatePacketHash t2 packet nodeId →
      (isPacketDuplicate t2 packet nodeId s).1 = false) := by
  have hiff : generatePacketHash t1 packet nodeId ≠ generatePacketHash t2 packet nodeId ↔
      rollingHash (packet ++ nodeId ++ toString (t1 / PACKET_DUPLICATE_WINDOW)) ≠
        rollingHash (packet ++ nodeId ++ toString (t2 / PACKET_DUPLICATE_WINDOW)) := by
    simp only [generatePacketHash]
    constructor
    · intro hne heq
      exact hne (by rw [heq])
    · intro hne heq
      exact hne (toHex_injective _ _ heq)
  refine ⟨hiff, ?_, ?_⟩
  · intro h9
    rw [hiff, hb]
    exact rollingHash_next_bucket (packet ++ nodeId) _ h9
  · intro hne
    have hfind : hashFind (generatePacketHash t2 packet nodeId) s.packetHashes = none := by
      rw [htracker]
      simp [hashFind, hne]
    simp [isPacketDuplicate, hfind]

/-- Witness for amended C26: the payload `ping` with origin `UNKNOWN` at
59999 ms and 60000 ms. -/
theorem boundary_receipt_not_deduplicated_witness :
    (isPacketDuplicate 60000 "ping" "UNKNOWN"
      { resetState with packetHashes := [("2ef2bcb8", 59999)] }).1 = false :=
  (boundary_receipt_not_deduplicated "ping" "UNKNOWN" 59999 60000
    { resetState with packetHashes := [("2ef2bcb8", 59999)] } (by decide) (by decide)
    (by decide)).2.2
    ((boundary_receipt_not_deduplicated "ping" "UNKNOWN" 59999 60000
      { resetState with packetHashes := [("2ef2bcb8", 59999)] } (by decide) (by decide)
      (by decide)).2.1 (by decide))

/-! ## The health review and the counters -/

theorem healthReview_disabled (now : Nat) (t : ForwardTarget) (h : t.enabled = false) :
    healthReview now t = t := by
  simp [healthReview, h]

/-- The loop of `checkTargetHealth` maps `healthReview` over the targets still
to visit and writes no counter. -/
theorem checkTargetHealthLoop_result (now : Nat) (done todo : List ForwardTarget) (s : Relay) :
    (checkTargetHealthLoop now done todo s).forwardTargets =
      done ++ todo.map (healthReview now) ∧
    (checkTargetHealthLoop now done todo s).sendLog = s.sendLog ∧
    (checkTargetHealthLoop now done todo s).totalForwarded = s.totalForwarded ∧
    SameReceiveSide (checkTargetHealthLoop now done todo s) s := by
  induction todo generalizing done s with
  | nil => simp [checkTargetHealthLoop, SameReceiveSide]
  | cons t rest ih =>
    by_cases he : t.enabled = true
    · by_cases hr : t.failureCount ≥ 5 ∧ millisDiff now t.lastSuccess > 600000
      · obtain ⟨h1, h2, h3, h4⟩ := ih (done ++ [{ t with enabled := true, failureCount := 0 }])
          (saveForwardTargets
            { s with forwardTargets :=
                done ++ { t with enabled := true, failureCount := 0 } :: rest })
        have hrev : healthReview now t = { t with enabled := true, failureCount := 0 } := by
          simp [healthReview, he, hr]
        simp only [checkTargetHealthLoop, he, hr, Bool.not_true, Bool.false_eq_true, if_false,
          and_self, if_true, List.map_cons, hrev]
        refine ⟨by rw [h1]; simp, h2, h3, h4⟩
      · obtain ⟨h1, h2, h3, h4⟩ := ih (done ++ [t]) s
        have hrev : healthReview now t = t := by
          simp only [healthReview, he, true_and, hr, if_false]
        simp only [checkTargetHealthLoop, he, hr, Bool.not_true, Bool.false_eq_true, if_false,
          List.map_cons, hrev]
        exact ⟨by rw [h1]; simp, h2, h3, h4⟩
    · simp only [Bool.not_eq_true] at he
      obtain ⟨h1, h2, h3, h4⟩ := ih (done ++ [t]) s
      simp only [checkTargetHealthLoop, he, Bool.not_false, if_true, List.map_cons,
        healthReview_disabled now t he]
      exact ⟨by rw [h1]; simp, h2, h3, h4⟩

theorem checkTargetHealth_result (now : Nat) (s : Relay) :
    (checkTargetHealth now s).forwardTargets = s.forwardTargets.map (healthReview now) ∧
    (checkTargetHealth now s).sendLog = s.sendLog ∧
    (checkTargetHealth now s).totalForwarded = s.totalForwarded ∧
    SameReceiveSide (checkTargetHealth now s) s := by
  have h := checkTargetHealthLoop_result now [] s.forwardTargets s
  simpa [checkTargetHealth] using h

/-- The three counters after one core call. -/
theorem runCore_counters (c : CoreCall) (s : Relay) :
    s.totalReceived ≤ (runCore c s).totalReceived ∧
    s.totalForwarded ≤ (runCore c s).totalForwarded ∧
    s.totalDuplicates ≤ (runCore c s).totalDuplicates := by
  cases c with
  | received parse now packet rssi =>
    obtain ⟨-, -, -, h4, h5, h6⟩ := processReceivedPacket_frame parse now packet rssi s
    simp only [runCore]
    rw [h4, h5, h6]
    refine ⟨by omega, le_refl _, ?_⟩
    split_ifs <;> omega
  | duplicateCheck now packet nodeId =>
    obtain ⟨-, -, -, h4, h5, -, h7⟩ := isPacketDuplicate_frame now packet nodeId s
    simp only [runCore]
    rw [h4, h5, h7]
    refine ⟨le_refl _, le_refl _, ?_⟩
    split_ifs <;> omega
  | addHistory now packet nodeId rssi =>
    obtain ⟨-, h2, h3, h4, -⟩ := addToPacketHistory_frame now packet nodeId rssi s
    simp only [runCore]
    rw [h2, h3, h4]
    exact ⟨le_refl _, le_refl _, le_refl _⟩
  | cleanup now => exact ⟨le_refl _, le_refl _, le_refl _⟩
  | forward env packet nodeId =>
    obtain ⟨-, h2, -, -, hside⟩ := forwardPacket_result env packet nodeId s
    simp only [runCore]
    rw [h2, hside.2.2.2.1, hside.2.2.2.2.1]
    refine ⟨le_refl _, ?_, le_refl _⟩
    split_ifs <;> omega
  | relay parse now env packet =>
    simp only [runCore, forwardPacketToRelay]
    by_cases hx : (extractNodeId parse packet).1 = true
    · obtain ⟨-, -, -, d4, d5, -, d7⟩ :=
        isPacketDuplicate_frame now packet (extractNodeId parse packet).2 s
      by_cases hd : (isPacketDuplicate now packet (extractNodeId parse packet).2 s).1 = true
      · simp only [hx, hd, if_true, Bool.not_true, Bool.false_eq_true, if_false]
        rw [d4, d5, d7, hd]
        refine ⟨le_refl _, le_refl _, by simp⟩
      · simp only [Bool.not_eq_true] at hd
        obtain ⟨-, h2, -, -, hside⟩ := forwardPacket_result env packet
          (extractNodeId parse packet).2
          (isPacketDuplicate now packet (extractNodeId parse packet).2 s).2
        simp only [hx, hd, if_true, Bool.not_false]
        rw [h2, hside.2.2.2.1, hside.2.2.2.2.1, d4, d5, d7, hd]
        refine ⟨le_refl _, ?_, by simp⟩
        split_ifs <;> omega
    · simp only [hx, if_false]
      exact ⟨le_refl _, le_refl _, le_refl _⟩
  | checkHealth now =>
    obtain ⟨-, -, h3, hside⟩ := checkTargetHealth_result now s
    simp only [runCore]
    rw [h3, hside.2.2.2.1, hside.2.2.2.2.1]
    exact ⟨le_refl _, le_refl _, le_refl _⟩
  | markSuccess now name => exact ⟨le_refl _, le_refl _, le_refl _⟩
  | markFailure name =>
    obtain ⟨-, -, h3, hside⟩ := markTargetFailure_frame name s
    simp only [runCore]
    rw [h3, hside.2.2.2.1, hside.2.2.2.2.1]
    exact ⟨le_refl _, le_refl _, le_refl _⟩
  | add name type address port => exact ⟨le_refl _, le_refl _, le_refl _⟩
  | remove name =>
    simp only [runCore, removeForwardTarget]
    rcases findFirst name s.forwardTargets with _ | found
    · exact ⟨le_refl _, le_refl _, le_refl _⟩
    · exact ⟨le_refl _, le_refl _, le_refl _⟩
  | enable name enabled =>
    simp only [runCore, enableForwardTarget]
    rcases findFirst name s.forwardTargets with _ | found
    · exact ⟨le_refl _, le_refl _, le_refl _⟩
    · exact ⟨le_refl _, le_refl _, le_refl _⟩
  | load =>
    simp only [runCore, loadForwardTargets_eq]
    split_ifs
    · exact ⟨le_refl _, le_refl _, le_refl _⟩
    · exact ⟨le_refl _, le_refl _, le_refl _⟩
  | save => exact ⟨le_refl _, le_refl _, le_refl _⟩

/-- C23. The statistics counters accumulate monotonically: every core
operation other than `resetStatistics` (receipt, duplicate check, ledger
insertion and cleanup, `forwardPacket`, `forwardPacketToRelay`, the health
hooks and review, registry add, remove, enable, load and save), and hence
every sequence of such operations, leaves `totalReceived`, `totalForwarded`
and `totalDuplicates` each at least at its previous value; `resetStatistics`
sets the three to 0. -/
theorem counters_accumulate_monotonically (c : CoreCall) (calls : List CoreCall) (s : Relay) :
    (s.totalReceived ≤ (runCore c s).totalReceived ∧
      s.totalForwarded ≤ (runCore c s).totalForwarded ∧
      s.totalDuplicates ≤ (runCore c s).totalDuplicates) ∧
    (s.totalReceived ≤ (runCores calls s).totalReceived ∧
      s.totalForwarded ≤ (runCores calls s).totalForwarded ∧
      s.totalDuplicates ≤ (runCores calls s).totalDuplicates) ∧
    ((resetStatistics s).totalReceived = 0 ∧ (resetStatistics s).totalForwarded = 0 ∧
      (resetStatistics s).totalDuplicates = 0) := by
  refine ⟨runCore_counters c s, ?_, rfl, rfl, rfl⟩
  induction calls generalizing s with
  | nil => exact ⟨le_refl _, le_refl _, le_refl _⟩
  | cons d rest ih =>
    obtain ⟨a1, a2, a3⟩ := runCore_counters d s
    obtain ⟨b1, b2, b3⟩ := ih (runCore d s)
    exact ⟨le_trans a1 b1, le_trans a2 b2, le_trans a3 b3⟩

/-! ## Accounting of receipts -/

theorem processReceivedPacket_history_length (parse : String → JsonDocument) (now : Nat)
    (packet : String) (rssi : Int) (s : Relay) :
    (processReceivedPacket parse now packet rssi s).packetHistory.length ≤
      s.packetHistory.length +
        (if (isPacketDuplicate now packet (extractNodeId parse packet).2
          (noteReceived (extractNodeId parse packet).2 s)).1 then 0 else 1) := by
  by_cases hd : (isPacketDuplicate now packet (extractNodeId parse packet).2
      (noteReceived (extractNodeId parse packet).2 s)).1 = true
  · rw [processReceivedPacket_dup parse now packet rssi s hd, hd]
    simp [noteReceived]
  · simp only [Bool.not_eq_true] at hd
    rw [processReceivedPacket_fresh parse now packet rssi s hd, hd, addToPacketHistory_history]
    simp only [noteReceived, Bool.false_eq_true, if_false]
    split_ifs
    · simp
    · simp

/-- Receipts and cleanups from any state: what is received is either counted
as duplicate or recorded. -/
theorem receipts_accounting (calls : List CoreCall) (s : Relay)
    (hkind : ∀ c ∈ calls, isReceiveOrCleanup c = true) :
    (runCores calls s).totalReceived - s.totalReceived =
      ((runCores calls s).totalDuplicates - s.totalDuplicates) + (recordedCount calls s : Int) ∧
    s.totalDuplicates ≤ (runCores calls s).totalDuplicates ∧
    (runCores calls s).packetHistory.length ≤ s.packetHistory.length + recordedCount calls s := by
  induction calls generalizing s with
  | nil => simp [runCores, recordedCount]
  | cons c rest ih =>
    have hrest : ∀ d ∈ rest, isReceiveOrCleanup d = true := fun d hd =>
      hkind d (List.mem_cons_of_mem _ hd)
    have hc := hkind c (List.mem_cons_self _ _)
    obtain ⟨i1, i2, i3⟩ := ih (runCore c s) hrest
    cases c with
    | received parse now packet rssi =>
      obtain ⟨-, -, -, -, h5, h6⟩ := processReceivedPacket_frame parse now packet rssi s
      have hlen := processReceivedPacket_history_length parse now packet rssi s
      simp only [runCore] at i1 i2 i3
      simp only [runCores, recordedCount, runCore]
      rw [h5] at i1
      rw [h6] at i1 i2
      by_cases hd : (isPacketDuplicate now packet (extractNodeId parse packet).2
          (noteReceived (extractNodeId parse packet).2 s)).1 = true
      · simp only [hd, if_true] at i1 i2 hlen ⊢
        refine ⟨?_, ?_, ?_⟩
        · push_cast
          omega
        · omega
        · omega
      · simp only [Bool.not_eq_true] at hd
        simp only [hd, Bool.false_eq_true, if_false] at i1 i2 hlen ⊢
        refine ⟨?_, ?_, ?_⟩
        · push_cast
          omega
        · omega
        · omega
    | cleanup now =>
      have hlen := cleanupPacketHistory_length_le now s
      simp only [runCore] at i1 i2 i3
      simp only [runCores, recordedCount, runCore]
      have e1 : (cleanupPacketHistory now s).totalReceived = s.totalReceived := rfl
      have e2 : (cleanupPacketHistory now s).totalDuplicates = s.totalDuplicates := rfl
      rw [e1, e2] at i1
      rw [e2] at i2
      exact ⟨i1, i2, by omega⟩
    | duplicateCheck now packet nodeId => simp [isReceiveOrCleanup] at hc
    | addHistory now packet nodeId rssi => simp [isReceiveOrCleanup] at hc
    | forward env packet nodeId => simp [isReceiveOrCleanup] at hc
    | relay parse now env packet => simp [isReceiveOrCleanup] at hc
    | checkHealth now => simp [isReceiveOrCleanup] at hc
    | markSuccess now name => simp [isReceiveOrCleanup] at hc
    | markFailure name => simp [isReceiveOrCleanup] at hc
    | add name type address port => simp [isReceiveOrCleanup] at hc
    | remove name => simp [isReceiveOrCleanup] at hc
    | enable name enabled => simp [isReceiveOrCleanup] at hc
    | load => simp [isReceiveOrCleanup] at hc
    | save => simp [isReceiveOrCleanup] at hc

/-- C30. From the state left by `resetStatistics` (counters 0, empty ledger,
empty tracker), after any sequence of `processReceivedPacket` and
`cleanupPacketHistory` calls `totalReceived` equals `totalDuplicates` plus the
number of calls that appended a record to the ledger; in particular
`0 ≤ totalDuplicates ≤ totalReceived`, and the ledger holds at most
`totalReceived - totalDuplicates` records. -/
theorem received_equals_duplicates_plus_recorded (calls : List CoreCall) (s : Relay)
    (hkind : ∀ c ∈ calls, isReceiveOrCleanup c = true) :
    (runCores calls (resetStatistics s)).totalReceived =
      (runCores calls (resetStatistics s)).totalDuplicates +
        (recordedCount calls (resetStatistics s) : Int) ∧
    0 ≤ (runCores calls (resetStatistics s)).totalDuplicates ∧
    (runCores calls (resetStatistics s)).totalDuplicates ≤
      (runCores calls (resetStatistics s)).totalReceived ∧
    ((runCores calls (resetStatistics s)).packetHistory.length : Int) ≤
      (runCores calls (resetStatistics s)).totalReceived -
        (runCores calls (resetStatistics s)).totalDuplicates := by
  obtain ⟨h1, h2, h3⟩ := receipts_accounting calls (resetStatistics s) hkind
  have e1 : (resetStatistics s).totalReceived = 0 := rfl
  have e2 : (resetStatistics s).totalDuplicates = 0 := rfl
  have e3 : (resetStatistics s).packetHistory.length = 0 := rfl
  rw [e1, e2] at h1
  rw [e2] at h2
  rw [e3] at h3
  refine ⟨by omega, h2, by omega, by omega⟩

/-- Witness for C30: `ping` received at 1000 ms and again at 1500 ms, a
cleanup at 400000 ms, and `ok` received at 400100 ms. -/
theorem received_equals_duplicates_plus_recorded_witness :
    (runCores
      [.received (fun _ => []) 1000 "ping" (-70), .received (fun _ => []) 1500 "ping" (-71),
        .cleanup 400000, .received (fun _ => []) 400100 "ok" (-72)]
      (resetStatistics resetState)).totalReceived =
      (runCores
        [.received (fun _ => []) 1000 "ping" (-70), .received (fun _ => []) 1500 "ping" (-71),
          .cleanup 400000, .received (fun _ => []) 400100 "ok" (-72)]
        (resetStatistics resetState)).totalDuplicates +
        (recordedCount
          [.received (fun _ => []) 1000 "ping" (-70), .received (fun _ => []) 1500 "ping" (-71),
            .cleanup 400000, .received (fun _ => []) 400100 "ok" (-72)]
          (resetStatistics resetState) : Int) :=
  (received_equals_duplicates_plus_recorded
    [.received (fun _ => []) 1000 "ping" (-70), .received (fun _ => []) 1500 "ping" (-71),
      .cleanup 400000, .received (fun _ => []) 400100 "ok" (-72)]
    resetState
    (by
      intro c hc
      simp only [List.mem_cons, List.mem_singleton, List.not_mem_nil, or_false] at hc
      rcases hc with rfl | rfl | rfl | rfl <;> rfl)).1

/-! ## The per-target health invariant -/

theorem updateFirst_forall (name : String) (f : ForwardTarget → ForwardTarget)
    (P : ForwardTarget → Prop) (hf : ∀ t, P t → P (f t)) (ts : List ForwardTarget)
    (h : ∀ t ∈ ts, P t) : ∀ t ∈ updateFirst name f ts, P t := by
  induction ts with
  | nil => simp [updateFirst]
  | cons u rest ih =>
    have hu : P u := h u (List.mem_cons_self _ _)
    have hrest : ∀ t ∈ rest, P t := fun t ht => h t (List.mem_cons_of_mem _ ht)
    intro t ht
    by_cases hn : u.name = name
    · simp only [updateFirst, hn, if_true, List.mem_cons] at ht
      rcases ht with rfl | ht
      · exact hf u hu
      · exact hrest t ht
    · simp only [updateFirst, hn, if_false, List.mem_cons] at ht
      rcases ht with rfl | ht
      · exact hu
      · exact ih hrest t ht

theorem recordSuccess_healthy (now : Nat) (t : ForwardTarget) (_h : TargetHealthy t) :
    TargetHealthy (recordSuccess now t) := by
  simp [TargetHealthy, recordSuccess]

theorem recordFailure_healthy (t : ForwardTarget) (h : TargetHealthy t) :
    TargetHealthy (recordFailure t) := by
  obtain ⟨h1, h2⟩ := h
  by_cases h5 : t.failureCount + 1 ≥ 5
  · simp [TargetHealthy, recordFailure, h5]
  · simp only [TargetHealthy, recordFailure, h5, if_false]
    constructor
    · intro he
      obtain ⟨hlo, hhi⟩ := h1 he
      exact ⟨by omega, by omega⟩
    · intro hge
      exact hge.elim

theorem outcomeUpdate_healthy (e : SendEnv) (packet : String) (visited t : ForwardTarget)
    (h : TargetHealthy t) : TargetHealthy (outcomeUpdate e packet visited t) := by
  simp only [outcomeUpdate]
  split_ifs
  · exact recordSuccess_healthy _ t h
  · exact recordFailure_healthy t h

theorem healthReview_healthy (now : Nat) (t : ForwardTarget) (h : TargetHealthy t) :
    TargetHealthy (healthReview now t) := by
  simp only [healthReview]
  split_ifs
  · simp [TargetHealthy]
  · exact h

theorem forwardLoop_healthy (env : Nat → SendEnv) (packet : String) (s : Relay) (k : Nat)
    (h : ∀ t ∈ s.forwardTargets, TargetHealthy t) :
    ∀ t ∈ (forwardLoop env packet s k).2.forwardTargets, TargetHealthy t := by
  induction k with
  | zero => simpa [forwardLoop] using h
  | succ k ih =>
    rw [forwardLoop_succ]
    rcases hk : (forwardLoop env packet s k).2.forwardTargets[k]? with _ | t
    · rw [forwardStep_skip env packet _ k (Or.inl hk)]
      exact ih
    · by_cases he : t.enabled = true
      · obtain ⟨-, h2, -⟩ := forwardStep_enabled env packet (forwardLoop env packet s k) k t hk he
        rw [h2]
        exact updateFirst_forall _ _ TargetHealthy
          (fun u hu => outcomeUpdate_healthy (env k) packet t u hu) _ ih
      · simp only [Bool.not_eq_true] at he
        rw [forwardStep_skip env packet _ k (Or.inr ⟨t, hk, he⟩)]
        exact ih

theorem forwardPacket_healthy (env : Nat → SendEnv) (packet nodeId : String) (s : Relay)
    (h : RegistryHealthy s) : RegistryHealthy (forwardPacket env packet nodeId s).2 := by
  obtain ⟨-, -, -, htargets, -⟩ := forwardPacket_result env packet nodeId s
  simp only [RegistryHealthy]
  rw [htargets]
  exact forwardLoop_healthy env packet s _ h

theorem loadForwardTargets_healthy (s : Relay) : RegistryHealthy (loadForwardTargets s) := by
  have hrestored : ∀ t ∈ restoredTargets s.prefs, TargetHealthy t := by
    intro t ht
    simp only [restoredTargets, List.mem_filter, List.mem_map] at ht
    obtain ⟨⟨i, -, rfl⟩, -⟩ := ht
    simp [TargetHealthy, loadTarget]
  rw [loadForwardTargets_eq]
  split_ifs with hempty
  · intro t ht
    simp only [(addForwardTarget_appends _ _ _ _ _).2, List.mem_append, List.mem_singleton] at ht
    rcases ht with ht | rfl
    · exact hrestored t ht
    · simp [TargetHealthy]
  · exact hrestored

/-- Every core call other than `enableForwardTarget` keeps the invariant. -/
theorem runCore_healthy (c : CoreCall) (s : Relay) (hc : isEnableCall c = false)
    (h : RegistryHealthy s) : RegistryHealthy (runCore c s) := by
  cases c with
  | received parse now packet rssi =>
    simp only [RegistryHealthy, runCore, (processReceivedPacket_frame parse now packet rssi s).1]
    exact h
  | duplicateCheck now packet nodeId =>
    simp only [RegistryHealthy, runCore, (isPacketDuplicate_frame now packet nodeId s).1]
    exact h
  | addHistory now packet nodeId rssi =>
    simp only [RegistryHealthy, runCore,
      (addToPacketHistory_frame now packet nodeId rssi s).2.2.2.2.1]
    exact h
  | cleanup now => exact h
  | forward env packet nodeId => exact forwardPacket_healthy env packet nodeId s h
  | relay parse now env packet =>
    have hdup : RegistryHealthy
        (isPacketDuplicate now packet (extractNodeId parse packet).2 s).2 := by
      simp only [RegistryHealthy, (isPacketDuplicate_frame now packet _ s).1]
      exact h
    simp only [runCore, forwardPacketToRelay]
    split_ifs
    · exact forwardPacket_healthy env packet _ _ hdup
    · exact hdup
    · exact h
  | checkHealth now =>
    intro t ht
    simp only [runCore, (checkTargetHealth_result now s).1, List.mem_map] at ht
    obtain ⟨u, hu, rfl⟩ := ht
    exact healthReview_healthy now u (h u hu)
  | markSuccess now name =>
    exact updateFirst_forall name _ TargetHealthy
      (fun u hu => recordSuccess_healthy now u hu) _ h
  | markFailure name =>
    simp only [RegistryHealthy, runCore, (markTargetFailure_frame name s).1]
    exact updateFirst_forall name _ TargetHealthy (fun u hu => recordFailure_healthy u hu) _ h
  | add name type address port =>
    intro t ht
    simp only [runCore, (addForwardTarget_appends name type address port s).2, List.mem_append,
      List.mem_singleton] at ht
    rcases ht with ht | rfl
    · exact h t ht
    · simp [TargetHealthy]
  | remove name =>
    simp only [runCore, removeForwardTarget]
    rcases findFirst name s.forwardTargets with _ | found
    · exact h
    · intro t ht
      exact h t ((eraseFirst_sublist name s.forwardTargets).subset ht)
  | enable name enabled => simp [isEnableCall] at hc
  | load => exact loadForwardTargets_healthy s
  | save => exact h

theorem runCores_healthy (calls : List CoreCall) (s : Relay)
    (hcalls : ∀ c ∈ calls, isEnableCall c = false) (h : RegistryHealthy s) :
    RegistryHealthy (runCores calls s) := by
  induction calls generalizing s with
  | nil => exact h
  | cons c rest ih =>
    exact ih _ (fun d hd => hcalls d (List.mem_cons_of_mem _ hd))
      (runCore_healthy c s (hcalls c (List.mem_cons_self _ _)) h)

/-- C22. The per-target invariant, every enabled target has `failureCount`
between 0 and 4 and every target with `failureCount >= 5` is disabled, holds
right after `loadForwardTargets` and in an empty registry, and it is kept by
every sequence of core calls without an `enableForwardTarget` call:
`addForwardTarget`, `removeForwardTarget`, `forwardPacket` passes, the health
hooks, `checkTargetHealth`, reloads and the receive-side operations. -/
theorem health_invariant_without_operator_enable (calls : List CoreCall) (s : Relay)
    (hcalls : ∀ c ∈ calls, isEnableCall c = false) :
    (∀ t ∈ (runCores calls (loadForwardTargets s)).forwardTargets,
      (t.enabled = true → 0 ≤ t.failureCount ∧ t.failureCount ≤ 4) ∧
      (t.failureCount ≥ 5 → t.enabled = false)) ∧
    (s.forwardTargets = [] →
      ∀ t ∈ (runCores calls s).forwardTargets,
        (t.enabled = true → 0 ≤ t.failureCount ∧ t.failureCount ≤ 4) ∧
        (t.failureCount ≥ 5 → t.enabled = false)) ∧
    (RegistryHealthy s → RegistryHealthy (runCores calls s)) := by
  refine ⟨runCores_healthy calls _ hcalls (loadForwardTargets_healthy s), ?_,
    runCores_healthy calls s hcalls⟩
  intro hempty
  refine runCores_healthy calls s hcalls ?_
  intro t ht
  rw [hempty] at ht
  simp at ht

/-- Witness for C22: load from an empty store, add B, five failing passes, a
health review after eleven minutes, remove the default target. -/
theorem health_invariant_without_operator_enable_witness :
    RegistryHealthy
      (runCores
        [.add "B" .FORWARD_TCP "host2" 9000, .forward offline "p1" "H1",
          .forward offline "p2" "H1", .forward offline "p3" "H1", .forward offline "p4" "H1",
          .forward offline "p5" "H1", .checkHealth 660000, .remove "default-http"]
        (loadForwardTargets resetState)) :=
  (health_invariant_without_operator_enable
    [.add "B" .FORWARD_TCP "host2" 9000, .forward offline "p1" "H1",
      .forward offline "p2" "H1", .forward offline "p3" "H1", .forward offline "p4" "H1",
      .forward offline "p5" "H1", .checkHealth 660000, .remove "default-http"]
    resetState
    (by
      intro c hc
      simp only [List.mem_cons, List.mem_singleton, List.not_mem_nil, or_false] at hc
      rcases hc with rfl | rfl | rfl | rfl | rfl | rfl | rfl | rfl <;> rfl)).1

/-! ## Disabled targets stay disabled -/

theorem healthReview_enabled (now : Nat) (t : ForwardTarget) :
    (healthReview now t).enabled = t.enabled := by
  simp only [healthReview]
  split_ifs with h
  · exact h.1.symm
  · rfl

theorem healthReview_cases (now : Nat) (t : ForwardTarget) :
    healthReview now t = t ∨
    (t.enabled = true ∧ t.failureCount ≥ 5 ∧ millisDiff now t.lastSuccess > 600000 ∧
      healthReview now t = { t with failureCount := 0 }) := by
  by_cases h : t.enabled = true ∧ t.failureCount ≥ 5 ∧ millisDiff now t.lastSuccess > 600000
  · right
    refine ⟨h.1, h.2.1, h.2.2, ?_⟩
    obtain ⟨name, type, address, port, enabled, lastSuccess, failureCount⟩ := t
    simp only at h
    simp [healthReview, h]
  · left
    simp [healthReview, h]

theorem updateFirst_enabledAt (name : String) (f : ForwardTarget → ForwardTarget)
    (hf : ∀ t, (f t).enabled = true → t.enabled = true) (ts : List ForwardTarget) (i : Nat)
    (h : enabledAt (updateFirst name f ts) i = true) : enabledAt ts i = true := by
  induction ts generalizing i with
  | nil => simpa [updateFirst] using h
  | cons u rest ih =>
    by_cases hn : u.name = name
    · cases i with
      | zero =>
        simp only [updateFirst, hn, if_true, enabledAt, List.getElem?_cons_zero] at h ⊢
        exact hf u h
      | succ i =>
        simpa only [updateFirst, hn, if_true, enabledAt, List.getElem?_cons_succ] using h
    · cases i with
      | zero => simpa only [updateFirst, hn, if_false, enabledAt, List.getElem?_cons_zero] using h
      | succ i =>
        simp only [updateFirst, hn, if_false, enabledAt, List.getElem?_cons_succ] at h ⊢
        exact ih i h

theorem outcomeUpdate_enabled (e : SendEnv) (packet : String) (visited t : ForwardTarget)
    (h : (outcomeUpdate e packet visited t).enabled = true) : t.enabled = true := by
  simp only [outcomeUpdate] at h
  split_ifs at h
  · exact h
  · simp only [recordFailure] at h
    split_ifs at h
    · exact h

theorem forwardLoop_enabledAt (env : Nat → SendEnv) (packet : String) (s : Relay) (k i : Nat)
    (h : enabledAt (forwardLoop env packet s k).2.forwardTargets i = true) :
    enabledAt s.forwardTargets i = true := by
  induction k with
  | zero => simpa [forwardLoop] using h
  | succ k ih =>
    rw [forwardLoop_succ] at h
    rcases hk : (forwardLoop env packet s k).2.forwardTargets[k]? with _ | t
    · rw [forwardStep_skip env packet _ k (Or.inl hk)] at h
      exact ih h
    · by_cases he : t.enabled = true
      · obtain ⟨-, h2, -⟩ := forwardStep_enabled env packet (forwardLoop env packet s k) k t hk he
        rw [h2] at h
        exact ih (updateFirst_enabledAt _ _ (outcomeUpdate_enabled (env k) packet t) _ i h)
      · simp only [Bool.not_eq_true] at he
        rw [forwardStep_skip env packet _ k (Or.inr ⟨t, hk, he⟩)] at h
        exact ih h

/-- A `forwardPacket` or `checkTargetHealth` call keeps the length of the
registry and enables no position. -/
theorem runCore_forwardOrCheck (c : CoreCall) (s : Relay) (hc : isForwardOrCheck c = true) :
    (runCore c s).forwardTargets.length = s.forwardTargets.length ∧
    ∀ i, enabledAt (runCore c s).forwardTargets i = true → enabledAt s.forwardTargets i = true := by
  cases c with
  | forward env packet nodeId =>
    obtain ⟨-, -, -, htargets, -⟩ := forwardPacket_result env packet nodeId s
    have hnames := forwardPacket_names env packet nodeId s
    refine ⟨by simpa using congrArg List.length hnames, ?_⟩
    intro i hi
    simp only [runCore, htargets] at hi
    exact forwardLoop_enabledAt env packet s _ i hi
  | checkHealth now =>
    obtain ⟨htargets, -⟩ := checkTargetHealth_result now s
    simp only [runCore, htargets, List.length_map, true_and]
    intro i hi
    simp only [enabledAt, List.getElem?_map] at hi ⊢
    rcases hs : s.forwardTargets[i]? with _ | t
    · simp [hs] at hi
    · simpa [hs, healthReview_enabled] using hi
  | received parse now packet rssi => simp [isForwardOrCheck] at hc
  | duplicateCheck now packet nodeId => simp [isForwardOrCheck] at hc
  | addHistory now packet nodeId rssi => simp [isForwardOrCheck] at hc
  | cleanup now => simp [isForwardOrCheck] at hc
  | relay parse now env packet => simp [isForwardOrCheck] at hc
  | markSuccess now name => simp [isForwardOrCheck] at hc
  | markFailure name => simp [isForwardOrCheck] at hc
  | add name type address port => simp [isForwardOrCheck] at hc
  | remove name => simp [isForwardOrCheck] at hc
  | enable name enabled => simp [isForwardOrCheck] at hc
  | load => simp [isForwardOrCheck] at hc
  | save => simp [isForwardOrCheck] at hc

theorem runCores_forwardOrCheck (calls : List CoreCall) (s : Relay)
    (hcalls : ∀ c ∈ calls, isForwardOrCheck c = true) :
    (runCores calls s).forwardTargets.length = s.forwardTargets.length ∧
    ∀ i, enabledAt (runCores calls s).forwardTargets i = true →
      enabledAt s.forwardTargets i = true := by
  induction calls generalizing s with
  | nil => exact ⟨rfl, fun _ h => h⟩
  | cons c rest ih =>
    obtain ⟨a1, a2⟩ := runCore_forwardOrCheck c s (hcalls c (List.mem_cons_self _ _))
    obtain ⟨b1, b2⟩ := ih (runCore c s) (fun d hd => hcalls d (List.mem_cons_of_mem _ hd))
    exact ⟨b1.trans a1, fun i h => a2 i (b2 i h)⟩

/-- C27. `checkTargetHealth` never changes the `enabled` flag of a target, for
every registry and clock reading: it maps each target to itself, except that a
target that is already enabled with `failureCount >= 5` and
`now - lastSuccess > 600000` gets `failureCount` 0; a disabled target is left
exactly as it is. Hence a target that is disabled stays disabled, at its
position, under every sequence of `forwardPacket` and `checkTargetHealth`
calls. -/
theorem checkTargetHealth_never_enables (now : Nat) (s : Relay) (calls : List CoreCall) :
    (checkTargetHealth now s).forwardTargets = s.forwardTargets.map (healthReview now) ∧
    (checkTargetHealth now s).forwardTargets.map (fun t => t.enabled) =
      s.forwardTargets.map (fun t => t.enabled) ∧
    (∀ t, t.enabled = false → healthReview now t = t) ∧
    (∀ t, healthReview now t = t ∨
      (t.enabled = true ∧ t.failureCount ≥ 5 ∧ millisDiff now t.lastSuccess > 600000 ∧
        healthReview now t = { t with failureCount := 0 })) ∧
    ((∀ c ∈ calls, isForwardOrCheck c = true) →
      ∀ (i : Nat) (t : ForwardTarget), s.forwardTargets[i]? = some t → t.enabled = false →
        ∃ u, (runCores calls s).forwardTargets[i]? = some u ∧ u.enabled = false) := by
  obtain ⟨htargets, -⟩ := checkTargetHealth_result now s
  refine ⟨htargets, ?_, healthReview_disabled now, healthReview_cases now, ?_⟩
  · rw [htargets, List.map_map]
    apply List.map_congr_left
    intro t _
    exact healthReview_enabled now t
  · intro hcalls i t hi hd
    obtain ⟨hlen, hmono⟩ := runCores_forwardOrCheck calls s hcalls
    have hlt : i < s.forwardTargets.length := by
      by_contra hge
      rw [List.getElem?_eq_none (by omega)] at hi
      exact Option.noConfusion hi
    have hlt2 : i < (runCores calls s).forwardTargets.length := by omega
    obtain ⟨u, hsome⟩ : ∃ u, (runCores calls s).forwardTargets[i]? = some u :=
      ⟨(runCores calls s).forwardTargets[i], List.getElem?_eq_getElem hlt2⟩
    refine ⟨u, hsome, ?_⟩
    by_contra hen
    simp only [Bool.not_eq_false] at hen
    have h1 : enabledAt (runCores calls s).forwardTargets i = true := by
      simp only [enabledAt, hsome]
      exact hen
    have h2 := hmono i h1
    simp only [enabledAt, hi] at h2
    rw [hd] at h2
    exact Bool.noConfusion h2

/-! ## Operator re-enable -/

/-- Witness for C27: target B, disabled after five failures, is still disabled
after a pass and a health review eleven minutes later. -/
theorem checkTargetHealth_never_enables_witness :
    ∃ u, (runCores [.forward offline "p6" "H1", .checkHealth 700000]
        { resetState with
          forwardTargets :=
            [{ targetB with enabled := false, failureCount := 5 }] }).forwardTargets[0]? =
        some u ∧ u.enabled = false :=
  (checkTargetHealth_never_enables 700000
    { resetState with forwardTargets := [{ targetB with enabled := false, failureCount := 5 }] }
    [.forward offline "p6" "H1", .checkHealth 700000]).2.2.2.2
    (by
      intro c hc
      simp only [List.mem_cons, List.mem_singleton, List.not_mem_nil, or_false] at hc
      rcases hc with rfl | rfl <;> rfl)
    0 { targetB with enabled := false, failureCount := 5 } rfl rfl

/-- A position that follows another holder of its name is never the one
`updateFirst` changes. -/
theorem updateFirst_getElem?_shadowed (name : String) (f : ForwardTarget → ForwardTarget)
    (ts : List ForwardTarget) (i j : Nat) (a b : ForwardTarget) (hij : i < j)
    (hi : ts[i]? = some a) (hj : ts[j]? = some b) (hname : a.name = b.name) :
    (updateFirst name f ts)[j]? = some b := by
  by_cases hn : b.name = name
  · rw [updateFirst_getElem?_after name f ts i j a hi (hname.trans hn) hij]
    exact hj
  · exact updateFirst_getElem?_other name f ts j b hj hn

theorem forwardLoop_shadowed (env : Nat → SendEnv) (packet : String) (s : Relay) (i j : Nat)
    (a b : ForwardTarget) (hij : i < j) (hi : s.forwardTargets[i]? = some a)
    (hj : s.forwardTargets[j]? = some b) (hname : a.name = b.name) (k : Nat) :
    (forwardLoop env packet s k).2.forwardTargets[j]? = some b := by
  induction k with
  | zero => simpa [forwardLoop] using hj
  | succ k ih =>
    obtain ⟨-, hnames, -⟩ := forwardLoop_invariant env packet s k
    rw [forwardLoop_succ]
    rcases hk : (forwardLoop env packet s k).2.forwardTargets[k]? with _ | t
    · rw [forwardStep_skip env packet _ k (Or.inl hk)]
      exact ih
    · by_cases he : t.enabled = true
      · obtain ⟨-, h2, -⟩ := forwardStep_enabled env packet (forwardLoop env packet s k) k t hk he
        obtain ⟨a1, ha1, ha1n⟩ := getElem?_name_of_map_eq _ _ i a hnames.symm hi
        rw [h2]
        exact updateFirst_getElem?_shadowed _ _ _ i j a1 b hij ha1 ih (ha1n.trans hname)
      · simp only [Bool.not_eq_true] at he
        rw [forwardStep_skip env packet _ k (Or.inr ⟨t, hk, he⟩)]
        exact ih

theorem forwardPackets_shadowed (passes : List Pass) (s : Relay) (i j : Nat)
    (a b : ForwardTarget) (hij : i < j) (hi : s.forwardTargets[i]? = some a)
    (hj : s.forwardTargets[j]? = some b) (hname : a.name = b.name) :
    (forwardPackets passes s).forwardTargets[j]? = some b := by
  induction passes generalizing s a with
  | nil => simpa [forwardPackets] using hj
  | cons p rest ih =>
    obtain ⟨-, -, -, htargets, -⟩ := forwardPacket_result p.env p.packet p.nodeId s
    have hnames := forwardPacket_names p.env p.packet p.nodeId s
    obtain ⟨a1, ha1, ha1n⟩ := getElem?_name_of_map_eq _ _ i a hnames.symm hi
    have hj1 : (forwardPacket p.env p.packet p.nodeId s).2.forwardTargets[j]? = some b := by
      rw [htargets]
      exact forwardLoop_shadowed p.env p.packet s i j a b hij hi hj hname _
    simp only [forwardPackets]
    exact ih _ a1 ha1 hj1 (ha1n.trans hname)

theorem passUpdate_name (e : SendEnv) (packet : String) (visited t : ForwardTarget) :
    (passUpdate e packet visited t).name = t.name := by
  simp only [passUpdate]
  split_ifs
  · exact outcomeUpdate_name e packet visited t
  · rfl

/-- The effect of the first `k` iterations on the earlier of exactly two
entries that share a name. -/
theorem forwardLoop_pair (env : Nat → SendEnv) (packet : String) (s : Relay) (i j : Nat)
    (a b : ForwardTarget) (hij : i < j) (hi : s.forwardTargets[i]? = some a)
    (hj : s.forwardTargets[j]? = some b) (hname : a.name = b.name)
    (honly : ∀ k u, s.forwardTargets[k]? = some u → u.name = a.name → k = i ∨ k = j)
    (k : Nat) :
    (forwardLoop env packet s k).2.forwardTargets[i]? =
      some (if k ≤ i then a
        else if k ≤ j then passUpdate (env i) packet a a
        else passUpdate (env j) packet b (passUpdate (env i) packet a a)) := by
  induction k with
  | zero => simpa [forwardLoop] using hi
  | succ k ih =>
    obtain ⟨hpos, hnames, -⟩ := forwardLoop_invariant env packet s k
    rw [forwardLoop_succ]
    have hk := hpos k (le_refl k)
    have hfirst : ∀ m v, m < i → (forwardLoop env packet s k).2.forwardTargets[m]? = some v →
        v.name ≠ a.name := by
      intro m v hm hv hvn
      obtain ⟨w, hw, hwn⟩ := getElem?_name_of_map_eq _ _ m v hnames hv
      rcases honly m w hw (hwn.trans hvn) with h | h <;> omega
    rcases hs : s.forwardTargets[k]? with _ | u
    · rw [forwardStep_skip env packet _ k (Or.inl (hk.trans hs)), ih]
      have hki : k ≠ i := by
        rintro rfl
        rw [hs] at hi
        exact Option.noConfusion hi
      have hkj : k ≠ j := by
        rintro rfl
        rw [hs] at hj
        exact Option.noConfusion hj
      by_cases h1 : k ≤ i
      · have : k + 1 ≤ i := by omega
        simp [h1, this]
      · by_cases h2 : k ≤ j
        · have h3 : ¬ k + 1 ≤ i := by omega
          have h4 : k + 1 ≤ j := by omega
          simp [h1, h2, h3, h4]
        · have h3 : ¬ k + 1 ≤ i := by omega
          have h4 : ¬ k + 1 ≤ j := by omega
          simp [h1, h2, h3, h4]
    · by_cases he : u.enabled = true
      · obtain ⟨-, hstep, -⟩ :=
          forwardStep_enabled env packet (forwardLoop env packet s k) k u (hk.trans hs) he
        rw [hstep]
        by_cases hki : k = i
        · subst hki
          rw [hs] at hi
          cases hi
          have hcur : (forwardLoop env packet s k).2.forwardTargets[k]? = some a := hk.trans hs
          rw [updateFirst_getElem?_first a.name _ _ k a hcur rfl hfirst]
          have h1 : ¬ k + 1 ≤ k := by omega
          have h2 : k + 1 ≤ j := by omega
          simp [h1, h2, passUpdate, he]
        · by_cases hkj : k = j
          · subst hkj
            rw [hs] at hj
            cases hj
            have hcur : (forwardLoop env packet s k).2.forwardTargets[i]? =
                some (passUpdate (env i) packet a a) := by
              rw [ih]
              have h1 : ¬ k ≤ i := by omega
              simp [h1]
            rw [updateFirst_getElem?_first b.name _ _ i _ hcur
              ((passUpdate_name _ _ _ _).trans hname)
              (fun m v hm hv hvn => hfirst m v hm hv (hvn.trans hname.symm))]
            have h1 : ¬ k + 1 ≤ i := by omega
            have h2 : ¬ k + 1 ≤ k := by omega
            simp [h1, h2, passUpdate, he]
          · have hne : u.name ≠ a.name := by
              intro h
              rcases honly k u hs h with h | h
              · exact hki h
              · exact hkj h
            rw [updateFirst_getElem?_other u.name _ _ i _ ih]
            · by_cases h1 : k ≤ i
              · have : k + 1 ≤ i := by omega
                simp [h1, this]
              · by_cases h2 : k ≤ j
                · have h3 : ¬ k + 1 ≤ i := by omega
                  have h4 : k + 1 ≤ j := by omega
                  simp [h1, h2, h3, h4]
                · have h3 : ¬ k + 1 ≤ i := by omega
                  have h4 : ¬ k + 1 ≤ j := by omega
                  simp [h1, h2, h3, h4]
            · intro hcontra
              apply hne
              rw [← hcontra]
              split_ifs
              · rfl
              · exact passUpdate_name _ _ _ _
              · exact (passUpdate_name _ _ _ _).trans (passUpdate_name _ _ _ _)
      · simp only [Bool.not_eq_true] at he
        rw [forwardStep_skip env packet _ k (Or.inr ⟨u, hk.trans hs, he⟩), ih]
        by_cases hki : k = i
        · subst hki
          rw [hs] at hi
          cases hi
          have h1 : ¬ k + 1 ≤ k := by omega
          have h2 : k + 1 ≤ j := by omega
          simp [h1, h2, passUpdate, he]
        · by_cases hkj : k = j
          · subst hkj
            rw [hs] at hj
            cases hj
            have h1 : ¬ k ≤ i := by omega
            have h2 : ¬ k + 1 ≤ i := by omega
            have h3 : ¬ k + 1 ≤ k := by omega
            simp [h1, h2, h3, passUpdate, he]
          · by_cases h1 : k ≤ i
            · have : k + 1 ≤ i := by omega
              simp [h1, this]
            · by_cases h2 : k ≤ j
              · have h3 : ¬ k + 1 ≤ i := by omega
                have h4 : k + 1 ≤ j := by omega
                simp [h1, h2, h3, h4]
              · have h3 : ¬ k + 1 ≤ i := by omega
                have h4 : ¬ k + 1 ≤ j := by omega
                simp [h1, h2, h3, h4]

/-- C29: when the entries at positions `i < j` of the registry carry the same
name and `i` is the first position holding it, health updates go by name to
the entry at `i`. The entry at `j` is unchanged by any sequence of
`forwardPacket` passes, whatever the outcome of the sends; `markTargetFailure`
and `markTargetSuccess` called with the shared name change the entry at `i`
and leave the entry at `j`; the loop iteration that sends to the entry at `j`
applies the outcome of that send to the entry at `i`; and, when no third entry
carries the name, one whole pass applies to the entry at `i` first the outcome
of its own send and then the outcome of the send to the entry at `j`. -/
theorem shared_name_updates_first_entry (s : Relay) (i j : Nat) (a b : ForwardTarget)
    (hij : i < j) (hi : s.forwardTargets[i]? = some a) (hj : s.forwardTargets[j]? = some b)
    (hname : a.name = b.name)
    (hfirst : ∀ m u, m < i → s.forwardTargets[m]? = some u → u.name ≠ a.name) :
    (∀ passes : List Pass, (forwardPackets passes s).forwardTargets[j]? = some b) ∧
    ((markTargetFailure b.name s).forwardTargets[i]? = some (recordFailure a) ∧
      (markTargetFailure b.name s).forwardTargets[j]? = some b) ∧
    (∀ now : Nat,
      (markTargetSuccess now b.name s).forwardTargets[i]? = some (recordSuccess now a) ∧
      (markTargetSuccess now b.name s).forwardTargets[j]? = some b) ∧
    (∀ (env : Nat → SendEnv) (packet : String) (flag : Bool), b.enabled = true →
      (forwardStep env packet (flag, s) j).2.forwardTargets[i]? =
        some (outcomeUpdate (env j) packet b a) ∧
      (forwardStep env packet (flag, s) j).2.forwardTargets[j]? = some b) ∧
    (∀ (env : Nat → SendEnv) (packet nodeId : String),
      (∀ k u, s.forwardTargets[k]? = some u → u.name = a.name → k = i ∨ k = j) →
      (forwardPacket env packet nodeId s).2.forwardTargets[i]? =
        some (passUpdate (env j) packet b (passUpdate (env i) packet a a))) := by
  have hfirstb : ∀ m u, m < i → s.forwardTargets[m]? = some u → u.name ≠ b.name :=
    fun m u hm hu hn => hfirst m u hm hu (hn.trans hname.symm)
  refine ⟨fun passes => forwardPackets_shadowed passes s i j a b hij hi hj hname,
    ⟨?_, ?_⟩, fun now => ⟨?_, ?_⟩, fun env packet flag he => ?_, fun env packet nodeId honly => ?_⟩
  · rw [(markTargetFailure_frame b.name s).1]
    exact updateFirst_getElem?_first b.name _ _ i a hi hname hfirstb
  · rw [(markTargetFailure_frame b.name s).1]
    exact updateFirst_getElem?_shadowed _ _ _ i j a b hij hi hj hname
  · simp only [markTargetSuccess]
    exact updateFirst_getElem?_first b.name _ _ i a hi hname hfirstb
  · simp only [markTargetSuccess]
    exact updateFirst_getElem?_shadowed _ _ _ i j a b hij hi hj hname
  · obtain ⟨-, hstep, -⟩ := forwardStep_enabled env packet (flag, s) j b hj he
    rw [hstep]
    exact ⟨updateFirst_getElem?_first b.name _ _ i a hi hname hfirstb,
      updateFirst_getElem?_shadowed _ _ _ i j a b hij hi hj hname⟩
  · obtain ⟨-, -, -, htargets, -⟩ := forwardPacket_result env packet nodeId s
    rw [htargets, forwardLoop_pair env packet s i j a b hij hi hj hname honly]
    have hlen : j < s.forwardTargets.length := by
      by_contra hge
      rw [List.getElem?_eq_none (by omega)] at hj
      exact Option.noConfusion hj
    have h1 : ¬ s.forwardTargets.length ≤ i := by omega
    have h2 : ¬ s.forwardTargets.length ≤ j := by omega
    simp [h1, h2]

/-- Witness for C29: two enabled entries named `A`; after five passes while the
network is unreachable the second entry is as it was. -/
theorem shared_name_updates_first_entry_witness :
    (forwardPackets
      [⟨offline, "p1", "H1"⟩, ⟨offline, "p2", "H1"⟩, ⟨offline, "p3", "H1"⟩,
        ⟨offline, "p4", "H1"⟩, ⟨offline, "p5", "H1"⟩]
      { resetState with
        forwardTargets := [targetA, { targetB with name := "A" }] }).forwardTargets[1]? =
      some { targetB with name := "A" } :=
  (shared_name_updates_first_entry
    { resetState with forwardTargets := [targetA, { targetB with name := "A" }] }
    0 1 targetA { targetB with name := "A" } (by decide) rfl rfl rfl
    (fun m _ hm => absurd hm (Nat.not_lt_zero m))).1 _

end LoRaRelay
